import Mathlib

set_option maxHeartbeats 1600000

/- Shallow embedding of the Codebase Explorer server (server.js).
   JavaScript strings are modelled as Lean `String` values and manipulated
   through their underlying character lists; Node's `path.posix` functions are
   reimplemented character by character from Node's algorithms.  The server is
   assumed to run on a POSIX platform, so the platform-dependent `path.join`,
   `path.sep` and `path.resolve` used by `safeExtractZip` coincide with their
   `path.posix` variants. -/

/-- Splitting a character list on the slash character, matching the behaviour
of JavaScript `"…".split("/")` (an empty string yields one empty segment). -/
def splitSlash : List Char → List (List Char)
  | [] => [[]]
  | c :: cs =>
    if c = '/' then [] :: splitSlash cs
    else
      match splitSlash cs with
      | [] => [[c]]
      | s :: ss => (c :: s) :: ss

/-- Joining segments with slashes (inverse of `splitSlash` on slash-free
nonempty segments). -/
def joinSegs : List (List Char) → List Char
  | [] => []
  | [s] => s
  | s :: ss => s ++ '/' :: joinSegs ss

/-- Boolean test that the first list is a leading part of the second,
modelling JavaScript `s.startsWith(p)` (with arguments `p`, `s`). -/
def isPre : List Char → List Char → Bool
  | [], _ => true
  | _, [] => false
  | a :: as, b :: bs => a = b && isPre as bs

/-- Boolean substring test, modelling JavaScript `s.includes(sub)`. -/
def containsSub (sub : List Char) : List Char → Bool
  | [] => decide (sub = [])
  | c :: cs => isPre sub (c :: cs) || containsSub sub cs

/-- The parent-directory path segment `..` as a character list. -/
def dotdot : List Char := ['.', '.']

/-- One step of Node's `normalizeString` loop over path segments: empty and
`.` segments are dropped, `..` pops the previous real segment (or is kept,
when `allowAbove` is set and nothing can be popped), and any other segment is
appended. -/
def normStep (allowAbove : Bool) (acc : List (List Char)) (seg : List Char) :
    List (List Char) :=
  if seg = [] ∨ seg = ['.'] then acc
  else if seg = dotdot then
    if acc ≠ [] ∧ acc.getLast? ≠ some dotdot then acc.dropLast
    else if allowAbove then acc ++ [dotdot] else acc
  else acc ++ [seg]

/-- Node's `normalizeString` on a list of path segments. -/
def normSegs (allowAbove : Bool) (segs : List (List Char)) : List (List Char) :=
  segs.foldl (normStep allowAbove) []

/-- Model of `path.posix.isAbsolute`. -/
def posixIsAbsolute (p : String) : Bool :=
  isPre ['/'] p.data

/-- Model of `path.posix.normalize`, following Node's implementation: an empty
path yields `.`, the segments are normalised with `normalizeString` (interior
`..` segments are resolved, leading ones kept for relative paths), a leading
slash and a trailing slash are restored, and the degenerate empty results
become `/`, `./` or `.`. -/
def posixNormalize (p : String) : String :=
  let cs := p.data
  if cs = [] then "."
  else
    let isAbs := isPre ['/'] cs
    let hasTrail := cs.getLast? = some '/'
    let body := joinSegs (normSegs (!isAbs) (splitSlash cs))
    if body = [] then
      if isAbs then "/" else if hasTrail then "./" else "."
    else
      String.mk ((if isAbs then ['/'] else []) ++ body ++
        (if hasTrail then ['/'] else []))

/-- Model of `path.posix.join` for two arguments: empty parts are skipped, the
rest are joined with a slash and normalised; with no nonempty part the result
is `.`. -/
def posixJoin (a b : String) : String :=
  if a = "" ∧ b = "" then "."
  else if a = "" then posixNormalize b
  else if b = "" then posixNormalize a
  else posixNormalize (String.mk (a.data ++ '/' :: b.data))

/-- Model of `path.posix.dirname`, following Node's scan from the right:
trailing slashes are skipped, then the base name, and everything before the
slash that precedes the base name is returned (with `/` and `.` special
cases). -/
def posixDirname (p : String) : String :=
  let cs := p.data
  let hasRoot := isPre ['/'] cs
  let r := (cs.reverse.dropWhile (· = '/')).dropWhile (· ≠ '/')
  match r with
  | [] => if hasRoot then "/" else "."
  | _ :: rest => if rest = [] ∧ hasRoot then "/" else String.mk rest.reverse

/-- Model of `path.posix.resolve` for a single argument, with the process
working directory `cwd` (assumed absolute) supplied explicitly: a relative
path is prefixed with `cwd`, and the result is normalised with `..` resolution
that never climbs above the root. -/
def posixResolve (cwd p : String) : String :=
  let full := if posixIsAbsolute p then p.data else cwd.data ++ '/' :: p.data
  String.mk ('/' :: joinSegs (normSegs false (splitSlash full)))

/-- Model of `path.extname` (POSIX): the extension of the base name from its
last dot, empty when there is no dot, when the dot is the first character of
the base name, or when the base name is exactly `..`. -/
def extname (p : String) : String :=
  let bn := (p.data.reverse.takeWhile (· ≠ '/')).reverse
  let afterDot := (bn.reverse.takeWhile (· ≠ '.')).length
  if afterDot = bn.length then ""
  else
    let i := bn.length - 1 - afterDot
    if i = 0 ∨ bn = dotdot then "" else String.mk (bn.drop i)

/-- Model of JavaScript `s.toLowerCase()` restricted to the character-wise
lowering that the analysed extensions need. -/
def toLowerStr (s : String) : String :=
  String.mk (s.data.map Char.toLower)

/-- Model of JavaScript `s.replace(/\\/g, "/")`. -/
def backslashToSlash (s : String) : String :=
  String.mk (s.data.map fun c => if c = '\\' then '/' else c)

example : posixNormalize "a/./c" = "a/c" := by decide
example : posixNormalize "a/../../b" = "../b" := by decide
example : posixNormalize "/a/../../b" = "/b" := by decide
example : posixNormalize "x/.." = "." := by decide
example : posixNormalize "a//b/" = "a/b/" := by decide
example : posixDirname "a/b.js" = "a" := by decide
example : posixDirname "b.js" = "." := by decide
example : posixDirname "/a" = "/" := by decide
example : posixResolve "/w" "a/b" = "/w/a/b" := by decide
example : posixResolve "/w" "/t/x" = "/t/x" := by decide
example : extname "a/b.js" = ".js" := by decide
example : extname "README" = "" := by decide
example : extname ".bashrc" = "" := by decide
example : extname "a.b.c" = ".c" := by decide
example : posixJoin "a" "index.js" = "a/index.js" := by decide

/-- One record of the opened ZIP directory (`unzipper.Open.file(...).files`):
the raw entry path, the entry type (`"Directory"` entries are skipped by the
extractor), the declared uncompressed size already coerced by
`Number(entry.uncompressedSize || 0)` (absent sizes become `0`), and the sizes
of the data chunks that `entry.stream()` delivers — the untrusted actual
content, which may disagree with the declared size. -/
structure ZipEntry where
  path : String
  type : String
  uncompressedSize : Nat
  chunks : List Nat
deriving DecidableEq, Repr

/-- The safety limits passed to `safeExtractZip`. -/
structure Limits where
  maxFiles : Nat
  maxFileBytes : Nat
  maxTotalBytes : Nat
deriving DecidableEq, Repr

/-- The two error kinds thrown by `safeExtractZip`: `UNSAFE_ZIP_PATH`
(the spec's `UnsafePath`) and `ZIP_LIMITS_EXCEEDED` (the spec's
`LimitExceeded`). -/
inductive ZipError where
  | unsafePath
  | limitsExceeded
deriving DecidableEq, Repr

/-- The mutable state of one `safeExtractZip` run: the running total of
declared uncompressed sizes (`extractedTotalBytes`), the processed-file
counter (`extractedFilesCount`), and the files created on disk as
(destination path, bytes delivered to the write stream) pairs. -/
structure ExtractState where
  extractedTotalBytes : Nat
  extractedFilesCount : Nat
  written : List (String × Nat)
deriving DecidableEq, Repr

/-- The state at the start of a `safeExtractZip` run. -/
def initialExtractState : ExtractState :=
  { extractedTotalBytes := 0, extractedFilesCount := 0, written := [] }

/-- Streaming one entry's chunks into the destination file while counting the
bytes as they arrive: the moment the cumulative count exceeds `maxFileBytes`
both streams are destroyed and the promise is rejected with
`ZIP_LIMITS_EXCEEDED`.  Returns the bytes delivered to the write stream
together with the error if the cap was hit. -/
def streamChunks (maxFileBytes : Nat) : Nat → List Nat → Nat × Option ZipError
  | w, [] => (w, none)
  | w, c :: cs =>
    let w' := w + c
    if maxFileBytes < w' then (w', some ZipError.limitsExceeded)
    else streamChunks maxFileBytes w' cs

/-- Processing of one archive entry by `safeExtractZip`, in source order:
directory entries are skipped; the file counter is incremented and checked
against `maxFiles`; the declared size is checked against `maxFileBytes`; the
declared running total is updated and checked against `maxTotalBytes`; the
entry path (backslashes replaced) is normalised and rejected as
`UNSAFE_ZIP_PATH` when it starts with `..`, contains `/../`, or is absolute
(check 1); the destination joined with the target directory is resolved and
rejected as `UNSAFE_ZIP_PATH` unless it equals the resolved target directory
or starts with it plus the path separator (check 2); finally the entry is
streamed under the per-file byte cap, recording the file created on disk
(also when streaming aborts and leaves a partial file). -/
def processEntry (cwd targetDir : String) (limits : Limits)
    (st : ExtractState) (e : ZipEntry) : Option ZipError × ExtractState :=
  if e.type = "Directory" then (none, st)
  else
    let st1 := { st with extractedFilesCount := st.extractedFilesCount + 1 }
    if limits.maxFiles < st1.extractedFilesCount then
      (some ZipError.limitsExceeded, st1)
    else if limits.maxFileBytes < e.uncompressedSize then
      (some ZipError.limitsExceeded, st1)
    else
      let st2 := { st1 with
        extractedTotalBytes := st1.extractedTotalBytes + e.uncompressedSize }
      if limits.maxTotalBytes < st2.extractedTotalBytes then
        (some ZipError.limitsExceeded, st2)
      else
        let relPath := backslashToSlash e.path
        let normalizedRelPath := posixNormalize relPath
        if isPre dotdot normalizedRelPath.data ||
            containsSub ['/', '.', '.', '/'] normalizedRelPath.data ||
            posixIsAbsolute normalizedRelPath then
          (some ZipError.unsafePath, st2)
        else
          let destinationPath := posixJoin targetDir normalizedRelPath
          let resolvedTargetDir := posixResolve cwd targetDir
          let resolvedDestinationPath := posixResolve cwd destinationPath
          if !isPre (resolvedTargetDir.data ++ ['/'])
                resolvedDestinationPath.data &&
              resolvedDestinationPath ≠ resolvedTargetDir then
            (some ZipError.unsafePath, st2)
          else
            match streamChunks limits.maxFileBytes 0 e.chunks with
            | (w, err?) =>
              (err?, { st2 with written := st2.written ++ [(destinationPath, w)] })

/-- The entry loop of `safeExtractZip`: entries are processed in order and the
first error aborts the whole extraction, so no entry after the failing one is
processed. -/
def runEntries (cwd targetDir : String) (limits : Limits) :
    ExtractState → List ZipEntry → Option ZipError × ExtractState
  | st, [] => (none, st)
  | st, e :: es =>
    match processEntry cwd targetDir limits st e with
    | (some err, st') => (some err, st')
    | (none, st') => runEntries cwd targetDir limits st' es

/-- Model of `safeExtractZip(zipPath, targetDir, limits)` applied to the entry
list of the opened archive; `cwd` is the process working directory used by
`path.resolve`. -/
def safeExtractZip (cwd targetDir : String) (limits : Limits)
    (entries : List ZipEntry) : Option ZipError × ExtractState :=
  runEntries cwd targetDir limits initialExtractState entries

/-- The filesystem-affecting actions the `/upload` handler can take after
extraction. -/
inductive ServerAction where
  | scheduleCleanup (archivePath extractionTargetDir : String)
  | removePath (p : String)
deriving DecidableEq, Repr

/-- The response the `/upload` handler sends for a ZIP upload: the HTTP
status, the `ok` field, and whether the body carries the tree and graph. -/
structure UploadResponse where
  status : Nat
  ok : Bool
  servesTreeAndGraph : Bool
deriving DecidableEq, Repr

/-- What one ZIP upload request does after `safeExtractZip` returns: the
filesystem actions taken and the response sent. -/
structure UploadOutcome where
  actions : List ServerAction
  response : UploadResponse
deriving DecidableEq, Repr

/-- Model of the `/upload` route for a `.zip` upload combined with the central
error handler: on success the handler schedules the TTL cleanup of the archive
and the extraction directory and serves the tree and graph with status 200;
when extraction throws, the route's `catch` only forwards the error with
`next(err)`, and the central error handler maps `UNSAFE_ZIP_PATH` to a 400
response and `ZIP_LIMITS_EXCEEDED` to a 413 response — no filesystem action is
taken on the failure path. -/
def handleZipUpload (archivePath extractionTargetDir : String)
    (extraction : Option ZipError) : UploadOutcome :=
  match extraction with
  | none =>
    { actions := [ServerAction.scheduleCleanup archivePath extractionTargetDir]
      response := { status := 200, ok := true, servesTreeAndGraph := true } }
  | some ZipError.unsafePath =>
    { actions := []
      response := { status := 400, ok := false, servesTreeAndGraph := false } }
  | some ZipError.limitsExceeded =>
    { actions := []
      response := { status := 413, ok := false, servesTreeAndGraph := false } }

example :
    (safeExtractZip "/w" "/e/j" { maxFiles := 10, maxFileBytes := 100, maxTotalBytes := 1000 }
      [{ path := "../../etc/passwd", type := "File", uncompressedSize := 3, chunks := [3] }]).1 =
      some ZipError.unsafePath := by decide
example :
    (safeExtractZip "/w" "/e/j" { maxFiles := 10, maxFileBytes := 100, maxTotalBytes := 1000 }
      [{ path := "a/b.txt", type := "File", uncompressedSize := 3, chunks := [3] }]) =
      (none, { extractedTotalBytes := 3, extractedFilesCount := 1,
               written := [("/e/j/a/b.txt", 3)] }) := by decide
example :
    (safeExtractZip "/w" "/e/j" { maxFiles := 10, maxFileBytes := 4, maxTotalBytes := 1000 }
      [{ path := "a.txt", type := "File", uncompressedSize := 0, chunks := [3, 3] }]).1 =
      some ZipError.limitsExceeded := by decide
example :
    (safeExtractZip "/w" "/e/j" { maxFiles := 10, maxFileBytes := 100, maxTotalBytes := 10 }
      [{ path := "a.txt", type := "File", uncompressedSize := 0, chunks := [6] },
       { path := "b.txt", type := "File", uncompressedSize := 0, chunks := [6] }]) =
      (none, { extractedTotalBytes := 0, extractedFilesCount := 2,
               written := [("/e/j/a.txt", 6), ("/e/j/b.txt", 6)] }) := by decide

lemma splitSlash_no_slash : ∀ (cs : List Char), ∀ s ∈ splitSlash cs, '/' ∉ s := by
  intro cs
  induction cs with
  | nil => intro s hs; simp only [splitSlash] at hs; simp at hs; simp [hs]
  | cons c cs ih =>
    intro s hs
    simp only [splitSlash] at hs
    by_cases hc : c = '/'
    · simp [hc] at hs
      rcases hs with h | h
      · simp [h]
      · exact ih s h
    · simp [hc] at hs
      rcases hcs : splitSlash cs with _ | ⟨t, ts⟩
      · rw [hcs] at hs; simp at hs
        subst hs; intro hmem
        simp at hmem
        exact hc hmem.symm
      · rw [hcs] at hs; simp at hs
        rcases hs with h | h
        · subst h; intro hmem
          simp at hmem
          rcases hmem with h | h
          · exact hc h.symm
          · exact ih t (by rw [hcs]; simp) h
        · exact ih s (by rw [hcs]; simp [h])

lemma splitSlash_ne_nil (cs : List Char) : splitSlash cs ≠ [] := by
  induction cs with
  | nil => simp [splitSlash]
  | cons c cs ih =>
    simp only [splitSlash]
    by_cases hc : c = '/'
    · simp [hc]
    · simp [hc]
      rcases hcs : splitSlash cs with _ | ⟨t, ts⟩ <;> simp

lemma splitSlash_of_no_slash (s : List Char) (h : '/' ∉ s) : splitSlash s = [s] := by
  induction s with
  | nil => simp [splitSlash]
  | cons c cs ih =>
    simp only [splitSlash]
    have hc : ¬(c = '/') := fun hh => h (by simp [hh])
    simp [hc]
    rw [ih (fun hh => h (by simp [hh]))]

lemma splitSlash_join_cons (s t : List Char) (h : '/' ∉ s) :
    splitSlash (s ++ '/' :: t) = s :: splitSlash t := by
  induction s with
  | nil => simp [splitSlash]
  | cons c cs ih =>
    have hc : ¬(c = '/') := fun hh => h (by simp [hh])
    simp only [List.cons_append, splitSlash]
    simp only [List.append_eq]
    rw [ih (fun hh => h (by simp [hh]))]
    simp [hc]

lemma splitSlash_joinSegs (l : List (List Char)) (hne : l ≠ [])
    (h : ∀ s ∈ l, '/' ∉ s) : splitSlash (joinSegs l) = l := by
  induction l with
  | nil => exact absurd rfl hne
  | cons s ss ih =>
    rcases ss with _ | ⟨t, ts⟩
    · simp only [joinSegs]
      exact splitSlash_of_no_slash s (h s (by simp))
    · show splitSlash (s ++ '/' :: joinSegs (t :: ts)) = _
      rw [splitSlash_join_cons s _ (h s (by simp))]
      rw [ih (by simp) (fun x hx => h x (List.mem_cons_of_mem s hx))]

lemma splitSlash_joinSegs_append (l : List (List Char)) (t : List Char)
    (hne : l ≠ []) (h : ∀ s ∈ l, '/' ∉ s) :
    splitSlash (joinSegs l ++ '/' :: t) = l ++ splitSlash t := by
  induction l with
  | nil => exact absurd rfl hne
  | cons s ss ih =>
    rcases ss with _ | ⟨u, us⟩
    · simp only [joinSegs]
      rw [splitSlash_join_cons s t (h s (by simp))]
      simp
    · show splitSlash ((s ++ '/' :: joinSegs (u :: us)) ++ '/' :: t) = _
      rw [List.append_assoc, List.cons_append]
      rw [splitSlash_join_cons s _ (h s (by simp))]
      rw [ih (by simp) (fun x hx => h x (List.mem_cons_of_mem s hx))]
      simp

/-- The shape of `normalizeString` output: some leading `..` segments followed
by segments that are nonempty, not `.`, not `..`, and slash-free. -/
def NormShape (l : List (List Char)) : Prop :=
  ∃ k rest, l = List.replicate k dotdot ++ rest ∧ dotdot ∉ rest ∧
    ∀ s ∈ l, s ≠ [] ∧ s ≠ ['.'] ∧ '/' ∉ s

lemma getLast?_replicate_pos {α : Type} (a : α) (k : Nat) (hk : k ≠ 0) :
    (List.replicate k a).getLast? = some a := by
  induction k with
  | zero => exact absurd rfl hk
  | succ n ih =>
    rcases Nat.eq_zero_or_pos n with h | h
    · subst h; rfl
    · rw [List.replicate_succ, List.getLast?_cons, ih (Nat.pos_iff_ne_zero.mp h)]
      rcases n with _ | m
      · exact absurd rfl (Nat.pos_iff_ne_zero.mp h)
      · simp [List.replicate_succ]

lemma mem_of_getLast?_eq {α : Type} : ∀ (l : List α) {a : α},
    l.getLast? = some a → a ∈ l
  | [], _, h => by simp at h
  | [x], a, h => by
    simp [List.getLast?] at h
    simp [h]
  | x :: y :: t, a, h => by
    rw [List.getLast?_cons_cons] at h
    exact List.mem_cons_of_mem x (mem_of_getLast?_eq (y :: t) h)

lemma normShape_normStep (ab : Bool) (acc : List (List Char)) (seg : List Char)
    (hseg : '/' ∉ seg) (h : NormShape acc) : NormShape (normStep ab acc seg) := by
  obtain ⟨k, rest, hacc, hdd, hall⟩ := h
  unfold normStep
  split
  · exact ⟨k, rest, hacc, hdd, hall⟩
  · rename_i hnotskip
    split
    · rename_i hddseg
      split
      · rename_i hpop
        obtain ⟨hne, hlast⟩ := hpop
        have hrest_ne : rest ≠ [] := by
          intro hr
          subst hr
          rw [List.append_nil] at hacc
          subst hacc
          have hk : k ≠ 0 := by
            intro h0; subst h0; exact hne rfl
          exact hlast (getLast?_replicate_pos dotdot k hk)
        refine ⟨k, rest.dropLast, ?_, ?_, ?_⟩
        · rw [hacc, List.dropLast_append_of_ne_nil _ hrest_ne]
        · intro hmem
          exact hdd (List.dropLast_sublist rest |>.mem hmem)
        · intro s hs
          have hsa : s ∈ acc := List.dropLast_sublist acc |>.mem hs
          exact hall s (hacc ▸ hsa)
      · rename_i hnopop
        split
        · -- allowAbove: append dotdot
          have hrest_nil : rest = [] := by
            rcases Classical.em (acc = []) with hc | hc
            · rw [hc] at hacc
              rcases List.append_eq_nil.mp hacc.symm with ⟨_, h2⟩
              exact h2
            · have hlast : acc.getLast? = some dotdot := by
                by_contra hne'
                exact hnopop ⟨hc, hne'⟩
              by_contra hne'
              rw [hacc, List.getLast?_append_of_ne_nil _ hne'] at hlast
              exact hdd (mem_of_getLast?_eq rest hlast)
          subst hrest_nil
          rw [List.append_nil] at hacc
          refine ⟨k + 1, [], ?_, by simp, ?_⟩
          · rw [hacc, List.append_nil, List.replicate_succ']
          · intro s hs
            rcases List.mem_append.mp hs with h1 | h1
            · exact hall s h1
            · simp at h1
              subst h1
              refine ⟨by simp [dotdot], by simp [dotdot], by simp [dotdot]⟩
        · exact ⟨k, rest, hacc, hdd, hall⟩
    · rename_i hddne
      refine ⟨k, rest ++ [seg], ?_, ?_, ?_⟩
      · rw [hacc, List.append_assoc]
      · intro hmem
        rcases List.mem_append.mp hmem with h1 | h1
        · exact hdd h1
        · simp at h1
          exact hddne h1.symm
      · intro s hs
        rcases List.mem_append.mp hs with h1 | h1
        · exact hall s (hacc ▸ h1)
        · simp at h1
          subst h1
          push_neg at hnotskip
          exact ⟨hnotskip.1, hnotskip.2, hseg⟩

lemma normShape_normSegs (ab : Bool) (segs : List (List Char))
    (hs : ∀ s ∈ segs, '/' ∉ s) : NormShape (normSegs ab segs) := by
  suffices h : ∀ acc, NormShape acc → NormShape (segs.foldl (normStep ab) acc) by
    exact h [] ⟨0, [], rfl, by simp, by simp⟩
  induction segs with
  | nil => intro acc hacc; exact hacc
  | cons s ss ih =>
    intro acc hacc
    exact ih (fun x hx => hs x (List.mem_cons_of_mem s hx))
      (normStep ab acc s) (normShape_normStep ab acc s (hs s (by simp)) hacc)

lemma isPre_append (a b : List Char) : isPre a (a ++ b) = true := by
  induction a with
  | nil => simp [isPre]
  | cons c cs ih => simp [isPre, ih]

lemma joinSegs_cons_ex (s : List Char) (ss : List (List Char)) :
    ∃ r, joinSegs (s :: ss) = s ++ r := by
  cases ss with
  | nil => exact ⟨[], by simp [joinSegs]⟩
  | cons t ts => exact ⟨'/' :: joinSegs (t :: ts), rfl⟩

/-- The claim-level predicate on a path string: it contains a
parent-directory (`..`) segment somewhere (in particular when it begins with
one). -/
def hasParentSegment (n : String) : Prop :=
  dotdot ∈ splitSlash n.data

instance (n : String) : Decidable (hasParentSegment n) := by
  unfold hasParentSegment
  infer_instance

lemma posixNormalize_cases (p : String) :
    (posixNormalize p).data = ['.'] ∨ (posixNormalize p).data = ['.', '/'] ∨
    (posixNormalize p).data = ['/'] ∨
    ∃ (isAbs hasTrail : Bool) (ns : List (List Char)),
      NormShape ns ∧ ns ≠ [] ∧
      (posixNormalize p).data =
        (if isAbs then ['/'] else []) ++ joinSegs ns ++
          (if hasTrail then ['/'] else []) := by
  unfold posixNormalize
  by_cases h0 : p.data = []
  · simp [h0]
  · simp only [h0, if_false]
    by_cases hbody : joinSegs (normSegs (!isPre ['/'] p.data) (splitSlash p.data)) = []
    · simp only [hbody, if_pos rfl]
      by_cases habs : isPre ['/'] p.data
      · simp [habs]
      · by_cases htrail : p.data.getLast? = some '/'
        · simp [habs, htrail]
        · simp [habs, htrail]
    · simp only [hbody, if_neg]
      right; right; right
      refine ⟨isPre ['/'] p.data, decide (p.data.getLast? = some '/'),
        normSegs (!isPre ['/'] p.data) (splitSlash p.data),
        normShape_normSegs _ _ (splitSlash_no_slash p.data), ?_, ?_⟩
      · intro hns
        rw [hns] at hbody
        exact hbody rfl
      · by_cases habs : isPre ['/'] p.data = true <;>
          by_cases htrail : p.data.getLast? = some '/' <;>
            simp [habs, htrail]

lemma check1_of_parent_or_abs (p : String)
    (h : hasParentSegment (posixNormalize p) ∨
      posixIsAbsolute (posixNormalize p) = true) :
    (isPre dotdot (posixNormalize p).data ||
      containsSub ['/', '.', '.', '/'] (posixNormalize p).data ||
      posixIsAbsolute (posixNormalize p)) = true := by
  rcases h with h | h
  swap
  · simp [h]
  rcases posixNormalize_cases p with hc | hc | hc |
    ⟨isAbs, hasTrail, ns, hshape, hne, hdata⟩
  · unfold hasParentSegment at h
    rw [hc] at h
    simp [splitSlash, dotdot] at h
  · unfold hasParentSegment at h
    rw [hc] at h
    simp [splitSlash, dotdot] at h
  · have habs : posixIsAbsolute (posixNormalize p) = true := by
      unfold posixIsAbsolute
      rw [hc]
      simp [isPre]
    simp [habs]
  · obtain ⟨k, rest, hns, hddrest, hall⟩ := hshape
    have hslashfree : ∀ s ∈ ns, '/' ∉ s := fun s hs => (hall s hs).2.2
    cases isAbs with
    | true =>
      have habs : posixIsAbsolute (posixNormalize p) = true := by
        unfold posixIsAbsolute
        rw [hdata]
        simp [isPre]
      simp [habs]
    | false =>
      have hdata2 : (posixNormalize p).data =
          joinSegs ns ++ (if hasTrail = true then ['/'] else []) := by
        rw [hdata]
        simp
      unfold hasParentSegment at h
      rw [hdata2] at h
      have hdd_ns : dotdot ∈ ns := by
        cases hasTrail with
        | false =>
          rw [if_neg (by simp), List.append_nil,
            splitSlash_joinSegs ns hne hslashfree] at h
          exact h
        | true =>
          rw [if_pos rfl] at h
          have he : joinSegs ns ++ ['/'] = joinSegs ns ++ '/' :: [] := rfl
          rw [he, splitSlash_joinSegs_append ns [] hne hslashfree] at h
          rcases List.mem_append.mp h with h1 | h1
          · exact h1
          · simp [splitSlash, dotdot] at h1
      have hk : k ≠ 0 := by
        rw [hns] at hdd_ns
        rcases List.mem_append.mp hdd_ns with h1 | h1
        · exact (List.mem_replicate.mp h1).1
        · exact absurd h1 hddrest
      obtain ⟨m, hm⟩ := Nat.exists_eq_succ_of_ne_zero hk
      have hns' : ns = dotdot :: (List.replicate m dotdot ++ rest) := by
        rw [hns, hm, List.replicate_succ]
        simp
      have hpre : isPre dotdot (posixNormalize p).data = true := by
        obtain ⟨r, hr⟩ := joinSegs_cons_ex dotdot (List.replicate m dotdot ++ rest)
        rw [hdata2, hns', hr, List.append_assoc]
        exact isPre_append dotdot _
      simp [hpre]

/-- Containment of a resolved destination in the resolved extraction root:
equal to the root or strictly below it (root plus the `/` separator is a
leading part of the destination). -/
def resolvedInsideRoot (resolvedRoot resolvedDest : String) : Prop :=
  resolvedDest = resolvedRoot ∨
    isPre (resolvedRoot.data ++ ['/']) resolvedDest.data = true

instance (r d : String) : Decidable (resolvedInsideRoot r d) := by
  unfold resolvedInsideRoot
  infer_instance

lemma processEntry_written (cwd targetDir : String) (limits : Limits)
    (st : ExtractState) (e : ZipEntry) :
    ∀ dw ∈ (processEntry cwd targetDir limits st e).2.written,
      dw ∈ st.written ∨
        resolvedInsideRoot (posixResolve cwd targetDir)
          (posixResolve cwd dw.1) := by
  intro dw hdw
  simp only [processEntry] at hdw
  split at hdw
  · exact Or.inl hdw
  split at hdw
  · exact Or.inl hdw
  split at hdw
  · exact Or.inl hdw
  split at hdw
  · exact Or.inl hdw
  split at hdw
  · exact Or.inl hdw
  split at hdw
  · exact Or.inl hdw
  case _ hcheck2 =>
    have hdw' : dw ∈ st.written ++
        [(posixJoin targetDir (posixNormalize (backslashToSlash e.path)),
          (streamChunks limits.maxFileBytes 0 e.chunks).1)] := hdw
    rcases List.mem_append.mp hdw' with h1 | h1
    · exact Or.inl h1
    · right
      simp only [List.mem_singleton] at h1
      subst h1
      simp only [Bool.and_eq_true, Bool.not_eq_true', decide_eq_true_eq,
        not_and, not_not] at hcheck2
      unfold resolvedInsideRoot
      by_cases hx : isPre ((posixResolve cwd targetDir).data ++ ['/'])
          (posixResolve cwd (posixJoin targetDir
            (posixNormalize (backslashToSlash e.path)))).data = true
      · exact Or.inr hx
      · exact Or.inl (hcheck2 (Bool.not_eq_true _ ▸ hx))

lemma runEntries_written (cwd targetDir : String) (limits : Limits) :
    ∀ (entries : List ZipEntry) (st : ExtractState),
      (∀ dw ∈ st.written,
        resolvedInsideRoot (posixResolve cwd targetDir)
          (posixResolve cwd dw.1)) →
      ∀ dw ∈ (runEntries cwd targetDir limits st entries).2.written,
        resolvedInsideRoot (posixResolve cwd targetDir)
          (posixResolve cwd dw.1) := by
  intro entries
  induction entries with
  | nil => intro st hst dw hdw; exact hst dw hdw
  | cons e es ih =>
    intro st hst dw hdw
    simp only [runEntries] at hdw
    rcases hpe : processEntry cwd targetDir limits st e with ⟨err?, st'⟩
    rw [hpe] at hdw
    have hst' : ∀ dw' ∈ st'.written,
        resolvedInsideRoot (posixResolve cwd targetDir)
          (posixResolve cwd dw'.1) := by
      intro dw' hdw'
      rcases processEntry_written cwd targetDir limits st e dw'
          (by rw [hpe]; exact hdw') with h | h
      · exact hst dw' h
      · exact h
    cases err? with
    | some err => exact hst' dw hdw
    | none => exact ih st' hst' dw hdw

lemma processEntry_check1 (cwd targetDir : String) (limits : Limits)
    (st : ExtractState) (e : ZipEntry)
    (hdir : e.type ≠ "Directory")
    (hcount : st.extractedFilesCount + 1 ≤ limits.maxFiles)
    (hsize : e.uncompressedSize ≤ limits.maxFileBytes)
    (htotal : st.extractedTotalBytes + e.uncompressedSize ≤ limits.maxTotalBytes)
    (hbadpath : hasParentSegment (posixNormalize (backslashToSlash e.path)) ∨
      posixIsAbsolute (posixNormalize (backslashToSlash e.path)) = true) :
    (processEntry cwd targetDir limits st e).1 = some ZipError.unsafePath ∧
      (processEntry cwd targetDir limits st e).2.written = st.written := by
  have hc1 := check1_of_parent_or_abs (backslashToSlash e.path) hbadpath
  simp only [processEntry]
  rw [if_neg hdir, if_neg (by omega), if_neg (by omega), if_neg (by omega),
    if_pos hc1]
  exact ⟨rfl, rfl⟩

lemma processEntry_check2 (cwd targetDir : String) (limits : Limits)
    (st : ExtractState) (e : ZipEntry)
    (hdir : e.type ≠ "Directory")
    (hcount : st.extractedFilesCount + 1 ≤ limits.maxFiles)
    (hsize : e.uncompressedSize ≤ limits.maxFileBytes)
    (htotal : st.extractedTotalBytes + e.uncompressedSize ≤ limits.maxTotalBytes)
    (hsafe1 : (isPre dotdot (posixNormalize (backslashToSlash e.path)).data ||
      containsSub ['/', '.', '.', '/']
        (posixNormalize (backslashToSlash e.path)).data ||
      posixIsAbsolute (posixNormalize (backslashToSlash e.path))) = false)
    (hout : ¬ resolvedInsideRoot (posixResolve cwd targetDir)
      (posixResolve cwd (posixJoin targetDir
        (posixNormalize (backslashToSlash e.path))))) :
    (processEntry cwd targetDir limits st e).1 = some ZipError.unsafePath ∧
      (processEntry cwd targetDir limits st e).2.written = st.written := by
  unfold resolvedInsideRoot at hout
  push_neg at hout
  simp only [processEntry]
  rw [if_neg hdir, if_neg (by omega), if_neg (by omega), if_neg (by omega),
    if_neg (by simp [hsafe1]), if_pos (by
      simp only [Bool.and_eq_true, Bool.not_eq_true', decide_eq_true_eq]
      exact ⟨Bool.not_eq_true _ ▸ fun hx => hout.2 hx, hout.1⟩)]
  exact ⟨rfl, rfl⟩

/-- C1: for every archive entry processed by `safeExtractZip` (directory
entries skipped), if the entry's normalised relative path contains a
parent-directory segment (in particular when it begins with one) or is
absolute, the entry is rejected with the `UnsafePath` error and nothing is
written for it (first check); after joining the normalised path with the
extraction root and resolving, the entry is likewise rejected with
`UnsafePath` unless the resolved path equals the resolved root or is strictly
contained under it (second check); and every file a run of `safeExtractZip`
ever writes has a resolved path equal to the resolved root or strictly
contained under it, so no file is written outside the extraction root. -/
theorem safeExtractZip_path_safety (cwd targetDir : String) (limits : Limits)
    (entries : List ZipEntry) :
    (∀ dw ∈ (safeExtractZip cwd targetDir limits entries).2.written,
      resolvedInsideRoot (posixResolve cwd targetDir)
        (posixResolve cwd dw.1)) ∧
    (∀ (st : ExtractState) (e : ZipEntry), e.type ≠ "Directory" →
      st.extractedFilesCount + 1 ≤ limits.maxFiles →
      e.uncompressedSize ≤ limits.maxFileBytes →
      st.extractedTotalBytes + e.uncompressedSize ≤ limits.maxTotalBytes →
      (hasParentSegment (posixNormalize (backslashToSlash e.path)) ∨
        posixIsAbsolute (posixNormalize (backslashToSlash e.path)) = true) →
      (processEntry cwd targetDir limits st e).1 = some ZipError.unsafePath ∧
        (processEntry cwd targetDir limits st e).2.written = st.written) ∧
    (∀ (st : ExtractState) (e : ZipEntry), e.type ≠ "Directory" →
      st.extractedFilesCount + 1 ≤ limits.maxFiles →
      e.uncompressedSize ≤ limits.maxFileBytes →
      st.extractedTotalBytes + e.uncompressedSize ≤ limits.maxTotalBytes →
      (isPre dotdot (posixNormalize (backslashToSlash e.path)).data ||
        containsSub ['/', '.', '.', '/']
          (posixNormalize (backslashToSlash e.path)).data ||
        posixIsAbsolute (posixNormalize (backslashToSlash e.path))) = false →
      ¬ resolvedInsideRoot (posixResolve cwd targetDir)
        (posixResolve cwd (posixJoin targetDir
          (posixNormalize (backslashToSlash e.path)))) →
      (processEntry cwd targetDir limits st e).1 = some ZipError.unsafePath ∧
        (processEntry cwd targetDir limits st e).2.written = st.written) := by
  refine ⟨?_, ?_, ?_⟩
  · exact runEntries_written cwd targetDir limits entries initialExtractState
      (by intro dw hdw; simp [initialExtractState] at hdw)
  · intro st e h1 h2 h3 h4 h5
    exact processEntry_check1 cwd targetDir limits st e h1 h2 h3 h4 h5
  · intro st e h1 h2 h3 h4 h5 h6
    exact processEntry_check2 cwd targetDir limits st e h1 h2 h3 h4 h5 h6

/-- Concrete instantiation of `safeExtractZip_path_safety`: a `../../` entry
and an absolute entry are rejected by the first check, and an entry resolving
outside the root (through a `..` in the configured target directory) is
rejected by the second check. -/
theorem safeExtractZip_path_safety_witness :
    (processEntry "/srv" "/srv/extracted/job"
        { maxFiles := 15000, maxFileBytes := 31457280, maxTotalBytes := 1572864000 }
        initialExtractState
        { path := "../../etc/passwd", type := "File",
          uncompressedSize := 3, chunks := [3] }).1 = some ZipError.unsafePath ∧
    (processEntry "/srv" "/srv/extracted/job"
        { maxFiles := 15000, maxFileBytes := 31457280, maxTotalBytes := 1572864000 }
        initialExtractState
        { path := "/etc/passwd", type := "File",
          uncompressedSize := 3, chunks := [3] }).1 = some ZipError.unsafePath ∧
    (processEntry "/srv" "/a/.."
        { maxFiles := 15000, maxFileBytes := 31457280, maxTotalBytes := 1572864000 }
        initialExtractState
        { path := "b.txt", type := "File",
          uncompressedSize := 3, chunks := [3] }).1 = some ZipError.unsafePath := by
  refine ⟨?_, ?_, ?_⟩
  · exact ((safeExtractZip_path_safety "/srv" "/srv/extracted/job"
      { maxFiles := 15000, maxFileBytes := 31457280, maxTotalBytes := 1572864000 } []).2.1
      initialExtractState
      { path := "../../etc/passwd", type := "File", uncompressedSize := 3, chunks := [3] }
      (by decide) (by decide) (by decide) (by decide) (Or.inl (by decide))).1
  · exact ((safeExtractZip_path_safety "/srv" "/srv/extracted/job"
      { maxFiles := 15000, maxFileBytes := 31457280, maxTotalBytes := 1572864000 } []).2.1
      initialExtractState
      { path := "/etc/passwd", type := "File", uncompressedSize := 3, chunks := [3] }
      (by decide) (by decide) (by decide) (by decide) (Or.inr (by decide))).1
  · exact ((safeExtractZip_path_safety "/srv" "/a/.."
      { maxFiles := 15000, maxFileBytes := 31457280, maxTotalBytes := 1572864000 } []).2.2
      initialExtractState
      { path := "b.txt", type := "File", uncompressedSize := 3, chunks := [3] }
      (by decide) (by decide) (by decide) (by decide) (by decide) (by decide)).1

lemma streamChunks_le (cap : Nat) :
    ∀ (l : List Nat) (acc : Nat), acc ≤ cap →
      (streamChunks cap acc l).2 = none → (streamChunks cap acc l).1 ≤ cap := by
  intro l
  induction l with
  | nil => intro acc hacc _; exact hacc
  | cons c cs ih =>
    intro acc hacc hok
    simp only [streamChunks] at hok ⊢
    by_cases hlt : cap < acc + c
    · rw [if_pos hlt] at hok
      simp at hok
    · rw [if_neg hlt] at hok ⊢
      exact ih (acc + c) (Nat.le_of_not_lt hlt) hok

lemma streamChunks_err (cap : Nat) :
    ∀ (l : List Nat) (acc : Nat), acc ≤ cap →
      (∃ k, cap < acc + (l.take k).sum) →
      (streamChunks cap acc l).2 = some ZipError.limitsExceeded := by
  intro l
  induction l with
  | nil =>
    intro acc hacc ⟨k, hk⟩
    simp at hk
    omega
  | cons c cs ih =>
    intro acc hacc ⟨k, hk⟩
    simp only [streamChunks]
    by_cases hlt : cap < acc + c
    · rw [if_pos hlt]
    · rw [if_neg hlt]
      rcases k with _ | j
      · simp at hk; omega
      · refine ih (acc + c) (Nat.le_of_not_lt hlt) ⟨j, ?_⟩
        simp only [List.take_succ_cons, List.sum_cons] at hk
        omega

lemma processEntry_limits (cwd targetDir : String) (limits : Limits)
    (st : ExtractState) (e : ZipEntry)
    (htot : st.extractedTotalBytes ≤ limits.maxTotalBytes)
    (hw : ∀ dw ∈ st.written, dw.2 ≤ limits.maxFileBytes)
    (hok : (processEntry cwd targetDir limits st e).1 = none) :
    (processEntry cwd targetDir limits st e).2.extractedTotalBytes ≤
        limits.maxTotalBytes ∧
      ∀ dw ∈ (processEntry cwd targetDir limits st e).2.written,
        dw.2 ≤ limits.maxFileBytes := by
  rcases hpe : processEntry cwd targetDir limits st e with ⟨err?, st'⟩
  rw [hpe] at hok
  replace hok : err? = none := hok
  subst hok
  simp only [processEntry] at hpe
  split at hpe
  · injection hpe with h1 h2
    subst h2
    exact ⟨htot, hw⟩
  split at hpe
  · injection hpe with h1 h2
    simp at h1
  split at hpe
  · injection hpe with h1 h2
    simp at h1
  split at hpe
  · injection hpe with h1 h2
    simp at h1
  split at hpe
  · injection hpe with h1 h2
    simp at h1
  split at hpe
  · injection hpe with h1 h2
    simp at h1
  case _ hnototal _ _ =>
    injection hpe with h1 h2
    subst h2
    refine ⟨Nat.le_of_not_lt hnototal, ?_⟩
    intro dw hdw
    simp only at hdw
    rcases List.mem_append.mp hdw with hm | hm
    · exact hw dw hm
    · simp only [List.mem_singleton] at hm
      subst hm
      exact streamChunks_le limits.maxFileBytes e.chunks 0 (Nat.zero_le _) h1

lemma runEntries_limits (cwd targetDir : String) (limits : Limits) :
    ∀ (entries : List ZipEntry) (st : ExtractState),
      st.extractedTotalBytes ≤ limits.maxTotalBytes →
      (∀ dw ∈ st.written, dw.2 ≤ limits.maxFileBytes) →
      (runEntries cwd targetDir limits st entries).1 = none →
      (runEntries cwd targetDir limits st entries).2.extractedTotalBytes ≤
          limits.maxTotalBytes ∧
        ∀ dw ∈ (runEntries cwd targetDir limits st entries).2.written,
          dw.2 ≤ limits.maxFileBytes := by
  intro entries
  induction entries with
  | nil => intro st h1 h2 _; exact ⟨h1, h2⟩
  | cons e es ih =>
    intro st h1 h2 hok
    simp only [runEntries] at hok ⊢
    rcases hpe : processEntry cwd targetDir limits st e with ⟨err?, st'⟩
    rw [hpe] at hok
    cases err? with
    | some err => simp at hok
    | none =>
      have := processEntry_limits cwd targetDir limits st e h1 h2
        (by rw [hpe])
      rw [hpe] at this
      exact ih st' this.1 this.2 hok

/-- C2 counterexample: with a total cap of 10 bytes, an archive of two entries
whose declared uncompressed sizes are 0 (absent or spoofed) but which each
stream 6 actual bytes extracts successfully, writing 12 bytes in total — the
cumulative bytes actually written to disk exceed `maxTotalBytes`, so the claim
that they never do is false. -/
theorem safeExtractZip_actual_total_counterexample :
    (safeExtractZip "/srv" "/srv/extracted/job"
        { maxFiles := 5, maxFileBytes := 10, maxTotalBytes := 10 }
        [{ path := "a.txt", type := "File", uncompressedSize := 0, chunks := [6] },
         { path := "b.txt", type := "File", uncompressedSize := 0, chunks := [6] }]).1
        = none ∧
    ¬ (((safeExtractZip "/srv" "/srv/extracted/job"
        { maxFiles := 5, maxFileBytes := 10, maxTotalBytes := 10 }
        [{ path := "a.txt", type := "File", uncompressedSize := 0, chunks := [6] },
         { path := "b.txt", type := "File", uncompressedSize := 0, chunks := [6] }]).2.written.map
          (fun dw => dw.2)).sum ≤ 10) := by
  constructor
  · decide
  · decide

/-- C2 amended: the caps that a successful extraction does enforce — the
running total of declared uncompressed sizes never exceeds `maxTotalBytes`,
and the actually streamed bytes of every written file never exceed the
per-file cap `maxFileBytes`; the cumulative bytes actually written are only
bounded through these (they are never compared against `maxTotalBytes`, as
the counterexample shows). -/
theorem safeExtractZip_limits_enforced (cwd targetDir : String)
    (limits : Limits) (entries : List ZipEntry)
    (hok : (safeExtractZip cwd targetDir limits entries).1 = none) :
    (safeExtractZip cwd targetDir limits entries).2.extractedTotalBytes ≤
        limits.maxTotalBytes ∧
      ∀ dw ∈ (safeExtractZip cwd targetDir limits entries).2.written,
        dw.2 ≤ limits.maxFileBytes := by
  exact runEntries_limits cwd targetDir limits entries initialExtractState
    (Nat.zero_le _) (by intro dw hdw; simp [initialExtractState] at hdw) hok

/-- Concrete instantiation of `safeExtractZip_limits_enforced` on a
two-entry archive that extracts successfully. -/
theorem safeExtractZip_limits_enforced_witness :
    (safeExtractZip "/srv" "/srv/extracted/job"
        { maxFiles := 5, maxFileBytes := 10, maxTotalBytes := 10 }
        [{ path := "a.txt", type := "File", uncompressedSize := 2, chunks := [2] },
         { path := "b.txt", type := "File", uncompressedSize := 3, chunks := [3] }]).2.extractedTotalBytes ≤
        10 ∧
      ∀ dw ∈ (safeExtractZip "/srv" "/srv/extracted/job"
        { maxFiles := 5, maxFileBytes := 10, maxTotalBytes := 10 }
        [{ path := "a.txt", type := "File", uncompressedSize := 2, chunks := [2] },
         { path := "b.txt", type := "File", uncompressedSize := 3, chunks := [3] }]).2.written,
        dw.2 ≤ 10 :=
  safeExtractZip_limits_enforced "/srv" "/srv/extracted/job"
    { maxFiles := 5, maxFileBytes := 10, maxTotalBytes := 10 }
    [{ path := "a.txt", type := "File", uncompressedSize := 2, chunks := [2] },
     { path := "b.txt", type := "File", uncompressedSize := 3, chunks := [3] }]
    (by decide)

lemma runEntries_append (cwd targetDir : String) (limits : Limits) :
    ∀ (pre post : List ZipEntry) (st : ExtractState),
      runEntries cwd targetDir limits st (pre ++ post) =
        match runEntries cwd targetDir limits st pre with
        | (none, st') => runEntries cwd targetDir limits st' post
        | (some err, st') => (some err, st') := by
  intro pre
  induction pre with
  | nil => intro post st; rfl
  | cons e es ih =>
    intro post st
    simp only [List.cons_append, runEntries]
    rcases processEntry cwd targetDir limits st e with ⟨err?, st'⟩
    cases err? with
    | some err => rfl
    | none => exact ih post st'

lemma processEntry_stream_abort (cwd targetDir : String) (limits : Limits)
    (st : ExtractState) (e : ZipEntry)
    (hdir : e.type ≠ "Directory")
    (hcount : st.extractedFilesCount + 1 ≤ limits.maxFiles)
    (hsize : e.uncompressedSize ≤ limits.maxFileBytes)
    (htotal : st.extractedTotalBytes + e.uncompressedSize ≤ limits.maxTotalBytes)
    (hsafe1 : (isPre dotdot (posixNormalize (backslashToSlash e.path)).data ||
      containsSub ['/', '.', '.', '/']
        (posixNormalize (backslashToSlash e.path)).data ||
      posixIsAbsolute (posixNormalize (backslashToSlash e.path))) = false)
    (hsafe2 : resolvedInsideRoot (posixResolve cwd targetDir)
      (posixResolve cwd (posixJoin targetDir
        (posixNormalize (backslashToSlash e.path)))))
    (hstream : ∃ k, limits.maxFileBytes < (e.chunks.take k).sum) :
    (processEntry cwd targetDir limits st e).1 = some ZipError.limitsExceeded := by
  have hguard : (!isPre ((posixResolve cwd targetDir).data ++ ['/'])
      (posixResolve cwd (posixJoin targetDir
        (posixNormalize (backslashToSlash e.path)))).data &&
      decide (posixResolve cwd (posixJoin targetDir
        (posixNormalize (backslashToSlash e.path))) ≠
        posixResolve cwd targetDir)) = false := by
    rcases hsafe2 with h | h
    · simp [h]
    · simp [h]
  simp only [processEntry]
  rw [if_neg hdir, if_neg (by omega), if_neg (by omega), if_neg (by omega),
    if_neg (by simp [hsafe1]), if_neg (by rw [hguard]; exact Bool.false_ne_true)]
  simp only
  refine streamChunks_err limits.maxFileBytes e.chunks 0 (Nat.zero_le _) ?_
  obtain ⟨k, hk⟩ := hstream
  exact ⟨k, by omega⟩

/-- C3: an entry whose actual streamed byte count exceeds the per-file cap
`maxFileBytes` aborts the entire extraction with `LimitExceeded`, even when
its declared uncompressed size passed the declared-size checks (smaller than
the cap, or absent and hence `0`): after any prefix of entries that processed
cleanly, when such an entry is reached (a file entry whose count, declared
size and path checks all pass) and some prefix of its streamed chunks sums
beyond `maxFileBytes`, the whole run of `safeExtractZip` returns
`LimitExceeded` — the streaming byte count decides, not the declared
metadata. -/
theorem safeExtractZip_streaming_cap (cwd targetDir : String) (limits : Limits)
    (pre post : List ZipEntry) (e : ZipEntry) (st : ExtractState)
    (hpre : runEntries cwd targetDir limits initialExtractState pre = (none, st))
    (hdir : e.type ≠ "Directory")
    (hcount : st.extractedFilesCount + 1 ≤ limits.maxFiles)
    (hsize : e.uncompressedSize ≤ limits.maxFileBytes)
    (htotal : st.extractedTotalBytes + e.uncompressedSize ≤ limits.maxTotalBytes)
    (hsafe1 : (isPre dotdot (posixNormalize (backslashToSlash e.path)).data ||
      containsSub ['/', '.', '.', '/']
        (posixNormalize (backslashToSlash e.path)).data ||
      posixIsAbsolute (posixNormalize (backslashToSlash e.path))) = false)
    (hsafe2 : resolvedInsideRoot (posixResolve cwd targetDir)
      (posixResolve cwd (posixJoin targetDir
        (posixNormalize (backslashToSlash e.path)))))
    (hstream : ∃ k, limits.maxFileBytes < (e.chunks.take k).sum) :
    (safeExtractZip cwd targetDir limits (pre ++ e :: post)).1 =
      some ZipError.limitsExceeded := by
  unfold safeExtractZip
  rw [runEntries_append, hpre]
  simp only [runEntries]
  rcases hpe : processEntry cwd targetDir limits st e with ⟨err?, st'⟩
  have habort := processEntry_stream_abort cwd targetDir limits st e hdir hcount
    hsize htotal hsafe1 hsafe2 hstream
  rw [hpe] at habort
  replace habort : err? = some ZipError.limitsExceeded := habort
  subst habort
  rfl

/-- Concrete instantiation of `safeExtractZip_streaming_cap`: an entry that
declares 0 bytes but streams 11 bytes against a 10-byte per-file cap aborts
the extraction. -/
theorem safeExtractZip_streaming_cap_witness :
    (safeExtractZip "/srv" "/srv/extracted/job"
        { maxFiles := 5, maxFileBytes := 10, maxTotalBytes := 1000 }
        [{ path := "ok.txt", type := "File", uncompressedSize := 1, chunks := [1] },
         { path := "bomb.bin", type := "File", uncompressedSize := 0,
           chunks := [6, 6] }]).1 = some ZipError.limitsExceeded := by
  refine safeExtractZip_streaming_cap "/srv" "/srv/extracted/job"
    { maxFiles := 5, maxFileBytes := 10, maxTotalBytes := 1000 }
    [{ path := "ok.txt", type := "File", uncompressedSize := 1, chunks := [1] }] []
    { path := "bomb.bin", type := "File", uncompressedSize := 0, chunks := [6, 6] }
    { extractedTotalBytes := 1, extractedFilesCount := 1,
      written := [("/srv/extracted/job/ok.txt", 1)] }
    (by decide) (by decide) (by decide) (by decide) (by decide) (by decide)
    (by decide) ⟨2, by decide⟩

/-- C4 counterexample: a concrete upload whose extraction fails with
`UnsafePath` (a traversal entry) — the route handler only forwards the error
and the central error handler reports status 400; the action list of the
failure path is empty, so the partially-extracted target directory is not
deleted before (or after) reporting the failure. -/
theorem uploadFailure_no_cleanup_counterexample :
    (safeExtractZip "/srv" "/srv/extracted/job-1"
        { maxFiles := 15000, maxFileBytes := 31457280, maxTotalBytes := 1572864000 }
        [{ path := "ok.txt", type := "File", uncompressedSize := 1, chunks := [1] },
         { path := "../../etc/passwd", type := "File",
           uncompressedSize := 3, chunks := [3] }]).1 = some ZipError.unsafePath ∧
    (handleZipUpload "/srv/uploads/a.zip" "/srv/extracted/job-1"
        (some ZipError.unsafePath)).actions = [] ∧
    (handleZipUpload "/srv/uploads/a.zip" "/srv/extracted/job-1"
        (some ZipError.unsafePath)).response.status = 400 := by
  refine ⟨by decide, rfl, rfl⟩

/-- C4 amended: when extraction fails, the handler reports the failure (a
non-`ok` response that carries no tree or graph, status 400 for `UnsafePath`
and 413 for `LimitExceeded`) and takes no filesystem action at all: in
particular it does not delete the partially-extracted target directory, and it
does not even schedule the TTL cleanup (which only the success path does). -/
theorem handleZipUpload_failure_behavior (archivePath targetDir : String)
    (err : ZipError) :
    (handleZipUpload archivePath targetDir (some err)).actions = [] ∧
    (handleZipUpload archivePath targetDir (some err)).response.ok = false ∧
    (handleZipUpload archivePath targetDir (some err)).response.servesTreeAndGraph
      = false ∧
    (handleZipUpload archivePath targetDir (some err)).response.status =
      (match err with
        | ZipError.unsafePath => 400
        | ZipError.limitsExceeded => 413) ∧
    (handleZipUpload archivePath targetDir none).actions =
      [ServerAction.scheduleCleanup archivePath targetDir] := by
  cases err <;> exact ⟨rfl, rfl, rfl, rfl, rfl⟩

/-- The JavaScript `\s` whitespace class restricted to the characters the
analysed sources can contain. -/
def jsSpace (c : Char) : Bool :=
  c = ' ' || c = '\t' || c = '\n' || c = '\r' ||
    c = '\x0b' || c = '\x0c' || c = ' ' || c = '﻿'

/-- The quote characters of the `["']` classes in the extraction patterns. -/
def isQuote (c : Char) : Bool :=
  c = '"' || c = '\''

/-- Consuming a literal character sequence from the head of the input. -/
def dropLit : List Char → List Char → Option (List Char)
  | [], cs => some cs
  | _, [] => none
  | l :: ls, c :: cs => if c = l then dropLit ls cs else none

/-- Matching `["']([^"']+)["']`: an opening quote, a nonempty greedy run of
non-quote characters (the capture), and a closing quote (either kind, as in
the source patterns).  Returns the capture and the rest of the input. -/
def matchQuoted : List Char → Option (List Char × List Char)
  | [] => none
  | q :: cs1 =>
    if isQuote q then
      let cap := cs1.takeWhile (fun c => !isQuote c)
      let rest := cs1.dropWhile (fun c => !isQuote c)
      if cap = [] then none
      else
        match rest with
        | q2 :: cs2 => if isQuote q2 then some (cap, cs2) else none
        | [] => none
    else none

/-- Matching the pattern `import\s+["']([^"']+)["']` at the head of the
input. -/
def matchImportBare (cs : List Char) : Option (List Char × List Char) :=
  match dropLit ['i', 'm', 'p', 'o', 'r', 't'] cs with
  | none => none
  | some cs1 =>
    if (cs1.takeWhile jsSpace).length = 0 then none
    else matchQuoted (cs1.dropWhile jsSpace)

/-- Matching the pattern `require\(\s*["']([^"']+)["']\s*\)` at the head of
the input. -/
def matchRequire (cs : List Char) : Option (List Char × List Char) :=
  match dropLit ['r', 'e', 'q', 'u', 'i', 'r', 'e', '('] cs with
  | none => none
  | some cs1 =>
    match matchQuoted (cs1.dropWhile jsSpace) with
    | none => none
    | some (cap, cs3) =>
      match cs3.dropWhile jsSpace with
      | ')' :: cs5 => some (cap, cs5)
      | _ => none

/-- Matching the pattern `import\s+[^;]*?\sfrom\s+["']([^"']+)["']` at the
head of the input, with the regex backtracking priorities: the `\s+` run is
tried longest first, the lazy `[^;]*?` shortest first. -/
def matchImportFrom (cs : List Char) : Option (List Char × List Char) :=
  match dropLit ['i', 'm', 'p', 'o', 'r', 't'] cs with
  | none => none
  | some cs1 =>
    let maxSp := (cs1.takeWhile jsSpace).length
    ((List.range maxSp).map (fun i => maxSp - i)).findSome? (fun k =>
      let cs2 := cs1.drop k
      let limit := (cs2.takeWhile (fun c => c ≠ ';')).length
      (List.range (limit + 1)).findSome? (fun m =>
        match cs2.drop m with
        | [] => none
        | c :: cs4 =>
          if jsSpace c then
            match dropLit ['f', 'r', 'o', 'm'] cs4 with
            | none => none
            | some cs5 =>
              if (cs5.takeWhile jsSpace).length = 0 then none
              else matchQuoted (cs5.dropWhile jsSpace)
          else none))

/-- The global `exec` loop of a `/g` regex: the matcher is tried at each
position from left to right; a match emits its capture and the scan resumes
right after the matched text (all three patterns consume at least one
character, so the fuel `length + 1` never runs out). -/
def scanMatches (matcher : List Char → Option (List Char × List Char)) :
    Nat → List Char → List (List Char)
  | 0, _ => []
  | fuel + 1, cs =>
    match matcher cs with
    | some (cap, rest) => cap :: scanMatches matcher fuel rest
    | none =>
      match cs with
      | [] => []
      | _ :: cs' => scanMatches matcher fuel cs'

/-- Order-preserving deduplication, the behaviour of collecting into a
JavaScript `Set` and spreading it back into an array. -/
def dedupFirst : List String → List String :=
  let rec go (seen : List String) : List String → List String
    | [] => []
    | s :: ss => if seen.contains s then go seen ss else s :: go (s :: seen) ss
  go []

/-- Model of `extractImportSpecifiers`: all captures of the three patterns
(`import … from "x"`, `import "x"`, `require("x")`), in scan order, collected
into an insertion-ordered set. -/
def extractImportSpecifiers (fileContent : String) : List String :=
  dedupFirst
    ((scanMatches matchImportFrom (fileContent.data.length + 1)
        fileContent.data).map String.mk ++
      (scanMatches matchImportBare (fileContent.data.length + 1)
        fileContent.data).map String.mk ++
      (scanMatches matchRequire (fileContent.data.length + 1)
        fileContent.data).map String.mk)

/-- Model of `isLocalImportSpecifier`: the specifier starts with `./` or
`../`. -/
def isLocalImportSpecifier (spec : String) : Bool :=
  isPre ['.', '/'] spec.data || isPre ['.', '.', '/'] spec.data

/-- Model of `resolveImportToRelativeFile`: the specifier is joined onto the
importing file's directory and normalised, and the candidates — the literal
path, the four extension variants, and the four directory index variants —
are probed in order against the set of analysed relative paths; the first
member wins, otherwise the resolution is `none`. -/
def resolveImportToRelativeFile (fromFileRelPath importSpec : String)
    (existingRelPathsSet : List String) : Option String :=
  let fromDir := posixDirname (backslashToSlash fromFileRelPath)
  let base := posixNormalize (posixJoin fromDir (backslashToSlash importSpec))
  let candidates := [base,
    base ++ ".js", base ++ ".jsx", base ++ ".ts", base ++ ".tsx",
    posixJoin base "index.js", posixJoin base "index.jsx",
    posixJoin base "index.ts", posixJoin base "index.tsx"]
  candidates.find? (fun c => existingRelPathsSet.contains c)

example : extractImportSpecifiers "import \"./c\"" = ["./c"] := by decide
example : extractImportSpecifiers "import x from \"./c\"" = ["./c"] := by decide
example : extractImportSpecifiers "const y = require(\"./util\");" = ["./util"] := by decide
example : resolveImportToRelativeFile "a/b.js" "./c" ["a/b.js", "a/c.js"] =
    some "a/c.js" := by decide
example : resolveImportToRelativeFile "a/b.js" "./x" ["a/b.js", "a/c.js"] =
    none := by decide

/-- One analysed source file as the import scanner sees it: its
project-relative path (`path.relative(rootDir, absPath)` with backslashes
already replaced, the id used by the frontend) and the result of reading it —
`none` models a `readFile` failure (binary content, permissions, encoding). -/
structure SrcFile where
  relPath : String
  content : Option String
deriving DecidableEq, Repr

/-- One directed edge of the dependency graph. -/
structure GraphEdge where
  source : String
  target : String
deriving DecidableEq, Repr

/-- The dependency graph: one node id per analysed code file and the
deduplicated edge list. -/
structure ImportsGraph where
  nodes : List String
  edges : List GraphEdge
deriving DecidableEq, Repr

/-- The recognised code extensions (`CODE_EXTENSIONS` in the source). -/
def CODE_EXTENSIONS : List String := [".js", ".jsx", ".ts", ".tsx"]

/-- The deduplication key `` `${fromRelPath}=>${targetRelPath}` `` of one
edge. -/
def edgeKey (source target : String) : String :=
  source ++ "=>" ++ target

/-- Processing of one import specifier inside `buildLocalImportsGraph`'s
inner loop: resolve it against the analysed set, skip it when unresolved,
skip it when the edge key was already seen, and otherwise push the edge and
record its key. -/
def addSpecEdge (fromRelPath : String) (relPathsSet : List String)
    (acc : List GraphEdge × List String) (spec : String) :
    List GraphEdge × List String :=
  match resolveImportToRelativeFile fromRelPath spec relPathsSet with
  | none => acc
  | some targetRelPath =>
    let key := edgeKey fromRelPath targetRelPath
    if acc.2.contains key then acc
    else (acc.1 ++ [{ source := fromRelPath, target := targetRelPath }],
      acc.2 ++ [key])

/-- Processing of one code file inside `buildLocalImportsGraph`'s outer loop:
an unreadable file is skipped entirely (it contributes no edges but is
already a node); a readable one has its local import specifiers extracted and
folded through `addSpecEdge`. -/
def addFileEdges (relPathsSet : List String)
    (acc : List GraphEdge × List String) (f : SrcFile) :
    List GraphEdge × List String :=
  match f.content with
  | none => acc
  | some content =>
    ((extractImportSpecifiers content).filter
      (fun s => isLocalImportSpecifier s)).foldl
      (addSpecEdge f.relPath relPathsSet) acc

/-- Model of `buildLocalImportsGraph`: the files are filtered to the
recognised code extensions (lower-cased `extname`), every code file becomes a
node (readable or not), and the edges are accumulated file by file with the
`edgeKey` set preventing duplicates. -/
def buildLocalImportsGraph (files : List SrcFile) : ImportsGraph :=
  let codeFiles := files.filter (fun f =>
    CODE_EXTENSIONS.contains (toLowerStr (extname f.relPath)))
  let relPaths := codeFiles.map (fun f => f.relPath)
  { nodes := relPaths,
    edges := (codeFiles.foldl (addFileEdges relPaths) ([], [])).1 }

example :
    buildLocalImportsGraph
      [{ relPath := "a/b.js", content := some "import \"./c\"" },
       { relPath := "a/c.js", content := some "" },
       { relPath := "README.md", content := some "import \"./c\"" }] =
      { nodes := ["a/b.js", "a/c.js"],
        edges := [{ source := "a/b.js", target := "a/c.js" }] } := by decide

example :
    buildLocalImportsGraph
      [{ relPath := "src/index.js",
         content := some "const u = require(\"./util\");" },
       { relPath := "src/util.js", content := some "" }] =
      { nodes := ["src/index.js", "src/util.js"],
        edges := [{ source := "src/index.js", target := "src/util.js" }] } := by
  decide

/-- The fixed probe list of `resolveImportToRelativeFile`: the literal
normalised path, the four extension variants in source order, and the four
directory index variants in source order. -/
def resolveCandidates (fromFileRelPath importSpec : String) : List String :=
  let fromDir := posixDirname (backslashToSlash fromFileRelPath)
  let base := posixNormalize (posixJoin fromDir (backslashToSlash importSpec))
  [base,
    base ++ ".js", base ++ ".jsx", base ++ ".ts", base ++ ".tsx",
    posixJoin base "index.js", posixJoin base "index.jsx",
    posixJoin base "index.ts", posixJoin base "index.tsx"]

lemma resolveImport_eq_find (fromFileRelPath importSpec : String)
    (set : List String) :
    resolveImportToRelativeFile fromFileRelPath importSpec set =
      (resolveCandidates fromFileRelPath importSpec).find?
        (fun c => set.contains c) := rfl

/-- C5: resolution probes the candidates in the fixed priority order — the
literal normalised path, then the `.js`, `.jsx`, `.ts`, `.tsx` variants, then
the directory index files under the same four extensions — and returns the
first candidate present in the analysed set; when no candidate is present the
specifier resolves to nothing.  Concretely, `a/b.js` containing
`import "./c"` next to `a/c.js` yields exactly the edge
`a/b.js → a/c.js`, and `./x` with no `a/x.*` present yields zero edges. -/
theorem resolveImport_probe_order (fromFileRelPath importSpec : String)
    (set : List String) :
    (∀ r, resolveImportToRelativeFile fromFileRelPath importSpec set = some r →
      set.contains r = true ∧
      ∃ pre post, resolveCandidates fromFileRelPath importSpec = pre ++ r :: post ∧
        ∀ c ∈ pre, set.contains c = false) ∧
    (resolveImportToRelativeFile fromFileRelPath importSpec set = none →
      ∀ c ∈ resolveCandidates fromFileRelPath importSpec,
        set.contains c = false) ∧
    buildLocalImportsGraph
      [{ relPath := "a/b.js", content := some "import \"./c\"" },
       { relPath := "a/c.js", content := some "" }] =
      { nodes := ["a/b.js", "a/c.js"],
        edges := [{ source := "a/b.js", target := "a/c.js" }] } ∧
    buildLocalImportsGraph
      [{ relPath := "a/b.js", content := some "import \"./x\"" },
       { relPath := "a/c.js", content := some "" }] =
      { nodes := ["a/b.js", "a/c.js"], edges := [] } := by
  refine ⟨?_, ?_, by decide, by decide⟩
  · intro r hr
    rw [resolveImport_eq_find] at hr
    obtain ⟨hp, pre, post, hsplit, hpre⟩ := List.find?_eq_some.mp hr
    refine ⟨hp, pre, post, hsplit, ?_⟩
    intro c hc
    have := hpre c hc
    simpa using this
  · intro hnone c hc
    rw [resolveImport_eq_find] at hnone
    have := List.find?_eq_none.mp hnone c hc
    simpa using this

/-- Concrete instantiation of `resolveImport_probe_order`: the resolution of
`./c` from `a/b.js` against `{a/b.js, a/c.js}` hits `a/c.js` (the `.js`
probe) and every earlier probe misses. -/
theorem resolveImport_probe_order_witness :
    (["a/b.js", "a/c.js"] : List String).contains "a/c.js" = true ∧
    ∃ pre post, resolveCandidates "a/b.js" "./c" = pre ++ "a/c.js" :: post ∧
      ∀ c ∈ pre, (["a/b.js", "a/c.js"] : List String).contains c = false :=
  (resolveImport_probe_order "a/b.js" "./c" ["a/b.js", "a/c.js"]).1
    "a/c.js" (by decide)

/-- The invariant of `buildLocalImportsGraph`'s accumulator: every pushed
edge's key is recorded in the key set, and the pushed edges are pairwise
distinct as (source, target) pairs. -/
def EdgeInv (acc : List GraphEdge × List String) : Prop :=
  (∀ e ∈ acc.1, edgeKey e.source e.target ∈ acc.2) ∧
    acc.1.Pairwise (fun e1 e2 => ¬(e1.source = e2.source ∧ e1.target = e2.target))

lemma edgeInv_addSpecEdge (fromRel : String) (set : List String)
    (acc : List GraphEdge × List String) (spec : String)
    (h : EdgeInv acc) : EdgeInv (addSpecEdge fromRel set acc spec) := by
  unfold addSpecEdge
  cases hres : resolveImportToRelativeFile fromRel spec set with
  | none => exact h
  | some tgt =>
    simp only
    by_cases hk : acc.2.contains (edgeKey fromRel tgt) = true
    · rw [if_pos hk]
      exact h
    · rw [if_neg hk]
      obtain ⟨h1, h2⟩ := h
      constructor
      · intro e he
        rcases List.mem_append.mp he with hm | hm
        · exact List.mem_append.mpr (Or.inl (h1 e hm))
        · simp only [List.mem_singleton] at hm
          subst hm
          exact List.mem_append.mpr (Or.inr (by simp))
      · rw [List.pairwise_append]
        refine ⟨h2, List.pairwise_singleton _ _, ?_⟩
        intro a ha b hb
        simp only [List.mem_singleton] at hb
        subst hb
        rintro ⟨hs, ht⟩
        simp only at hs ht
        have hmem := h1 a ha
        rw [hs, ht] at hmem
        exact hk (by simpa using hmem)

lemma edgeInv_addFileEdges (set : List String)
    (acc : List GraphEdge × List String) (f : SrcFile)
    (h : EdgeInv acc) : EdgeInv (addFileEdges set acc f) := by
  unfold addFileEdges
  cases f.content with
  | none => exact h
  | some content =>
    simp only
    generalize ((extractImportSpecifiers content).filter
      (fun s => isLocalImportSpecifier s)) = specs
    induction specs generalizing acc with
    | nil => exact h
    | cons s ss ih =>
      exact ih (addSpecEdge f.relPath set acc s)
        (edgeInv_addSpecEdge f.relPath set acc s h)

/-- C6: in the graph produced by `buildLocalImportsGraph` the edge list holds
at most one edge per ordered (source, target) pair, whatever the input files
and however many specifiers or specifier syntaxes resolve to the same target;
concretely, a file importing the same resolved target through an `import`
statement and a `require` call yields exactly one edge. -/
theorem buildLocalImportsGraph_dedup (files : List SrcFile) :
    (buildLocalImportsGraph files).edges.Pairwise
      (fun e1 e2 => ¬(e1.source = e2.source ∧ e1.target = e2.target)) ∧
    buildLocalImportsGraph
      [{ relPath := "a/b.js",
         content := some "import x from \"./c\"\nconst y = require(\"./c.js\");" },
       { relPath := "a/c.js", content := some "" }] =
      { nodes := ["a/b.js", "a/c.js"],
        edges := [{ source := "a/b.js", target := "a/c.js" }] } := by
  constructor
  · unfold buildLocalImportsGraph
    simp only
    generalize hfl : files.filter (fun f =>
      CODE_EXTENSIONS.contains (toLowerStr (extname f.relPath))) = codeFiles
    have : ∀ (cf : List SrcFile) (set : List String)
        (acc : List GraphEdge × List String), EdgeInv acc →
        EdgeInv (cf.foldl (addFileEdges set) acc) := by
      intro cf set
      induction cf with
      | nil => intro acc h; exact h
      | cons g gs ih =>
        intro acc h
        exact ih (addFileEdges set acc g) (edgeInv_addFileEdges set acc g h)
    exact (this codeFiles _ ([], []) ⟨by simp, List.Pairwise.nil⟩).2
  · decide

lemma addSpecEdge_source (fromRel : String) (set : List String)
    (acc : List GraphEdge × List String) (spec : String) :
    ∀ e ∈ (addSpecEdge fromRel set acc spec).1,
      e ∈ acc.1 ∨ e.source = fromRel := by
  intro e he
  unfold addSpecEdge at he
  cases hres : resolveImportToRelativeFile fromRel spec set with
  | none => rw [hres] at he; exact Or.inl he
  | some tgt =>
    rw [hres] at he
    simp only at he
    by_cases hk : acc.2.contains (edgeKey fromRel tgt) = true
    · rw [if_pos hk] at he
      exact Or.inl he
    · rw [if_neg hk] at he
      rcases List.mem_append.mp he with hm | hm
      · exact Or.inl hm
      · simp only [List.mem_singleton] at hm
        subst hm
        exact Or.inr rfl

lemma addFileEdges_source (set : List String)
    (acc : List GraphEdge × List String) (f : SrcFile) :
    ∀ e ∈ (addFileEdges set acc f).1,
      e ∈ acc.1 ∨ (f.content ≠ none ∧ e.source = f.relPath) := by
  intro e he
  unfold addFileEdges at he
  cases hc : f.content with
  | none => rw [hc] at he; exact Or.inl he
  | some content =>
    rw [hc] at he
    simp only at he
    have main : ∀ (specs : List String) (acc' : List GraphEdge × List String),
        e ∈ (specs.foldl (addSpecEdge f.relPath set) acc').1 →
        e ∈ acc'.1 ∨ e.source = f.relPath := by
      intro specs
      induction specs with
      | nil => intro acc' h; exact Or.inl h
      | cons s ss ih =>
        intro acc' h
        rcases ih (addSpecEdge f.relPath set acc' s) h with hm | hm
        · exact addSpecEdge_source f.relPath set acc' s e hm
        · exact Or.inr hm
    rcases main _ acc he with hm | hm
    · exact Or.inl hm
    · exact Or.inr ⟨by simp [hc], hm⟩

lemma foldl_addFileEdges_source (set : List String) :
    ∀ (cf : List SrcFile) (acc : List GraphEdge × List String)
      (e : GraphEdge), e ∈ (cf.foldl (addFileEdges set) acc).1 →
      e ∈ acc.1 ∨ ∃ g ∈ cf, g.content ≠ none ∧ e.source = g.relPath := by
  intro cf
  induction cf with
  | nil => intro acc e h; exact Or.inl h
  | cons g gs ih =>
    intro acc e h
    rcases ih (addFileEdges set acc g) e h with hm | hm
    · rcases addFileEdges_source set acc g e hm with hm' | hm'
      · exact Or.inl hm'
      · exact Or.inr ⟨g, by simp, hm'⟩
    · obtain ⟨g', hg', h1, h2⟩ := hm
      exact Or.inr ⟨g', List.mem_cons_of_mem g hg', h1, h2⟩

/-- C9: a code file whose content cannot be read is skipped for import
extraction — it contributes no outgoing edge — but still appears as a node of
the graph, and `buildLocalImportsGraph` stays total (the failure is recovered
locally, never propagated).  The analysed code files are assumed to have
pairwise distinct relative paths, as produced by the directory walk. -/
theorem buildLocalImportsGraph_unreadable (files : List SrcFile) (f : SrcFile)
    (hmem : f ∈ files)
    (hcode : CODE_EXTENSIONS.contains (toLowerStr (extname f.relPath)) = true)
    (hnone : f.content = none)
    (hnodup : ((files.filter (fun g =>
      CODE_EXTENSIONS.contains (toLowerStr (extname g.relPath)))).map
        (fun g => g.relPath)).Nodup) :
    f.relPath ∈ (buildLocalImportsGraph files).nodes ∧
      ∀ e ∈ (buildLocalImportsGraph files).edges, e.source ≠ f.relPath := by
  have hfmem : f ∈ files.filter (fun g =>
      CODE_EXTENSIONS.contains (toLowerStr (extname g.relPath))) :=
    List.mem_filter.mpr ⟨hmem, hcode⟩
  constructor
  · exact List.mem_map.mpr ⟨f, hfmem, rfl⟩
  · intro e he heq
    rcases foldl_addFileEdges_source _ _ ([], []) e he with hm | hm
    · simp at hm
    · obtain ⟨g, hg, hread, hsrc⟩ := hm
      have : g = f :=
        List.inj_on_of_nodup_map hnodup hg hfmem (hsrc ▸ heq)
      rw [this, hnone] at hread
      exact hread rfl

/-- Concrete instantiation of `buildLocalImportsGraph_unreadable`: an
unreadable `a.js` still appears as a node, and the single edge (from the
readable `b.js`, which imports it) does not originate from `a.js`. -/
theorem buildLocalImportsGraph_unreadable_witness :
    "a.js" ∈ (buildLocalImportsGraph
      [{ relPath := "a.js", content := none },
       { relPath := "b.js", content := some "import \"./a\"" }]).nodes ∧
    ({ source := "b.js", target := "a.js" } : GraphEdge).source ≠ "a.js" := by
  have h := buildLocalImportsGraph_unreadable
    [{ relPath := "a.js", content := none },
     { relPath := "b.js", content := some "import \"./a\"" }]
    { relPath := "a.js", content := none }
    (by decide) (by decide) rfl (by decide)
  exact ⟨h.1, h.2 { source := "b.js", target := "a.js" } (by decide)⟩

/-- C10: candidate probing tests membership of the analysed set by exact,
case-sensitive string equality — a resolved target is always literally one of
the probed candidates and literally a member of the set, so a set member that
differs from every candidate (in particular one differing only in letter
case) is never returned; concretely, `./c` from `a/b.js` does not match
`a/C.js`, which differs from the probed candidate `a/c.js` only in case, and
the graph gains no edge. -/
theorem resolveImport_case_sensitive (fromFileRelPath importSpec : String)
    (set : List String) :
    (∀ r, resolveImportToRelativeFile fromFileRelPath importSpec set = some r →
      r ∈ set ∧ r ∈ resolveCandidates fromFileRelPath importSpec) ∧
    (∀ f, f ∈ set → f ∉ resolveCandidates fromFileRelPath importSpec →
      resolveImportToRelativeFile fromFileRelPath importSpec set ≠ some f) ∧
    "a/c.js" ∈ resolveCandidates "a/b.js" "./c" ∧
    toLowerStr "a/C.js" = toLowerStr "a/c.js" ∧
    ("a/C.js" : String) ≠ "a/c.js" ∧
    buildLocalImportsGraph
      [{ relPath := "a/b.js", content := some "import \"./c\"" },
       { relPath := "a/C.js", content := some "" }] =
      { nodes := ["a/b.js", "a/C.js"], edges := [] } := by
  refine ⟨?_, ?_, by decide, by decide, by decide, by decide⟩
  · intro r hr
    rw [resolveImport_eq_find] at hr
    refine ⟨?_, List.mem_of_find?_eq_some hr⟩
    have := List.find?_some hr
    simpa using this
  · intro f hf hnotc hres
    rw [resolveImport_eq_find] at hres
    exact hnotc (List.mem_of_find?_eq_some hres)

/-- Concrete instantiation of `resolveImport_case_sensitive`: the set member
`a/C.js`, a pure case variant of the probed candidate `a/c.js`, is never the
resolution result. -/
theorem resolveImport_case_sensitive_witness :
    resolveImportToRelativeFile "a/b.js" "./c" ["a/C.js"] ≠ some "a/C.js" :=
  (resolveImport_case_sensitive "a/b.js" "./c" ["a/C.js"]).2.1
    "a/C.js" (by decide) (by decide)

/-- Model of `Map.prototype.get(id)` with the `|| 0` default: the value of
the first entry with the given key, or `0`. -/
def mapGetD : List (String × Nat) → String → Nat
  | [], _ => 0
  | kv :: m, id => if kv.1 = id then kv.2 else mapGetD m id

/-- Model of `Map.prototype.set(id, v)`: replace the entry in place when the
key is present (JavaScript `Map` keeps the original insertion position),
append a new entry otherwise. -/
def mapSet : List (String × Nat) → String → Nat → List (String × Nat)
  | [], id, v => [(id, v)]
  | kv :: m, id, v => if kv.1 = id then (id, v) :: m else kv :: mapSet m id v

/-- The two `degreeByNode.set` calls performed for one edge: the source's
count and then the target's count are incremented (a self-loop edge therefore
counts twice on its node). -/
def bumpEdge (m : List (String × Nat)) (e : GraphEdge) : List (String × Nat) :=
  let m1 := mapSet m e.source (mapGetD m e.source + 1)
  mapSet m1 e.target (mapGetD m1 e.target + 1)

/-- The degree map of `buildAnalysisStats`: every node id starts at `0` in
node-list order, then every edge bumps its source and target. -/
def degreeEntries (graph : ImportsGraph) : List (String × Nat) :=
  graph.edges.foldl bumpEdge
    (graph.nodes.foldl (fun m id => mapSet m id 0) [])

/-- Stable insertion into a list sorted by the strict precedence test `lt`:
the element is placed before the first member that does not strictly precede
it, so earlier-inserted equals stay first. -/
def insertSorted (lt : α → α → Bool) (x : α) : List α → List α
  | [] => [x]
  | y :: ys => if lt y x then y :: insertSorted lt x ys else x :: y :: ys

/-- Stable sort by the strict precedence test `lt` — the unique output of
JavaScript's stable `Array.prototype.sort` under a consistent comparator. -/
def stableSortBy (lt : α → α → Bool) : List α → List α
  | [] => []
  | x :: xs => insertSorted lt x (stableSortBy lt xs)

/-- The comparator `(a, b) => b[1] - a[1]` of the `topDegree` ranking, as a
strict precedence test: `a` strictly precedes `b` when its degree is
larger. -/
def degLt (a b : String × Nat) : Bool :=
  decide (b.2 < a.2)

/-- The degree entries sorted descending by the stable sort. -/
def sortedDegreeEntries (graph : ImportsGraph) : List (String × Nat) :=
  stableSortBy degLt (degreeEntries graph)

/-- One entry of the `topDegree` ranking. -/
structure TopDegreeEntry where
  id : String
  degree : Nat
deriving DecidableEq, Repr

/-- The `graph` field of the stats payload. -/
structure StatsGraph where
  nodes : Nat
  edges : Nat
  topDegree : List TopDegreeEntry
deriving DecidableEq, Repr

/-- The stats payload: per-extension counts and the graph summary. -/
structure AnalysisStats where
  exts : List (String × Nat)
  graph : StatsGraph
deriving DecidableEq, Repr

/-- Model of `buildAnalysisStats`, taking the analysed files' relative paths
(already computed from the extraction root) and the graph: files are counted
by lower-cased extension (`(none)` for extensionless names), and the top-8
degree ranking is the stable descending sort of the degree map. -/
def buildAnalysisStats (relPaths : List String) (graph : ImportsGraph) :
    AnalysisStats :=
  let countByExtension := relPaths.foldl (fun m relPath =>
    let e := toLowerStr (extname relPath)
    let ext := if e = "" then "(none)" else e
    mapSet m ext (mapGetD m ext + 1)) []
  { exts := countByExtension,
    graph := {
      nodes := graph.nodes.length,
      edges := graph.edges.length,
      topDegree := ((sortedDegreeEntries graph).take 8).map
        (fun kv => { id := kv.1, degree := kv.2 }) } }

example :
    buildAnalysisStats ["src/index.js", "src/util.js", "README.md"]
      (buildLocalImportsGraph
        [{ relPath := "src/index.js",
           content := some "const u = require(\"./util\");" },
         { relPath := "src/util.js", content := some "" }]) =
      { exts := [(".js", 2), (".md", 1)],
        graph := { nodes := 2, edges := 1,
                   topDegree := [{ id := "src/index.js", degree := 1 },
                     { id := "src/util.js", degree := 1 }] } } := by decide

lemma mapGetD_mapSet (m : List (String × Nat)) (id id' : String) (v : Nat) :
    mapGetD (mapSet m id v) id' = if id' = id then v else mapGetD m id' := by
  induction m with
  | nil =>
    simp only [mapSet, mapGetD]
    by_cases h : id = id'
    · rw [if_pos h, if_pos h.symm]
    · rw [if_neg h, if_neg (fun hh => h hh.symm)]
  | cons kv m ih =>
    by_cases hk : kv.1 = id
    · simp only [mapSet, if_pos hk, mapGetD]
      by_cases h : id' = id
      · rw [if_pos h.symm, if_pos h]
      · rw [if_neg (fun hh : id = id' => h hh.symm), if_neg h,
          if_neg (fun hh : kv.1 = id' => h (by rw [← hh, hk]))]
    · simp only [mapSet, if_neg hk, mapGetD]
      by_cases h2 : kv.1 = id'
      · have hne : ¬(id' = id) := fun hh => hk (by rw [h2, hh])
        rw [if_pos h2, if_neg hne, if_pos h2]
      · rw [if_neg h2, if_neg h2, ih]

lemma keys_mapSet (m : List (String × Nat)) (id : String) (v : Nat) :
    (mapSet m id v).map (fun kv => kv.1) =
      if id ∈ m.map (fun kv => kv.1) then m.map (fun kv => kv.1)
      else m.map (fun kv => kv.1) ++ [id] := by
  induction m with
  | nil => simp [mapSet]
  | cons kv m ih =>
    by_cases hk : kv.1 = id
    · simp only [mapSet, if_pos hk, List.map_cons]
      rw [if_pos (by rw [hk]; exact List.mem_cons_self _ _), hk]
    · simp only [mapSet, if_neg hk, List.map_cons, ih]
      by_cases hmem : id ∈ m.map (fun kv => kv.1)
      · rw [if_pos hmem, if_pos (List.mem_cons_of_mem kv.1 hmem)]
      · rw [if_neg hmem, if_neg ?_, List.cons_append]
        intro hmm
        rcases List.mem_cons.mp hmm with h | h
        · exact hk h.symm
        · exact hmem h

lemma bumpEdge_getD (m : List (String × Nat)) (e : GraphEdge) (id : String) :
    mapGetD (bumpEdge m e) id = mapGetD m id +
      ((if e.source = id then 1 else 0) + (if e.target = id then 1 else 0)) := by
  rcases e with ⟨s, t⟩
  simp only [bumpEdge, mapGetD_mapSet]
  by_cases h2 : id = t
  · subst h2
    by_cases h3 : id = s
    · subst h3
      simp
    · have h3' : ¬(s = id) := fun hh => h3 hh.symm
      simp [h3, h3']
  · have h2' : ¬(t = id) := fun hh => h2 hh.symm
    by_cases h1 : id = s
    · subst h1
      simp [h2, h2']
    · have h1' : ¬(s = id) := fun hh => h1 hh.symm
      simp [h1, h1', h2, h2']

lemma foldl_bumpEdge_getD :
    ∀ (edges : List GraphEdge) (m : List (String × Nat)) (id : String),
      mapGetD (edges.foldl bumpEdge m) id = mapGetD m id +
        ((edges.filter (fun e => e.source = id)).length +
          (edges.filter (fun e => e.target = id)).length) := by
  intro edges
  induction edges with
  | nil => simp
  | cons e es ih =>
    intro m id
    simp only [List.foldl_cons, List.filter_cons]
    rw [ih, bumpEdge_getD]
    by_cases h1 : e.source = id <;> by_cases h2 : e.target = id <;>
      simp [h1, h2] <;> omega

lemma foldl_init_getD :
    ∀ (nodes : List String) (m : List (String × Nat)) (id : String),
      mapGetD (nodes.foldl (fun m id => mapSet m id 0) m) id =
        if id ∈ nodes then 0 else mapGetD m id := by
  intro nodes
  induction nodes with
  | nil => simp
  | cons n ns ih =>
    intro m id
    simp only [List.foldl_cons]
    rw [ih]
    by_cases h1 : id ∈ ns <;> by_cases h2 : id = n <;>
      simp [h1, h2, mapGetD_mapSet]

lemma foldl_init_keys :
    ∀ (nodes : List String) (m : List (String × Nat)),
      (∀ n ∈ nodes, n ∉ m.map (fun kv => kv.1)) → nodes.Nodup →
      (nodes.foldl (fun m id => mapSet m id 0) m).map (fun kv => kv.1) =
        m.map (fun kv => kv.1) ++ nodes := by
  intro nodes
  induction nodes with
  | nil => intro m _ _; simp
  | cons n ns ih =>
    intro m hfresh hnodup
    simp only [List.foldl_cons]
    have hkeys : (mapSet m n 0).map (fun kv => kv.1) =
        m.map (fun kv => kv.1) ++ [n] := by
      rw [keys_mapSet, if_neg (hfresh n (by simp))]
    rw [ih (mapSet m n 0) ?_ (List.Nodup.of_cons hnodup), hkeys,
      List.append_assoc]
    · rfl
    · intro x hx
      rw [hkeys]
      intro hmem
      rcases List.mem_append.mp hmem with hm | hm
      · exact hfresh x (List.mem_cons_of_mem n hx) hm
      · simp only [List.mem_singleton] at hm
        subst hm
        exact (List.nodup_cons.mp hnodup).1 hx

lemma foldl_bumpEdge_keys :
    ∀ (edges : List GraphEdge) (m : List (String × Nat)),
      (∀ e ∈ edges, e.source ∈ m.map (fun kv => kv.1) ∧
        e.target ∈ m.map (fun kv => kv.1)) →
      (edges.foldl bumpEdge m).map (fun kv => kv.1) =
        m.map (fun kv => kv.1) := by
  intro edges
  induction edges with
  | nil => intro m _; rfl
  | cons e es ih =>
    intro m hmem
    simp only [List.foldl_cons]
    have h1 : (bumpEdge m e).map (fun kv => kv.1) = m.map (fun kv => kv.1) := by
      unfold bumpEdge
      have hs := (hmem e (by simp)).1
      have ht := (hmem e (by simp)).2
      have hk1 : (mapSet m e.source (mapGetD m e.source + 1)).map
          (fun kv => kv.1) = m.map (fun kv => kv.1) := by
        rw [keys_mapSet, if_pos hs]
      rw [keys_mapSet, hk1, if_pos ht]
    rw [ih (bumpEdge m e) ?_, h1]
    intro e' he'
    rw [h1]
    exact hmem e' (List.mem_cons_of_mem e he')

lemma insertSorted_perm (lt : α → α → Bool) (x : α) :
    ∀ s : List α, (insertSorted lt x s).Perm (x :: s) := by
  intro s
  induction s with
  | nil => exact List.Perm.refl _
  | cons y ys ih =>
    unfold insertSorted
    by_cases h : lt y x = true
    · rw [if_pos h]
      exact (ih.cons y).trans (List.Perm.swap x y ys)
    · rw [if_neg h]

lemma stableSortBy_perm (lt : α → α → Bool) :
    ∀ l : List α, (stableSortBy lt l).Perm l := by
  intro l
  induction l with
  | nil => exact List.Perm.refl _
  | cons x xs ih =>
    exact (insertSorted_perm lt x (stableSortBy lt xs)).trans (ih.cons x)

lemma insertSorted_degSorted (x : String × Nat) :
    ∀ s, List.Pairwise (fun (a b : String × Nat) => b.2 ≤ a.2) s →
      List.Pairwise (fun (a b : String × Nat) => b.2 ≤ a.2)
        (insertSorted degLt x s) := by
  intro s
  induction s with
  | nil => intro _; simp [insertSorted]
  | cons y ys ih =>
    intro hp
    obtain ⟨hy, hys⟩ := List.pairwise_cons.mp hp
    unfold insertSorted
    by_cases h : degLt y x = true
    · rw [if_pos h]
      refine List.pairwise_cons.mpr ⟨?_, ih hys⟩
      intro z hz
      have hz' : z ∈ x :: ys := (insertSorted_perm degLt x ys).mem_iff.mp hz
      rcases List.mem_cons.mp hz' with h1 | h1
      · subst h1
        exact Nat.le_of_lt (by simpa [degLt] using h)
      · exact hy z h1
    · rw [if_neg h]
      refine List.pairwise_cons.mpr ⟨?_, hp⟩
      intro z hz
      have hxy : y.2 ≤ x.2 := Nat.le_of_not_lt (by simpa [degLt] using h)
      rcases List.mem_cons.mp hz with h1 | h1
      · subst h1
        exact hxy
      · exact Nat.le_trans (hy z h1) hxy

lemma stableSortBy_degSorted :
    ∀ l, List.Pairwise (fun (a b : String × Nat) => b.2 ≤ a.2)
      (stableSortBy degLt l) := by
  intro l
  induction l with
  | nil => simp [stableSortBy]
  | cons x xs ih => exact insertSorted_degSorted x _ ih

lemma insertSorted_filter_eq (x : String × Nat) (d : Nat) (hx : x.2 = d) :
    ∀ s, (insertSorted degLt x s).filter (fun kv => kv.2 = d) =
      x :: s.filter (fun kv => kv.2 = d) := by
  intro s
  induction s with
  | nil => simp [insertSorted, hx]
  | cons y ys ih =>
    unfold insertSorted
    by_cases h : degLt y x = true
    · rw [if_pos h]
      have hy : ¬(y.2 = d) := by
        have : x.2 < y.2 := by simpa [degLt] using h
        omega
      simp only [List.filter_cons, ih]
      simp [hy]
    · rw [if_neg h]
      simp [List.filter_cons, hx]

lemma insertSorted_filter_ne (x : String × Nat) (d : Nat) (hx : ¬ x.2 = d) :
    ∀ s, (insertSorted degLt x s).filter (fun kv => kv.2 = d) =
      s.filter (fun kv => kv.2 = d) := by
  intro s
  induction s with
  | nil => simp [insertSorted, hx]
  | cons y ys ih =>
    unfold insertSorted
    by_cases h : degLt y x = true
    · rw [if_pos h]
      simp only [List.filter_cons, ih]
    · rw [if_neg h]
      simp [List.filter_cons, hx]

lemma stableSortBy_filter (d : Nat) :
    ∀ l, (stableSortBy degLt l).filter (fun kv => kv.2 = d) =
      l.filter (fun kv => kv.2 = d) := by
  intro l
  induction l with
  | nil => rfl
  | cons x xs ih =>
    show (insertSorted degLt x (stableSortBy degLt xs)).filter _ = _
    by_cases hx : x.2 = d
    · rw [insertSorted_filter_eq x d hx, ih]
      simp [List.filter_cons, hx]
    · rw [insertSorted_filter_ne x d hx, ih]
      simp [List.filter_cons, hx]

/-- C8: in `buildAnalysisStats`, the degree recorded for every node equals
its outgoing-edge count plus its incoming-edge count; the degree map lists
the nodes in their first-seen node-list order; `topDegree` has at most 8
entries, is sorted by degree descending, and the stable sort breaks ties by
the first-seen order (entries of equal degree keep their degree-map order,
stated through the filters); and on the 3-node graph with edges `A→B`,
`B→C`, `A→C` every node has degree 2 and all three appear in first-seen
order. -/
theorem buildAnalysisStats_degree_ranking (relPaths : List String)
    (graph : ImportsGraph) (hnodup : graph.nodes.Nodup)
    (hends : ∀ e ∈ graph.edges,
      e.source ∈ graph.nodes ∧ e.target ∈ graph.nodes) :
    (∀ id ∈ graph.nodes, mapGetD (degreeEntries graph) id =
      (graph.edges.filter (fun e => e.source = id)).length +
        (graph.edges.filter (fun e => e.target = id)).length) ∧
    (degreeEntries graph).map (fun kv => kv.1) = graph.nodes ∧
    (buildAnalysisStats relPaths graph).graph.topDegree.length ≤ 8 ∧
    List.Pairwise (fun a b => b.degree ≤ a.degree)
      (buildAnalysisStats relPaths graph).graph.topDegree ∧
    (sortedDegreeEntries graph).Perm (degreeEntries graph) ∧
    (∀ d, (sortedDegreeEntries graph).filter (fun kv => kv.2 = d) =
      (degreeEntries graph).filter (fun kv => kv.2 = d)) ∧
    (buildAnalysisStats []
      { nodes := ["A", "B", "C"],
        edges := [{ source := "A", target := "B" },
          { source := "B", target := "C" },
          { source := "A", target := "C" }] }).graph.topDegree =
      [{ id := "A", degree := 2 }, { id := "B", degree := 2 },
       { id := "C", degree := 2 }] := by
  have hkeys : (degreeEntries graph).map (fun kv => kv.1) = graph.nodes := by
    unfold degreeEntries
    have hinit := foldl_init_keys graph.nodes [] (by simp) hnodup
    simp only [List.map_nil, List.nil_append] at hinit
    rw [foldl_bumpEdge_keys graph.edges _ (by
      intro e he
      rw [hinit]
      exact hends e he), hinit]
  refine ⟨?_, hkeys, ?_, ?_, stableSortBy_perm degLt _,
    fun d => stableSortBy_filter d (degreeEntries graph), by decide⟩
  · intro id hid
    unfold degreeEntries
    rw [foldl_bumpEdge_getD, foldl_init_getD, if_pos hid, Nat.zero_add]
  · simp only [buildAnalysisStats, List.length_map]
    have := List.length_take_le 8 (sortedDegreeEntries graph)
    omega
  · simp only [buildAnalysisStats]
    rw [List.pairwise_map]
    exact (stableSortBy_degSorted (degreeEntries graph)).sublist
      (List.take_sublist 8 _)

/-- Concrete instantiation of `buildAnalysisStats_degree_ranking` on the
3-node graph with edges `A→B`, `B→C`, `A→C`: node `A`'s recorded degree is
its outgoing count plus its incoming count. -/
theorem buildAnalysisStats_degree_ranking_witness :
    mapGetD (degreeEntries
      { nodes := ["A", "B", "C"],
        edges := [{ source := "A", target := "B" },
          { source := "B", target := "C" },
          { source := "A", target := "C" }] }) "A" =
      (([{ source := "A", target := "B" },
          { source := "B", target := "C" },
          { source := "A", target := "C" }] : List GraphEdge).filter
        (fun e => e.source = "A")).length +
      (([{ source := "A", target := "B" },
          { source := "B", target := "C" },
          { source := "A", target := "C" }] : List GraphEdge).filter
        (fun e => e.target = "A")).length :=
  (buildAnalysisStats_degree_ranking []
    { nodes := ["A", "B", "C"],
      edges := [{ source := "A", target := "B" },
        { source := "B", target := "C" },
        { source := "A", target := "C" }] }
    (by decide) (by decide)).1 "A" (by decide)

/-- One node of the file tree: a file (name and full project-relative path)
or a folder (name and children). -/
inductive TreeNode where
  | file (name : String) (path : String)
  | folder (name : String) (children : List TreeNode)

mutual
def TreeNode.decEq : (a b : TreeNode) → Decidable (a = b)
  | TreeNode.file n p, TreeNode.file n' p' =>
    if h1 : n = n' then
      if h2 : p = p' then isTrue (by rw [h1, h2])
      else isFalse (by intro h; injection h; contradiction)
    else isFalse (by intro h; injection h; contradiction)
  | TreeNode.file _ _, TreeNode.folder _ _ =>
    isFalse (by intro h; exact TreeNode.noConfusion h)
  | TreeNode.folder _ _, TreeNode.file _ _ =>
    isFalse (by intro h; exact TreeNode.noConfusion h)
  | TreeNode.folder n ch, TreeNode.folder n' ch' =>
    if h1 : n = n' then
      match TreeNode.decEqList ch ch' with
      | isTrue h2 => isTrue (by rw [h1, h2])
      | isFalse h2 => isFalse (by intro h; injection h; contradiction)
    else isFalse (by intro h; injection h; contradiction)
def TreeNode.decEqList : (as bs : List TreeNode) → Decidable (as = bs)
  | [], [] => isTrue rfl
  | [], _ :: _ => isFalse (by intro h; exact List.noConfusion h)
  | _ :: _, [] => isFalse (by intro h; exact List.noConfusion h)
  | a :: as, b :: bs =>
    match TreeNode.decEq a b, TreeNode.decEqList as bs with
    | isTrue h1, isTrue h2 => isTrue (by rw [h1, h2])
    | isFalse h1, _ => isFalse (by intro h; injection h; contradiction)
    | _, isFalse h2 => isFalse (by intro h; injection h; contradiction)
end

instance : DecidableEq TreeNode := TreeNode.decEq

/-- The child comparator of the tree builder, as a strict precedence test:
`(a, b) => a.type === b.type ? a.name.localeCompare(b.name) : a.type ===
"folder" ? -1 : 1`.  The locale-aware `localeCompare` is supplied as the
integer-valued parameter `lc`. -/
def nodeLt (lc : String → String → Int) : TreeNode → TreeNode → Bool
  | TreeNode.folder na _, TreeNode.folder nb _ => decide (lc na nb < 0)
  | TreeNode.file na _, TreeNode.file nb _ => decide (lc na nb < 0)
  | TreeNode.folder _ _, TreeNode.file _ _ => true
  | TreeNode.file _ _, TreeNode.folder _ _ => false

/-- Whether a folder child with the given name exists (the `find` in
`getOrCreateFolderNode`). -/
def hasFolderChild (name : String) : List TreeNode → Bool
  | [] => false
  | TreeNode.folder n _ :: cs => n = name || hasFolderChild name cs
  | TreeNode.file _ _ :: cs => hasFolderChild name cs

/-- In-place mutation of the first folder child with the given name — the
functional rendering of mutating the object that
`children.find(c => c.type === "folder" && c.name === name)` returns. -/
def updateFirstFolder (name : String) (f : TreeNode → TreeNode) :
    List TreeNode → List TreeNode
  | [] => []
  | TreeNode.folder n ch :: cs =>
    if n = name then f (TreeNode.folder n ch) :: cs
    else TreeNode.folder n ch :: updateFirstFolder name f cs
  | TreeNode.file n p :: cs => TreeNode.file n p :: updateFirstFolder name f cs

/-- Insertion of one file path (split into `parts`, with the original
relative path kept for the leaf's `path` field) into the tree, following the
source: walk or create folder nodes for all but the last segment — a newly
created folder is pushed and the parent's children re-sorted at once — and
append a file node for the last segment. -/
def insertPath (lc : String → String → Int) :
    TreeNode → List String → String → TreeNode
  | TreeNode.file n p, _, _ => TreeNode.file n p
  | TreeNode.folder n children, [], _ => TreeNode.folder n children
  | TreeNode.folder n children, [leaf], relPath =>
    TreeNode.folder n (children ++ [TreeNode.file leaf relPath])
  | TreeNode.folder n children, part :: rest, relPath =>
    if hasFolderChild part children then
      TreeNode.folder n (updateFirstFolder part
        (fun c => insertPath lc c rest relPath) children)
    else
      TreeNode.folder n (updateFirstFolder part
        (fun c => insertPath lc c rest relPath)
        (stableSortBy (nodeLt lc) (children ++ [TreeNode.folder part []])))

mutual
/-- The recursive final sort of the tree (`sortTree` in the source): every
folder's children are sorted with the comparator, folders before files and by
name within a type.  The source sorts a folder's children first and then
recurses into them; since the recursion changes no name and no node type, the
two orders coincide — `sortTree_folder` below restates this definition in the
source's sort-then-recurse order. -/
def sortTree (lc : String → String → Int) : TreeNode → TreeNode
  | TreeNode.file n p => TreeNode.file n p
  | TreeNode.folder n ch =>
    TreeNode.folder n (stableSortBy (nodeLt lc) (sortForest lc ch))
def sortForest (lc : String → String → Int) : List TreeNode → List TreeNode
  | [] => []
  | c :: cs => sortTree lc c :: sortForest lc cs
end

/-- Stripping the common leading segments of two resolved paths (the common
prefix elimination inside `path.posix.relative`). -/
def stripCommon : List (List Char) → List (List Char) →
    List (List Char) × List (List Char)
  | a :: as, b :: bs =>
    if a = b then stripCommon as bs else (a :: as, b :: bs)
  | as, bs => (as, bs)

/-- The segments of `path.posix.resolve(cwd, p)`. -/
def posixResolveSegs (cwd p : String) : List (List Char) :=
  normSegs false
    (splitSlash (if posixIsAbsolute p then p.data else cwd.data ++ '/' :: p.data))

/-- Model of `path.posix.relative(from, to)` with the working directory
supplied explicitly: both paths are resolved, the common leading segments are
dropped, and the remainder of `from` becomes `..` segments in front of the
remainder of `to`. -/
def posixRelative (cwd from' to' : String) : String :=
  let fr := stripCommon (posixResolveSegs cwd from') (posixResolveSegs cwd to')
  String.mk (joinSegs (fr.1.map (fun _ => dotdot) ++ fr.2))

/-- Model of `buildFileTreeFromPaths(rootDir, filePathsAbs)`: each absolute
path is made relative to the root (`path.relative` plus backslash
replacement), split on `/` with the empty segments dropped
(`.filter(Boolean)`), and inserted into the tree; the finished tree is
recursively sorted.  The comparator `lc` stands for `localeCompare` and the
working directory `cwd` for the process state used by `path.resolve`. -/
def buildFileTreeFromPaths (lc : String → String → Int) (cwd rootDir : String)
    (filePathsAbs : List String) : TreeNode :=
  sortTree lc (filePathsAbs.foldl (fun node absPath =>
    let relPath := backslashToSlash (posixRelative cwd rootDir absPath)
    let parts := ((splitSlash relPath.data).filter
      (fun s => decide (s ≠ []))).map String.mk
    insertPath lc node parts relPath) (TreeNode.folder "root" []))

/-- A concrete `localeCompare` model for witnesses: code-point lexicographic
comparison. -/
def charListCmp : List Char → List Char → Int
  | [], [] => 0
  | [], _ :: _ => -1
  | _ :: _, [] => 1
  | a :: as, b :: bs =>
    if a < b then -1 else if b < a then 1 else charListCmp as bs

/-- Code-point comparison of strings, the witness instantiation of the
`localeCompare` parameter. -/
def codeCmp (a b : String) : Int := charListCmp a.data b.data

example : posixRelative "/w" "/r" "/r/a/b.js" = "a/b.js" := by decide
example : posixRelative "/w" "/r" "/r" = "" := by decide
example : posixRelative "/w" "/r/x" "/r/a/b.js" = "../a/b.js" := by decide
example :
    buildFileTreeFromPaths codeCmp "/w" "/r"
      ["/r/src/index.js", "/r/src/util.js", "/r/README.md"] =
      TreeNode.folder "root"
        [TreeNode.folder "src"
          [TreeNode.file "index.js" "src/index.js",
           TreeNode.file "util.js" "src/util.js"],
         TreeNode.file "README.md" "README.md"] := by decide

/-- Consistency of the comparator: `a` sorts strictly before `b` exactly when
`b` sorts strictly after `a` (as `localeCompare` guarantees). -/
def LCConsist (lc : String → String → Int) : Prop :=
  ∀ a b, lc a b < 0 ↔ 0 < lc b a

/-- Transitivity of the comparator's strict order. -/
def LCTrans (lc : String → String → Int) : Prop :=
  ∀ a b c, lc a b < 0 → lc b c < 0 → lc a c < 0

/-- The comparator separates distinct names: it reports `0` only on equal
strings (the modelling assumption that `localeCompare` is a linear order on
the names that occur). -/
def LCEq (lc : String → String → Int) : Prop :=
  ∀ a b, lc a b = 0 → a = b

lemma lc_negtrans {lc : String → String → Int} (hc : LCConsist lc)
    (ht : LCTrans lc) (he : LCEq lc) {a b c : String}
    (h1 : ¬(lc a b < 0)) (h2 : ¬(lc b c < 0)) : ¬(lc a c < 0) := by
  intro hac
  rcases lt_trichotomy (lc a b) 0 with h | h | h
  · exact h1 h
  · rw [he a b h] at hac
    exact h2 hac
  · rcases lt_trichotomy (lc b c) 0 with g | g | g
    · exact h2 g
    · rw [he b c g] at h
      have := (hc a c).mpr (by
        have := (hc a b).mpr  -- not needed; direct
        omega)
      omega
    · have hba : lc b a < 0 := (hc b a).mpr h
      have hcb : lc c b < 0 := (hc c b).mpr g
      have hca : lc c a < 0 := ht c b a hcb hba
      have := (hc c a).mp hca
      omega

/-- The two insertion placements used in the development: `insertSorted`
places an element before its key-ties (used by `stableSortBy` where earlier
elements are inserted later), `insAfter` places it after its key-ties (the
position a newly appended element reaches under a stable sort). -/
def insAfter (lt : α → α → Bool) (x : α) : List α → List α
  | [] => [x]
  | y :: ys => if lt x y then x :: y :: ys else y :: insAfter lt x ys

lemma insS_insAfter_comm {lt : α → α → Bool}
    (ht : ∀ a b c, lt a b = true → lt b c = true → lt a c = true)
    (hnt : ∀ a b c, lt a b = false → lt b c = false → lt a c = false)
    (a b : α) : ∀ s : List α,
      insertSorted lt a (insAfter lt b s) =
        insAfter lt b (insertSorted lt a s) := by
  intro s
  induction s with
  | nil =>
    simp only [insAfter, insertSorted]
  | cons y ys ih =>
    simp only [insAfter, insertSorted]
    by_cases hby : lt b y = true <;> by_cases hya : lt y a = true
    · have hba : lt b a = true := ht b y a hby hya
      rw [if_pos hby, if_pos hya]
      simp only [insertSorted, insAfter]
      rw [if_pos hba, if_pos hya, if_pos hby]
    · rw [if_pos hby, if_neg hya]
      simp only [insertSorted, insAfter]
      rw [if_neg hya, if_pos hby]
    · rw [if_neg hby, if_pos hya]
      simp only [insertSorted, insAfter]
      rw [if_pos hya, if_neg hby, ih]
    · have hby' : lt b y = false := by
        simpa using hby
      have hya' : lt y a = false := by
        simpa using hya
      have hba : lt b a = false := hnt b y a hby' hya'
      rw [if_neg hby, if_neg hya]
      simp only [insertSorted, insAfter]
      rw [if_neg hya, if_neg (by simp [hba] : ¬(lt b a = true)), if_neg hby]

lemma stableSortBy_append_last {lt : α → α → Bool}
    (ht : ∀ a b c, lt a b = true → lt b c = true → lt a c = true)
    (hnt : ∀ a b c, lt a b = false → lt b c = false → lt a c = false)
    (x : α) : ∀ l : List α,
      stableSortBy lt (l ++ [x]) = insAfter lt x (stableSortBy lt l) := by
  intro l
  induction l with
  | nil => simp [stableSortBy, insAfter, insertSorted]
  | cons y ys ih =>
    show insertSorted lt y (stableSortBy lt (ys ++ [x])) = _
    rw [ih, insS_insAfter_comm ht hnt]
    rfl

lemma insAfter_insAfter_comm {lt : α → α → Bool}
    (ht : ∀ a b c, lt a b = true → lt b c = true → lt a c = true)
    (hnt : ∀ a b c, lt a b = false → lt b c = false → lt a c = false)
    (hasymm : ∀ a b, lt a b = true → lt b a = false)
    (a b : α) (htie : lt a b = false → lt b a = false → a = b) :
    ∀ s : List α, insAfter lt a (insAfter lt b s) =
      insAfter lt b (insAfter lt a s) := by
  intro s
  induction s with
  | nil =>
    simp only [insAfter]
    by_cases hab : lt a b = true
    · have hba := hasymm a b hab
      rw [if_pos hab, if_neg (by simp [hba] : ¬(lt b a = true))]
    · by_cases hba : lt b a = true
      · rw [if_neg hab, if_pos hba]
      · rw [htie (by simpa using hab) (by simpa using hba)]
  | cons y ys ih =>
    by_cases hay : lt a y = true <;> by_cases hby : lt b y = true
    · simp only [insAfter]
      rw [if_pos hay, if_pos hby]
      simp only [insAfter]
      by_cases hab : lt a b = true
      · have hba := hasymm a b hab
        rw [if_pos hab, if_neg (by simp [hba] : ¬(lt b a = true)), if_pos hby]
      · by_cases hba : lt b a = true
        · have hab' := hasymm b a hba
          rw [if_neg hab, if_pos hba, if_pos hay]
        · rw [htie (by simpa using hab) (by simpa using hba)]
    · have hba : lt b a = false :=
        hnt b y a (by simpa using hby) (hasymm a y hay)
      simp only [insAfter]
      rw [if_pos hay, if_neg hby]
      simp only [insAfter]
      rw [if_pos hay, if_neg (by simp [hba] : ¬(lt b a = true)), if_neg hby]
    · have hab : lt a b = false :=
        hnt a y b (by simpa using hay) (hasymm b y hby)
      simp only [insAfter]
      rw [if_neg hay, if_pos hby]
      simp only [insAfter]
      rw [if_neg (by simp [hab] : ¬(lt a b = true)), if_pos hby, if_neg hay]
    · simp only [insAfter]
      rw [if_neg hay, if_neg hby]
      simp only [insAfter]
      rw [if_neg hay, if_neg hby, ih]

lemma nodeLt_trans {lc : String → String → Int} (ht : LCTrans lc) :
    ∀ a b c, nodeLt lc a b = true → nodeLt lc b c = true →
      nodeLt lc a c = true := by
  intro a b c
  cases a <;> cases b <;> cases c <;> simp [nodeLt] <;>
    exact fun h1 h2 => ht _ _ _ h1 h2

lemma nodeLt_asymm {lc : String → String → Int} (hc : LCConsist lc) :
    ∀ a b, nodeLt lc a b = true → nodeLt lc b a = false := by
  intro a b
  cases a <;> cases b <;> simp [nodeLt] <;>
    (intro h; have := (hc _ _).mp h; omega)

lemma nodeLt_negtrans {lc : String → String → Int} (hc : LCConsist lc)
    (ht : LCTrans lc) (he : LCEq lc) :
    ∀ a b c, nodeLt lc a b = false → nodeLt lc b c = false →
      nodeLt lc a c = false := by
  intro a b c
  cases a <;> cases b <;> cases c <;> simp [nodeLt] <;>
    (intro h1 h2
     exact not_lt.mp (lc_negtrans hc ht he (not_lt.mpr h1) (not_lt.mpr h2)))

lemma nodeLt_tie {lc : String → String → Int} (hc : LCConsist lc)
    (he : LCEq lc) :
    ∀ a b, nodeLt lc a b = false → nodeLt lc b a = false →
      (∃ n p q, a = TreeNode.file n p ∧ b = TreeNode.file n q) ∨
      (∃ n ch ch', a = TreeNode.folder n ch ∧ b = TreeNode.folder n ch') := by
  intro a b h1 h2
  cases a with
  | file na pa =>
    cases b with
    | file nb pb =>
      simp only [nodeLt, decide_eq_false_iff_not, not_lt] at h1 h2
      have hz : lc na nb = 0 := by
        rcases lt_trichotomy (lc na nb) 0 with h | h | h
        · omega
        · exact h
        · have := (hc nb na).mpr h
          omega
      exact Or.inl ⟨na, pa, pb, rfl, by rw [he na nb hz]⟩
    | folder nb chb => simp [nodeLt] at h2
  | folder na cha =>
    cases b with
    | file nb pb => simp [nodeLt] at h1
    | folder nb chb =>
      simp only [nodeLt, decide_eq_false_iff_not, not_lt] at h1 h2
      have hz : lc na nb = 0 := by
        rcases lt_trichotomy (lc na nb) 0 with h | h | h
        · omega
        · exact h
        · have := (hc nb na).mpr h
          omega
      exact Or.inr ⟨na, cha, chb, rfl, by rw [he na nb hz]⟩

lemma insAfter_perm (lt : α → α → Bool) (x : α) :
    ∀ s : List α, (insAfter lt x s).Perm (x :: s) := by
  intro s
  induction s with
  | nil => exact List.Perm.refl _
  | cons y ys ih =>
    unfold insAfter
    by_cases h : lt x y = true
    · rw [if_pos h]
    · rw [if_neg h]
      exact (ih.cons y).trans (List.Perm.swap x y ys)

/-- Recognition of a folder node with a given name. -/
def folderNamed (name : String) : TreeNode → Bool
  | TreeNode.folder n _ => n = name
  | TreeNode.file _ _ => false

/-- The update functions applied by the tree builder replace a folder by a
folder of the same name (they only change its children). -/
def KeepsFolderName (name : String) (f : TreeNode → TreeNode) : Prop :=
  ∀ ch, ∃ ch', f (TreeNode.folder name ch) = TreeNode.folder name ch'

lemma nodeLt_congr_left {lc : String → String → Int} {a a' : TreeNode}
    (b : TreeNode)
    (h : (∃ n p p', a = TreeNode.file n p ∧ a' = TreeNode.file n p') ∨
      (∃ n ch ch', a = TreeNode.folder n ch ∧ a' = TreeNode.folder n ch')) :
    nodeLt lc a b = nodeLt lc a' b := by
  rcases h with ⟨n, p, p', h1, h2⟩ | ⟨n, ch, ch', h1, h2⟩ <;>
    subst h1 <;> subst h2 <;> cases b <;> simp [nodeLt]

lemma nodeLt_congr_right {lc : String → String → Int} {a a' : TreeNode}
    (b : TreeNode)
    (h : (∃ n p p', a = TreeNode.file n p ∧ a' = TreeNode.file n p') ∨
      (∃ n ch ch', a = TreeNode.folder n ch ∧ a' = TreeNode.folder n ch')) :
    nodeLt lc b a = nodeLt lc b a' := by
  rcases h with ⟨n, p, p', h1, h2⟩ | ⟨n, ch, ch', h1, h2⟩ <;>
    subst h1 <;> subst h2 <;> cases b <;> simp [nodeLt]

lemma keeps_shape {name : String} {f : TreeNode → TreeNode}
    (hf : KeepsFolderName name f) (ch : List TreeNode) :
    (∃ n p p', TreeNode.folder name ch = TreeNode.file n p ∧
      f (TreeNode.folder name ch) = TreeNode.file n p') ∨
    (∃ n ch₀ ch', TreeNode.folder name ch = TreeNode.folder n ch₀ ∧
      f (TreeNode.folder name ch) = TreeNode.folder n ch') := by
  obtain ⟨ch', h⟩ := hf ch
  exact Or.inr ⟨name, ch, ch', rfl, h⟩

lemma hasFolderChild_iff (name : String) :
    ∀ l : List TreeNode, hasFolderChild name l = true ↔
      ∃ ch, TreeNode.folder name ch ∈ l := by
  intro l
  induction l with
  | nil => simp [hasFolderChild]
  | cons c cs ih =>
    cases c with
    | file n p =>
      simp only [hasFolderChild, ih]
      constructor
      · rintro ⟨ch, hm⟩
        exact ⟨ch, List.mem_cons_of_mem _ hm⟩
      · rintro ⟨ch, hm⟩
        rcases List.mem_cons.mp hm with h | h
        · exact absurd h (by intro hh; exact TreeNode.noConfusion hh)
        · exact ⟨ch, h⟩
    | folder n ch =>
      simp only [hasFolderChild, Bool.or_eq_true, decide_eq_true_eq, ih]
      constructor
      · rintro (h | ⟨ch', hm⟩)
        · exact ⟨ch, by rw [h]; exact List.mem_cons_self _ _⟩
        · exact ⟨ch', List.mem_cons_of_mem _ hm⟩
      · rintro ⟨ch', hm⟩
        rcases List.mem_cons.mp hm with h | h
        · injection h.symm with h1 h2
          exact Or.inl h1
        · exact Or.inr ⟨ch', h⟩

lemma hasFolderChild_eq_false_iff (name : String) (l : List TreeNode) :
    hasFolderChild name l = false ↔ ∀ ch, TreeNode.folder name ch ∉ l := by
  rw [← Bool.not_eq_true, hasFolderChild_iff]
  push_neg
  rfl

lemma upd_cons_not {name : String} {f : TreeNode → TreeNode} {c : TreeNode}
    (hcb : folderNamed name c = false) (cs : List TreeNode) :
    updateFirstFolder name f (c :: cs) = c :: updateFirstFolder name f cs := by
  cases c with
  | file n p => rfl
  | folder n ch =>
    simp only [folderNamed, decide_eq_false_iff_not] at hcb
    simp [updateFirstFolder, hcb]

lemma upd_cons_target {name : String} {f : TreeNode → TreeNode}
    (ch : List TreeNode) (cs : List TreeNode) :
    updateFirstFolder name f (TreeNode.folder name ch :: cs) =
      f (TreeNode.folder name ch) :: cs := by
  simp [updateFirstFolder]

lemma folderNamed_true_shape {name : String} {c : TreeNode}
    (h : folderNamed name c = true) : ∃ ch, c = TreeNode.folder name ch := by
  cases c with
  | file n p => simp [folderNamed] at h
  | folder n ch =>
    simp only [folderNamed, decide_eq_true_eq] at h
    exact ⟨ch, by rw [h]⟩

lemma upd_insS_not {lc : String → String → Int} {name : String}
    {f : TreeNode → TreeNode} (hf : KeepsFolderName name f) {c : TreeNode}
    (hcb : folderNamed name c = false) :
    ∀ s, updateFirstFolder name f (insertSorted (nodeLt lc) c s) =
      insertSorted (nodeLt lc) c (updateFirstFolder name f s) := by
  intro s
  induction s with
  | nil => simp [insertSorted, updateFirstFolder, upd_cons_not hcb]
  | cons y ys ih =>
    simp only [insertSorted]
    by_cases hy : folderNamed name y = true
    · obtain ⟨ch, hych⟩ := folderNamed_true_shape hy
      subst hych
      obtain ⟨ch', hch'⟩ := hf ch
      have hkey : nodeLt lc (f (TreeNode.folder name ch)) c =
          nodeLt lc (TreeNode.folder name ch) c := by
        rw [hch']
        exact (nodeLt_congr_left c (Or.inr ⟨name, ch, ch', rfl, rfl⟩)).symm
      by_cases hlt : nodeLt lc (TreeNode.folder name ch) c = true
      · rw [if_pos hlt, upd_cons_target, upd_cons_target]
        simp only [insertSorted]
        rw [if_pos (show nodeLt lc (f (TreeNode.folder name ch)) c = true by
          rw [hkey]; exact hlt)]
      · rw [if_neg hlt, upd_cons_not hcb, upd_cons_target]
        simp only [insertSorted]
        rw [if_neg (show ¬(nodeLt lc (f (TreeNode.folder name ch)) c = true) by
          rw [hkey]; exact hlt)]
    · have hy' : folderNamed name y = false := by simpa using hy
      by_cases hlt : nodeLt lc y c = true
      · rw [if_pos hlt, upd_cons_not hy', upd_cons_not hy']
        simp only [insertSorted]
        rw [if_pos hlt, ih]
      · rw [if_neg hlt, upd_cons_not hcb, upd_cons_not hy']
        simp only [insertSorted]
        rw [if_neg hlt]

lemma upd_insAfter_not {lc : String → String → Int} {name : String}
    {f : TreeNode → TreeNode} (hf : KeepsFolderName name f) {c : TreeNode}
    (hcb : folderNamed name c = false) :
    ∀ s, updateFirstFolder name f (insAfter (nodeLt lc) c s) =
      insAfter (nodeLt lc) c (updateFirstFolder name f s) := by
  intro s
  induction s with
  | nil => simp [insAfter, updateFirstFolder, upd_cons_not hcb]
  | cons y ys ih =>
    simp only [insAfter]
    by_cases hy : folderNamed name y = true
    · obtain ⟨ch, hych⟩ := folderNamed_true_shape hy
      subst hych
      obtain ⟨ch', hch'⟩ := hf ch
      have hkey : nodeLt lc c (f (TreeNode.folder name ch)) =
          nodeLt lc c (TreeNode.folder name ch) := by
        rw [hch']
        exact (nodeLt_congr_right c (Or.inr ⟨name, ch, ch', rfl, rfl⟩)).symm
      by_cases hlt : nodeLt lc c (TreeNode.folder name ch) = true
      · rw [if_pos hlt, upd_cons_not hcb, upd_cons_target]
        simp only [insAfter]
        rw [if_pos (show nodeLt lc c (f (TreeNode.folder name ch)) = true by
          rw [hkey]; exact hlt)]
      · rw [if_neg hlt, upd_cons_target, upd_cons_target]
        simp only [insAfter]
        rw [if_neg (show ¬(nodeLt lc c (f (TreeNode.folder name ch)) = true) by
          rw [hkey]; exact hlt)]
    · have hy' : folderNamed name y = false := by simpa using hy
      by_cases hlt : nodeLt lc c y = true
      · rw [if_pos hlt, upd_cons_not hcb, upd_cons_not hy']
        simp only [insAfter]
        rw [if_pos hlt]
      · rw [if_neg hlt, upd_cons_not hy', upd_cons_not hy']
        simp only [insAfter]
        rw [if_neg hlt, ih]

lemma upd_insS_target {lc : String → String → Int} {name : String}
    {f : TreeNode → TreeNode} (hf : KeepsFolderName name f)
    (sub : List TreeNode) :
    ∀ s, (∀ ch, TreeNode.folder name ch ∉ s) →
      updateFirstFolder name f
        (insertSorted (nodeLt lc) (TreeNode.folder name sub) s) =
      insertSorted (nodeLt lc) (f (TreeNode.folder name sub)) s := by
  intro s
  induction s with
  | nil =>
    intro _
    simp [insertSorted, updateFirstFolder]
  | cons y ys ih =>
    intro hno
    have hy : folderNamed name y = false := by
      cases y with
      | file n p => rfl
      | folder n ch =>
        simp only [folderNamed, decide_eq_false_iff_not]
        intro hn
        exact hno ch (by rw [hn]; exact List.mem_cons_self _ _)
    obtain ⟨ch', hch'⟩ := hf sub
    have hkey : nodeLt lc y (f (TreeNode.folder name sub)) =
        nodeLt lc y (TreeNode.folder name sub) := by
      rw [hch']
      exact (nodeLt_congr_right y (Or.inr ⟨name, sub, ch', rfl, rfl⟩)).symm
    simp only [insertSorted]
    by_cases hlt : nodeLt lc y (TreeNode.folder name sub) = true
    · rw [if_pos hlt, upd_cons_not hy,
        ih (fun ch hm => hno ch (List.mem_cons_of_mem y hm)),
        if_pos (show nodeLt lc y (f (TreeNode.folder name sub)) = true by
          rw [hkey]; exact hlt)]
    · rw [if_neg hlt, upd_cons_target,
        if_neg (show ¬(nodeLt lc y (f (TreeNode.folder name sub)) = true) by
          rw [hkey]; exact hlt)]

lemma upd_insAfter_target {lc : String → String → Int} {name : String}
    {f : TreeNode → TreeNode} (hf : KeepsFolderName name f)
    (sub : List TreeNode) :
    ∀ s, (∀ ch, TreeNode.folder name ch ∉ s) →
      updateFirstFolder name f
        (insAfter (nodeLt lc) (TreeNode.folder name sub) s) =
      insAfter (nodeLt lc) (f (TreeNode.folder name sub)) s := by
  intro s
  induction s with
  | nil =>
    intro _
    simp [insAfter, updateFirstFolder]
  | cons y ys ih =>
    intro hno
    have hy : folderNamed name y = false := by
      cases y with
      | file n p => rfl
      | folder n ch =>
        simp only [folderNamed, decide_eq_false_iff_not]
        intro hn
        exact hno ch (by rw [hn]; exact List.mem_cons_self _ _)
    obtain ⟨ch', hch'⟩ := hf sub
    have hkey : nodeLt lc (f (TreeNode.folder name sub)) y =
        nodeLt lc (TreeNode.folder name sub) y := by
      rw [hch']
      exact (nodeLt_congr_left y (Or.inr ⟨name, sub, ch', rfl, rfl⟩)).symm
    simp only [insAfter]
    by_cases hlt : nodeLt lc (TreeNode.folder name sub) y = true
    · rw [if_pos hlt, upd_cons_target,
        if_pos (show nodeLt lc (f (TreeNode.folder name sub)) y = true by
          rw [hkey]; exact hlt)]
    · rw [if_neg hlt, upd_cons_not hy,
        ih (fun ch hm => hno ch (List.mem_cons_of_mem y hm)),
        if_neg (show ¬(nodeLt lc (f (TreeNode.folder name sub)) y = true) by
          rw [hkey]; exact hlt)]

lemma upd_upd {name : String} {f g : TreeNode → TreeNode}
    (hg : KeepsFolderName name g) :
    ∀ s, updateFirstFolder name f (updateFirstFolder name g s) =
      updateFirstFolder name (fun c => f (g c)) s := by
  intro s
  induction s with
  | nil => rfl
  | cons y ys ih =>
    by_cases hy : folderNamed name y = true
    · obtain ⟨ch, hych⟩ := folderNamed_true_shape hy
      subst hych
      obtain ⟨ch', hch'⟩ := hg ch
      rw [upd_cons_target, upd_cons_target, hch', upd_cons_target, ← hch']
    · have hy' : folderNamed name y = false := by simpa using hy
      rw [upd_cons_not hy', upd_cons_not hy', upd_cons_not hy', ih]

lemma upd_comm_names {name1 name2 : String} {f1 f2 : TreeNode → TreeNode}
    (h12 : name1 ≠ name2) (hf1 : KeepsFolderName name1 f1)
    (hf2 : KeepsFolderName name2 f2) :
    ∀ s, updateFirstFolder name1 f1 (updateFirstFolder name2 f2 s) =
      updateFirstFolder name2 f2 (updateFirstFolder name1 f1 s) := by
  intro s
  induction s with
  | nil => rfl
  | cons y ys ih =>
    by_cases hy2 : folderNamed name2 y = true
    · obtain ⟨ch, hych⟩ := folderNamed_true_shape hy2
      subst hych
      obtain ⟨ch', hch'⟩ := hf2 ch
      have hy1 : folderNamed name1 (TreeNode.folder name2 ch) = false := by
        simp only [folderNamed, decide_eq_false_iff_not]
        exact fun h => h12 h.symm
      have hy1' : folderNamed name1 (TreeNode.folder name2 ch') = false := by
        simp only [folderNamed, decide_eq_false_iff_not]
        exact fun h => h12 h.symm
      rw [upd_cons_target, hch', upd_cons_not hy1', upd_cons_not hy1,
        upd_cons_target, hch']
    · have hy2' : folderNamed name2 y = false := by simpa using hy2
      by_cases hy1 : folderNamed name1 y = true
      · obtain ⟨ch, hych⟩ := folderNamed_true_shape hy1
        subst hych
        obtain ⟨ch', hch'⟩ := hf1 ch
        have hz : folderNamed name2 (TreeNode.folder name1 ch') = false := by
          simp only [folderNamed, decide_eq_false_iff_not]
          exact h12
        rw [upd_cons_not hy2', upd_cons_target, upd_cons_target, hch',
          upd_cons_not hz]
      · have hy1' : folderNamed name1 y = false := by simpa using hy1
        rw [upd_cons_not hy2', upd_cons_not hy1', upd_cons_not hy1',
          upd_cons_not hy2', ih]

lemma mem_upd {name : String} {f : TreeNode → TreeNode} :
    ∀ s, ∀ z ∈ updateFirstFolder name f s,
      z ∈ s ∨ ∃ ch, TreeNode.folder name ch ∈ s ∧
        z = f (TreeNode.folder name ch) := by
  intro s
  induction s with
  | nil => intro z hz; exact Or.inl hz
  | cons y ys ih =>
    intro z hz
    by_cases hy : folderNamed name y = true
    · obtain ⟨ch, hych⟩ := folderNamed_true_shape hy
      subst hych
      rw [upd_cons_target] at hz
      rcases List.mem_cons.mp hz with h | h
      · exact Or.inr ⟨ch, List.mem_cons_self _ _, h⟩
      · exact Or.inl (List.mem_cons_of_mem _ h)
    · have hy' : folderNamed name y = false := by simpa using hy
      rw [upd_cons_not hy'] at hz
      rcases List.mem_cons.mp hz with h | h
      · exact Or.inl (h ▸ List.mem_cons_self _ _)
      · rcases ih z h with h1 | ⟨ch, hm, he⟩
        · exact Or.inl (List.mem_cons_of_mem _ h1)
        · exact Or.inr ⟨ch, List.mem_cons_of_mem _ hm, he⟩

lemma hasFolderChild_upd {name1 name2 : String} {f : TreeNode → TreeNode}
    (hf : KeepsFolderName name2 f) :
    ∀ s, hasFolderChild name1 (updateFirstFolder name2 f s) =
      hasFolderChild name1 s := by
  intro s
  induction s with
  | nil => rfl
  | cons y ys ih =>
    by_cases hy : folderNamed name2 y = true
    · obtain ⟨ch, hych⟩ := folderNamed_true_shape hy
      subst hych
      obtain ⟨ch', hch'⟩ := hf ch
      rw [upd_cons_target, hch']
      simp [hasFolderChild]
    · have hy' : folderNamed name2 y = false := by simpa using hy
      rw [upd_cons_not hy']
      cases y with
      | file n p => simpa [hasFolderChild] using ih
      | folder n ch => simp only [hasFolderChild, ih]

lemma sortForest_eq_map (lc : String → String → Int) :
    ∀ l : List TreeNode, sortForest lc l = l.map (sortTree lc) := by
  intro l
  induction l with
  | nil => rfl
  | cons c cs ih => simp only [sortForest, ih, List.map_cons]

lemma sortTree_folder (lc : String → String → Int) (n : String)
    (ch : List TreeNode) :
    sortTree lc (TreeNode.folder n ch) =
      TreeNode.folder n (stableSortBy (nodeLt lc) (ch.map (sortTree lc))) := by
  rw [sortTree, sortForest_eq_map]

lemma sortTree_shape (lc : String → String → Int) (a : TreeNode) :
    (∃ n p p', a = TreeNode.file n p ∧ sortTree lc a = TreeNode.file n p') ∨
    (∃ n ch ch', a = TreeNode.folder n ch ∧
      sortTree lc a = TreeNode.folder n ch') := by
  cases a with
  | file n p => exact Or.inl ⟨n, p, p, rfl, rfl⟩
  | folder n ch =>
    exact Or.inr ⟨n, ch, stableSortBy (nodeLt lc) (ch.map (sortTree lc)), rfl,
      sortTree_folder lc n ch⟩

lemma nodeLt_sortTree (lc : String → String → Int) :
    ∀ a b, nodeLt lc (sortTree lc a) (sortTree lc b) = nodeLt lc a b := by
  intro a b
  cases a <;> cases b <;> simp [sortTree, nodeLt, sortTree_folder]

lemma folderNamed_sortTree (lc : String → String → Int) (name : String) :
    ∀ a, folderNamed name (sortTree lc a) = folderNamed name a := by
  intro a
  cases a <;> simp [sortTree, folderNamed, sortTree_folder]

lemma map_insS {lt : α → α → Bool} {g : α → α}
    (hkey : ∀ a b, lt (g a) (g b) = lt a b) (c : α) :
    ∀ s, (insertSorted lt c s).map g = insertSorted lt (g c) (s.map g) := by
  intro s
  induction s with
  | nil => rfl
  | cons y ys ih =>
    simp only [insertSorted]
    by_cases h : lt y c = true
    · rw [if_pos h, List.map_cons, ih,
        if_pos (show lt (g y) (g c) = true by rw [hkey]; exact h)]
    · rw [if_neg h, List.map_cons,
        if_neg (show ¬(lt (g y) (g c) = true) by rw [hkey]; exact h),
        List.map_cons]

lemma map_insAfter {lt : α → α → Bool} {g : α → α}
    (hkey : ∀ a b, lt (g a) (g b) = lt a b) (c : α) :
    ∀ s, (insAfter lt c s).map g = insAfter lt (g c) (s.map g) := by
  intro s
  induction s with
  | nil => rfl
  | cons y ys ih =>
    simp only [insAfter]
    by_cases h : lt c y = true
    · rw [if_pos h, List.map_cons,
        if_pos (show lt (g c) (g y) = true by rw [hkey]; exact h),
        List.map_cons]
    · rw [if_neg h, List.map_cons, ih,
        if_neg (show ¬(lt (g c) (g y) = true) by rw [hkey]; exact h)]

lemma map_scb {lt : α → α → Bool} {g : α → α}
    (hkey : ∀ a b, lt (g a) (g b) = lt a b) :
    ∀ s, (stableSortBy lt s).map g = stableSortBy lt (s.map g) := by
  intro s
  induction s with
  | nil => rfl
  | cons y ys ih =>
    show (insertSorted lt y (stableSortBy lt ys)).map g = _
    rw [map_insS hkey, ih]
    rfl

lemma insS_of_all_not {lt : α → α → Bool} (x : α) :
    ∀ s, (∀ y ∈ s, lt y x = false) → insertSorted lt x s = x :: s := by
  intro s h
  cases s with
  | nil => rfl
  | cons y ys =>
    simp only [insertSorted]
    rw [if_neg (by simp [h y (List.mem_cons_self _ _)])]

lemma scb_of_pairwise {lt : α → α → Bool} :
    ∀ s, List.Pairwise (fun a b => lt b a = false) s →
      stableSortBy lt s = s := by
  intro s
  induction s with
  | nil => intro _; rfl
  | cons y ys ih =>
    intro hp
    obtain ⟨hy, hys⟩ := List.pairwise_cons.mp hp
    show insertSorted lt y (stableSortBy lt ys) = y :: ys
    rw [ih hys, insS_of_all_not y ys hy]

lemma pairwise_insAfter {lt : α → α → Bool}
    (hnt : ∀ a b c, lt a b = false → lt b c = false → lt a c = false)
    (hasymm : ∀ a b, lt a b = true → lt b a = false) (x : α) :
    ∀ s, List.Pairwise (fun a b => lt b a = false) s →
      List.Pairwise (fun a b => lt b a = false) (insAfter lt x s) := by
  intro s
  induction s with
  | nil => intro _; simp [insAfter]
  | cons y ys ih =>
    intro hp
    obtain ⟨hy, hys⟩ := List.pairwise_cons.mp hp
    simp only [insAfter]
    by_cases h : lt x y = true
    · rw [if_pos h]
      refine List.pairwise_cons.mpr ⟨?_, hp⟩
      intro z hz
      rcases List.mem_cons.mp hz with h1 | h1
      · rw [h1]
        exact hasymm x y h
      · exact hnt z y x (hy z h1) (hasymm x y h)
    · rw [if_neg h]
      refine List.pairwise_cons.mpr ⟨?_, ih hys⟩
      intro z hz
      rcases List.mem_cons.mp ((insAfter_perm lt x ys).mem_iff.mp hz) with
        h1 | h1
      · rw [h1]
        simpa using h
      · exact hy z h1

lemma pairwise_upd {lc : String → String → Int} {name : String}
    {f : TreeNode → TreeNode} (hf : KeepsFolderName name f) :
    ∀ s, List.Pairwise (fun a b => nodeLt lc b a = false) s →
      List.Pairwise (fun a b => nodeLt lc b a = false)
        (updateFirstFolder name f s) := by
  intro s
  induction s with
  | nil => intro _; exact List.Pairwise.nil
  | cons y ys ih =>
    intro hp
    obtain ⟨hy, hys⟩ := List.pairwise_cons.mp hp
    by_cases hyn : folderNamed name y = true
    · obtain ⟨ch, hych⟩ := folderNamed_true_shape hyn
      subst hych
      obtain ⟨ch', hch'⟩ := hf ch
      rw [upd_cons_target, hch']
      refine List.pairwise_cons.mpr ⟨?_, hys⟩
      intro z hz
      rw [nodeLt_congr_right z (Or.inr ⟨name, ch', ch, rfl, rfl⟩)]
      exact hy z hz
    · have hyn' : folderNamed name y = false := by simpa using hyn
      rw [upd_cons_not hyn']
      refine List.pairwise_cons.mpr ⟨?_, ih hys⟩
      intro z hz
      rcases mem_upd ys z hz with h1 | ⟨ch, hm, he⟩
      · exact hy z h1
      · obtain ⟨ch', hch'⟩ := hf ch
        rw [he, hch',
          nodeLt_congr_left y (Or.inr ⟨name, ch', ch, rfl, rfl⟩)]
        exact hy _ hm

lemma scb_upd {lc : String → String → Int} {name : String}
    {f : TreeNode → TreeNode} (hf : KeepsFolderName name f) :
    ∀ s, s.countP (folderNamed name) ≤ 1 →
      stableSortBy (nodeLt lc) (updateFirstFolder name f s) =
        updateFirstFolder name f (stableSortBy (nodeLt lc) s) := by
  intro s
  induction s with
  | nil => intro _; rfl
  | cons y ys ih =>
    intro hcount
    by_cases hyn : folderNamed name y = true
    · obtain ⟨ch, hych⟩ := folderNamed_true_shape hyn
      subst hych
      have hzero : ys.countP (folderNamed name) = 0 := by
        rw [List.countP_cons_of_pos _ _ hyn] at hcount
        omega
      have hno : ∀ ch', TreeNode.folder name ch' ∉ stableSortBy (nodeLt lc) ys := by
        intro ch' hm
        have hm' : TreeNode.folder name ch' ∈ ys :=
          (stableSortBy_perm (nodeLt lc) ys).mem_iff.mp hm
        have := List.countP_eq_zero.mp hzero _ hm'
        simp [folderNamed] at this
      rw [upd_cons_target]
      show insertSorted (nodeLt lc) (f (TreeNode.folder name ch))
          (stableSortBy (nodeLt lc) ys) = _
      show _ = updateFirstFolder name f (insertSorted (nodeLt lc)
        (TreeNode.folder name ch) (stableSortBy (nodeLt lc) ys))
      rw [upd_insS_target hf ch _ hno]
    · have hyn' : folderNamed name y = false := by simpa using hyn
      have hcount' : ys.countP (folderNamed name) ≤ 1 := by
        rw [List.countP_cons_of_neg] at hcount
        · exact hcount
        · simp [hyn']
      rw [upd_cons_not hyn']
      show insertSorted (nodeLt lc) y
          (stableSortBy (nodeLt lc) (updateFirstFolder name f ys)) = _
      rw [ih hcount']
      show _ = updateFirstFolder name f (insertSorted (nodeLt lc) y
        (stableSortBy (nodeLt lc) ys))
      rw [upd_insS_not hf hyn']

lemma map_sortTree_upd {lc : String → String → Int} {name : String}
    {f f' : TreeNode → TreeNode} :
    ∀ s, (∀ sub, TreeNode.folder name sub ∈ s →
        sortTree lc (f (TreeNode.folder name sub)) =
          f' (sortTree lc (TreeNode.folder name sub))) →
      (updateFirstFolder name f s).map (sortTree lc) =
        updateFirstFolder name f' (s.map (sortTree lc)) := by
  intro s
  induction s with
  | nil => intro _; rfl
  | cons y ys ih =>
    intro hff'
    by_cases hyn : folderNamed name y = true
    · obtain ⟨ch, hych⟩ := folderNamed_true_shape hyn
      subst hych
      rw [upd_cons_target, List.map_cons, List.map_cons,
        hff' ch (List.mem_cons_self _ _),
        sortTree_folder, upd_cons_target, ← sortTree_folder]
    · have hyn' : folderNamed name y = false := by simpa using hyn
      have hyn'' : folderNamed name (sortTree lc y) = false := by
        rw [folderNamed_sortTree]
        exact hyn'
      rw [upd_cons_not hyn', List.map_cons, List.map_cons,
        ih (fun sub hm => hff' sub (List.mem_cons_of_mem _ hm)),
        upd_cons_not hyn'']

/-- A tree is well-formed when no folder has two child folders with the same
name — the invariant `getOrCreateFolderNode` maintains, since it reuses an
existing folder child instead of creating a second one. -/
inductive UF : TreeNode → Prop
  | file (n p : String) : UF (TreeNode.file n p)
  | folder (n : String) (ch : List TreeNode) :
      (∀ c ∈ ch, UF c) →
      (∀ name, ch.countP (folderNamed name) ≤ 1) →
      UF (TreeNode.folder n ch)

/-- Insertion of one file path into an already-sorted tree, keeping every
level sorted: the proof-side counterpart of `insertPath` under the final
`sortTree`.  `insAfter` places the new child exactly where a stable sort of
`children ++ [new]` would. -/
def sortedInsert (lc : String → String → Int) :
    TreeNode → List String → String → TreeNode
  | TreeNode.file n p, _, _ => TreeNode.file n p
  | TreeNode.folder n children, [], _ => TreeNode.folder n children
  | TreeNode.folder n children, [leaf], relPath =>
    TreeNode.folder n
      (insAfter (nodeLt lc) (TreeNode.file leaf relPath) children)
  | TreeNode.folder n children, part :: rest, relPath =>
    if hasFolderChild part children then
      TreeNode.folder n (updateFirstFolder part
        (fun c => sortedInsert lc c rest relPath) children)
    else
      TreeNode.folder n (updateFirstFolder part
        (fun c => sortedInsert lc c rest relPath)
        (insAfter (nodeLt lc) (TreeNode.folder part []) children))

lemma keepsFolderName_insertPath (lc : String → String → Int) (name : String)
    (parts : List String) (rel : String) :
    KeepsFolderName name (fun c => insertPath lc c parts rel) := by
  intro ch
  rcases parts with _ | ⟨a, _ | ⟨b, rest⟩⟩ <;>
    simp only [insertPath]
  · exact ⟨ch, rfl⟩
  · exact ⟨_, rfl⟩
  · by_cases h : hasFolderChild a ch = true
    · rw [if_pos h]
      exact ⟨_, rfl⟩
    · rw [if_neg h]
      exact ⟨_, rfl⟩

lemma keepsFolderName_sortedInsert (lc : String → String → Int) (name : String)
    (parts : List String) (rel : String) :
    KeepsFolderName name (fun c => sortedInsert lc c parts rel) := by
  intro ch
  rcases parts with _ | ⟨a, _ | ⟨b, rest⟩⟩ <;>
    simp only [sortedInsert]
  · exact ⟨ch, rfl⟩
  · exact ⟨_, rfl⟩
  · by_cases h : hasFolderChild a ch = true
    · rw [if_pos h]
      exact ⟨_, rfl⟩
    · rw [if_neg h]
      exact ⟨_, rfl⟩

lemma hasFolderChild_perm (name : String) {s1 s2 : List TreeNode}
    (h : s1.Perm s2) : hasFolderChild name s1 = hasFolderChild name s2 := by
  by_cases h1 : hasFolderChild name s1 = true
  · obtain ⟨ch, hm⟩ := (hasFolderChild_iff name s1).mp h1
    rw [h1, ((hasFolderChild_iff name s2).mpr ⟨ch, h.mem_iff.mp hm⟩)]
  · have h1' : hasFolderChild name s1 = false := by simpa using h1
    rw [h1']
    by_contra hne
    have h2 : hasFolderChild name s2 = true := by
      cases hh : hasFolderChild name s2
      · exact absurd hh.symm hne
      · rfl
    obtain ⟨ch, hm⟩ := (hasFolderChild_iff name s2).mp h2
    exact absurd ((hasFolderChild_iff name s1).mpr ⟨ch, h.mem_iff.mpr hm⟩)
      (by simp [h1'])

lemma hasFolderChild_cons (name : String) (c : TreeNode) (s : List TreeNode) :
    hasFolderChild name (c :: s) =
      (folderNamed name c || hasFolderChild name s) := by
  cases c <;> simp [hasFolderChild, folderNamed]

lemma hasFolderChild_insAfter (lc : String → String → Int) (name : String)
    (c : TreeNode) (s : List TreeNode) :
    hasFolderChild name (insAfter (nodeLt lc) c s) =
      (folderNamed name c || hasFolderChild name s) := by
  rw [hasFolderChild_perm name (insAfter_perm (nodeLt lc) c s),
    hasFolderChild_cons]

lemma hasFolderChild_map_sortTree (lc : String → String → Int) (name : String) :
    ∀ s : List TreeNode,
      hasFolderChild name (s.map (sortTree lc)) = hasFolderChild name s := by
  intro s
  induction s with
  | nil => rfl
  | cons c cs ih =>
    rw [List.map_cons, hasFolderChild_cons, hasFolderChild_cons, ih,
      folderNamed_sortTree]

lemma countP_upd {name1 name2 : String} {f : TreeNode → TreeNode}
    (hf : KeepsFolderName name2 f) :
    ∀ s : List TreeNode,
      (updateFirstFolder name2 f s).countP (folderNamed name1) =
        s.countP (folderNamed name1) := by
  intro s
  induction s with
  | nil => rfl
  | cons y ys ih =>
    by_cases hy : folderNamed name2 y = true
    · obtain ⟨ch, hych⟩ := folderNamed_true_shape hy
      subst hych
      obtain ⟨ch', hch'⟩ := hf ch
      rw [upd_cons_target, hch']
      simp [List.countP_cons, folderNamed]
    · have hy' : folderNamed name2 y = false := by simpa using hy
      rw [upd_cons_not hy']
      simp [List.countP_cons, ih]

lemma countP_eq_zero_of_no_folder {name : String} {s : List TreeNode}
    (h : hasFolderChild name s = false) :
    s.countP (folderNamed name) = 0 := by
  rw [List.countP_eq_zero]
  intro c hc
  intro hcn
  obtain ⟨ch, hch⟩ := folderNamed_true_shape hcn
  subst hch
  exact absurd ((hasFolderChild_iff name s).mpr ⟨ch, hc⟩) (by simp [h])

lemma UF_insertPath (lc : String → String → Int) (rel : String) :
    ∀ parts t, UF t → UF (insertPath lc t parts rel) := by
  intro parts
  induction parts with
  | nil =>
    intro t h
    cases t with
    | file n p => exact h
    | folder n ch => exact h
  | cons a tail ih =>
    intro t h
    cases t with
    | file n p => exact h
    | folder n ch =>
      cases h with
      | folder _ _ hmem hcount =>
        rcases tail with _ | ⟨b, rest⟩
        · refine UF.folder n (ch ++ [TreeNode.file a rel]) ?_ ?_
          · intro c hc
            rcases List.mem_append.mp hc with h1 | h1
            · exact hmem c h1
            · rw [List.mem_singleton.mp h1]
              exact UF.file a rel
          · intro name
            rw [List.countP_append]
            have : List.countP (folderNamed name) [TreeNode.file a rel] = 0 := by
              simp only [List.countP_cons, List.countP_nil, folderNamed]
              simp
            rw [this]
            simpa using hcount name
        · simp only [insertPath]
          by_cases hf : hasFolderChild a ch = true
          · rw [if_pos hf]
            refine UF.folder n _ ?_ ?_
            · intro c hc
              rcases mem_upd _ c hc with h1 | ⟨sub, hm, he⟩
              · exact hmem c h1
              · rw [he]
                exact ih (TreeNode.folder a sub) (hmem _ hm)
            · intro name
              rw [countP_upd (keepsFolderName_insertPath lc a (b :: rest) rel)]
              exact hcount name
          · rw [if_neg hf]
            have hf' : hasFolderChild a ch = false := by simpa using hf
            have hperm := stableSortBy_perm (nodeLt lc)
              (ch ++ [TreeNode.folder a []])
            have hmem' : ∀ c ∈ stableSortBy (nodeLt lc)
                (ch ++ [TreeNode.folder a []]), UF c := by
              intro c hc
              rcases List.mem_append.mp (hperm.mem_iff.mp hc) with h1 | h1
              · exact hmem c h1
              · rw [List.mem_singleton.mp h1]
                exact UF.folder a [] (by intro c hc; simp at hc)
                  (by intro name; simp)
            refine UF.folder n _ ?_ ?_
            · intro c hc
              rcases mem_upd _ c hc with h1 | ⟨sub, hm, he⟩
              · exact hmem' c h1
              · rw [he]
                exact ih (TreeNode.folder a sub) (hmem' _ hm)
            · intro name
              rw [countP_upd (keepsFolderName_insertPath lc a (b :: rest) rel),
                hperm.countP_eq, List.countP_append]
              by_cases hna : name = a
              · subst hna
                rw [countP_eq_zero_of_no_folder hf']
                simp only [List.countP_cons, List.countP_nil, folderNamed]
                simp
              · have : List.countP (folderNamed name)
                    [TreeNode.folder a []] = 0 := by
                  simp only [List.countP_cons, List.countP_nil, folderNamed]
                  simp [Ne.symm hna]
                rw [this]
                simpa using hcount name

lemma pairwise_insS {lt : α → α → Bool}
    (hnt : ∀ a b c, lt a b = false → lt b c = false → lt a c = false)
    (hasymm : ∀ a b, lt a b = true → lt b a = false) (x : α) :
    ∀ s, List.Pairwise (fun a b => lt b a = false) s →
      List.Pairwise (fun a b => lt b a = false) (insertSorted lt x s) := by
  intro s
  induction s with
  | nil => intro _; simp [insertSorted]
  | cons y ys ih =>
    intro hp
    obtain ⟨hy, hys⟩ := List.pairwise_cons.mp hp
    simp only [insertSorted]
    by_cases h : lt y x = true
    · rw [if_pos h]
      refine List.pairwise_cons.mpr ⟨?_, ih hys⟩
      intro z hz
      rcases List.mem_cons.mp ((insertSorted_perm lt x ys).mem_iff.mp hz) with
        h1 | h1
      · rw [h1]
        exact hasymm y x h
      · exact hy z h1
    · rw [if_neg h]
      refine List.pairwise_cons.mpr ⟨?_, hp⟩
      intro z hz
      rcases List.mem_cons.mp hz with h1 | h1
      · rw [h1]
        simpa using h
      · exact hnt z y x (hy z h1) (by simpa using h)

lemma pairwise_scb {lt : α → α → Bool}
    (hnt : ∀ a b c, lt a b = false → lt b c = false → lt a c = false)
    (hasymm : ∀ a b, lt a b = true → lt b a = false) :
    ∀ s, List.Pairwise (fun a b => lt b a = false) (stableSortBy lt s) := by
  intro s
  induction s with
  | nil => exact List.Pairwise.nil
  | cons y ys ih =>
    exact pairwise_insS hnt hasymm y _ ih

lemma sortTree_insertPath {lc : String → String → Int}
    (hc : LCConsist lc) (ht : LCTrans lc) (he : LCEq lc) :
    ∀ parts t rel, UF t →
      sortTree lc (insertPath lc t parts rel) =
        sortedInsert lc (sortTree lc t) parts rel := by
  intro parts
  induction parts with
  | nil =>
    intro t rel h
    cases t with
    | file n p => rfl
    | folder n ch =>
      simp only [insertPath, sortTree_folder, sortedInsert]
      rw [sortForest_eq_map]
  | cons a tail ih =>
    intro t rel h
    cases t with
    | file n p => rfl
    | folder n ch =>
      cases h with
      | folder _ _ hmem hcount =>
        rcases tail with _ | ⟨b, rest⟩
        · simp only [insertPath, sortTree_folder, sortedInsert]
          rw [List.map_append]
          have hfile : List.map (sortTree lc) [TreeNode.file a rel] =
              [TreeNode.file a rel] := rfl
          rw [hfile,
            stableSortBy_append_last (nodeLt_trans ht) (nodeLt_negtrans hc ht he),
            sortForest_eq_map]
        · by_cases hf : hasFolderChild a ch = true
          · have hL : insertPath lc (TreeNode.folder n ch) (a :: b :: rest) rel =
                TreeNode.folder n (updateFirstFolder a
                  (fun c => insertPath lc c (b :: rest) rel) ch) := by
              simp only [insertPath]
              rw [if_pos hf]
            rw [hL, sortTree_folder,
              @map_sortTree_upd lc a
                (fun c => insertPath lc c (b :: rest) rel)
                (fun c => sortedInsert lc c (b :: rest) rel) ch
                (fun sub hm => ih (TreeNode.folder a sub) rel (hmem _ hm))]
            have hcnt : (ch.map (sortTree lc)).countP (folderNamed a) ≤ 1 := by
              have hfun : (folderNamed a ∘ sortTree lc) = folderNamed a :=
                funext (folderNamed_sortTree lc a)
              rw [List.countP_map, hfun]
              exact hcount a
            rw [scb_upd (keepsFolderName_sortedInsert lc a (b :: rest) rel) _
              hcnt]
            have hcond : hasFolderChild a
                (stableSortBy (nodeLt lc) (ch.map (sortTree lc))) = true := by
              rw [hasFolderChild_perm a (stableSortBy_perm _ _),
                hasFolderChild_map_sortTree]
              exact hf
            have hR : sortedInsert lc (TreeNode.folder n
                  (stableSortBy (nodeLt lc) (ch.map (sortTree lc))))
                  (a :: b :: rest) rel =
                TreeNode.folder n (updateFirstFolder a
                  (fun c => sortedInsert lc c (b :: rest) rel)
                  (stableSortBy (nodeLt lc) (ch.map (sortTree lc)))) := by
              simp only [sortedInsert]
              rw [if_pos hcond]
            rw [sortTree_folder, hR]
          · have hf' : hasFolderChild a ch = false := by simpa using hf
            have hL : insertPath lc (TreeNode.folder n ch) (a :: b :: rest) rel =
                TreeNode.folder n (updateFirstFolder a
                  (fun c => insertPath lc c (b :: rest) rel)
                  (stableSortBy (nodeLt lc)
                    (ch ++ [TreeNode.folder a []]))) := by
              simp only [insertPath]
              rw [if_neg hf]
            have hff' : ∀ sub, TreeNode.folder a sub ∈
                stableSortBy (nodeLt lc) (ch ++ [TreeNode.folder a []]) →
                sortTree lc (insertPath lc (TreeNode.folder a sub)
                  (b :: rest) rel) =
                sortedInsert lc (sortTree lc (TreeNode.folder a sub))
                  (b :: rest) rel := by
              intro sub hm
              apply ih
              rcases List.mem_append.mp
                ((stableSortBy_perm _ _).mem_iff.mp hm) with h1 | h1
              · exact hmem _ h1
              · have hsub : sub = ([] : List TreeNode) := by
                  have := List.mem_singleton.mp h1
                  injection this
                subst hsub
                exact UF.folder a [] (by intro c hc'; simp at hc')
                  (by intro name; simp)
            rw [hL, sortTree_folder,
              @map_sortTree_upd lc a
                (fun c => insertPath lc c (b :: rest) rel)
                (fun c => sortedInsert lc c (b :: rest) rel) _ hff']
            have hmapL : (stableSortBy (nodeLt lc)
                  (ch ++ [TreeNode.folder a []])).map (sortTree lc) =
                insAfter (nodeLt lc) (TreeNode.folder a [])
                  (stableSortBy (nodeLt lc) (ch.map (sortTree lc))) := by
              rw [map_scb (nodeLt_sortTree lc), List.map_append]
              have h1 : List.map (sortTree lc) [TreeNode.folder a []] =
                  [TreeNode.folder a []] := by
                simp only [List.map_cons, List.map_nil, sortTree_folder]
                rfl
              rw [h1, stableSortBy_append_last (nodeLt_trans ht)
                (nodeLt_negtrans hc ht he)]
            rw [hmapL]
            have hpair : List.Pairwise (fun x y => nodeLt lc y x = false)
                (updateFirstFolder a
                  (fun c => sortedInsert lc c (b :: rest) rel)
                  (insAfter (nodeLt lc) (TreeNode.folder a [])
                    (stableSortBy (nodeLt lc) (ch.map (sortTree lc))))) :=
              pairwise_upd (keepsFolderName_sortedInsert lc a (b :: rest) rel) _
                (pairwise_insAfter (nodeLt_negtrans hc ht he) (nodeLt_asymm hc)
                  _ _
                  (pairwise_scb (nodeLt_negtrans hc ht he) (nodeLt_asymm hc) _))
            rw [scb_of_pairwise _ hpair]
            have hcond : hasFolderChild a
                (stableSortBy (nodeLt lc) (ch.map (sortTree lc))) = false := by
              rw [hasFolderChild_perm a (stableSortBy_perm _ _),
                hasFolderChild_map_sortTree]
              exact hf'
            have hR : sortedInsert lc (TreeNode.folder n
                  (stableSortBy (nodeLt lc) (ch.map (sortTree lc))))
                  (a :: b :: rest) rel =
                TreeNode.folder n (updateFirstFolder a
                  (fun c => sortedInsert lc c (b :: rest) rel)
                  (insAfter (nodeLt lc) (TreeNode.folder a [])
                    (stableSortBy (nodeLt lc) (ch.map (sortTree lc))))) := by
              simp only [sortedInsert]
              rw [if_neg (by simp [hcond])]
            rw [sortTree_folder, hR]

lemma sortedInsert_nilp (lc : String → String → Int) (n : String)
    (ch : List TreeNode) (rel : String) :
    sortedInsert lc (TreeNode.folder n ch) [] rel = TreeNode.folder n ch := rfl

lemma sortedInsert_leaf (lc : String → String → Int) (n : String)
    (ch : List TreeNode) (a rel : String) :
    sortedInsert lc (TreeNode.folder n ch) [a] rel =
      TreeNode.folder n
        (insAfter (nodeLt lc) (TreeNode.file a rel) ch) := rfl

lemma sortedInsert_deep (lc : String → String → Int) (n : String)
    (ch : List TreeNode) (a b : String) (rest : List String) (rel : String) :
    sortedInsert lc (TreeNode.folder n ch) (a :: b :: rest) rel =
      if hasFolderChild a ch then
        TreeNode.folder n (updateFirstFolder a
          (fun c => sortedInsert lc c (b :: rest) rel) ch)
      else
        TreeNode.folder n (updateFirstFolder a
          (fun c => sortedInsert lc c (b :: rest) rel)
          (insAfter (nodeLt lc) (TreeNode.folder a []) ch)) := by
  simp only [sortedInsert]

lemma sortedInsert_file (lc : String → String → Int) (n p : String)
    (parts : List String) (rel : String) :
    sortedInsert lc (TreeNode.file n p) parts rel = TreeNode.file n p := by
  rcases parts with _ | ⟨a, _ | ⟨b, rest⟩⟩ <;> rfl

lemma folderNamed_file (name a r : String) :
    folderNamed name (TreeNode.file a r) = false := rfl

lemma hasFolderChild_insAfter_file (lc : String → String → Int)
    (a r name : String) (ch : List TreeNode) :
    hasFolderChild name (insAfter (nodeLt lc) (TreeNode.file a r) ch) =
      hasFolderChild name ch := by
  rw [hasFolderChild_insAfter, folderNamed_file, Bool.false_or]

lemma hasFolderChild_insAfter_folder_ne (lc : String → String → Int)
    {a1 a2 : String} (h : a1 ≠ a2) (ch : List TreeNode) :
    hasFolderChild a2 (insAfter (nodeLt lc) (TreeNode.folder a1 []) ch) =
      hasFolderChild a2 ch := by
  rw [hasFolderChild_insAfter]
  simp [folderNamed, h]

lemma hasFolderChild_insAfter_folder_self (lc : String → String → Int)
    (a : String) (ch : List TreeNode) :
    hasFolderChild a (insAfter (nodeLt lc) (TreeNode.folder a []) ch) =
      true := by
  rw [hasFolderChild_insAfter]
  simp [folderNamed]

lemma upd_congr {name : String} {f f' : TreeNode → TreeNode}
    (h : ∀ c, f c = f' c) :
    ∀ s, updateFirstFolder name f s = updateFirstFolder name f' s := by
  intro s
  induction s with
  | nil => rfl
  | cons y ys ih =>
    cases y with
    | file m p => simp only [updateFirstFolder, ih]
    | folder m ch =>
      simp only [updateFirstFolder, ih]
      by_cases hm : m = name
      · rw [if_pos hm, if_pos hm, h]
      · rw [if_neg hm, if_neg hm]

lemma tie_folder_file {lc : String → String → Int} {a1 a2 r : String}
    {sub : List TreeNode}
    (h1 : nodeLt lc (TreeNode.folder a1 sub) (TreeNode.file a2 r) = false) :
    False := by
  simp [nodeLt] at h1

lemma tie_folder_folder {lc : String → String → Int} (hc : LCConsist lc)
    (he : LCEq lc) {a1 a2 : String} (hne : a1 ≠ a2)
    (h1 : nodeLt lc (TreeNode.folder a1 []) (TreeNode.folder a2 []) = false)
    (h2 : nodeLt lc (TreeNode.folder a2 []) (TreeNode.folder a1 []) = false) :
    False := by
  rcases nodeLt_tie hc he _ _ h1 h2 with ⟨m, p, q, hh, _⟩ | ⟨m, c1, c2, hh1, hh2⟩
  · exact TreeNode.noConfusion hh
  · have e1 : a1 = m := by injection hh1
    have e2 : a2 = m := by injection hh2
    exact hne (e1.trans e2.symm)

lemma sortedInsert_leaf_deep {lc : String → String → Int}
    (hc : LCConsist lc) (ht : LCTrans lc) (he : LCEq lc)
    (n a1 r1 a2 b2 : String) (rest2 : List String) (r2 : String)
    (ch : List TreeNode) :
    sortedInsert lc (sortedInsert lc (TreeNode.folder n ch) [a1] r1)
        (a2 :: b2 :: rest2) r2 =
      sortedInsert lc (sortedInsert lc (TreeNode.folder n ch)
        (a2 :: b2 :: rest2) r2) [a1] r1 := by
  rw [sortedInsert_leaf, sortedInsert_deep, sortedInsert_deep,
    hasFolderChild_insAfter_file]
  by_cases hfc : hasFolderChild a2 ch = true
  · rw [if_pos hfc, if_pos hfc, sortedInsert_leaf]
    exact congrArg (TreeNode.folder n)
      (upd_insAfter_not (keepsFolderName_sortedInsert lc a2 (b2 :: rest2) r2)
        (folderNamed_file a2 a1 r1) ch)
  · rw [if_neg hfc, if_neg hfc, sortedInsert_leaf]
    refine congrArg (TreeNode.folder n) ?_
    rw [insAfter_insAfter_comm (nodeLt_trans ht) (nodeLt_negtrans hc ht he)
      (nodeLt_asymm hc) (TreeNode.folder a2 []) (TreeNode.file a1 r1)
      (fun h1 _ => absurd h1 (by simp [nodeLt])) ch,
      upd_insAfter_not (keepsFolderName_sortedInsert lc a2 (b2 :: rest2) r2)
        (folderNamed_file a2 a1 r1)]

lemma sortedInsert_comm {lc : String → String → Int}
    (hc : LCConsist lc) (ht : LCTrans lc) (he : LCEq lc) :
    ∀ parts1 parts2 t rel1 rel2, (parts1 = parts2 → rel1 = rel2) →
      sortedInsert lc (sortedInsert lc t parts1 rel1) parts2 rel2 =
        sortedInsert lc (sortedInsert lc t parts2 rel2) parts1 rel1 := by
  intro parts1
  induction parts1 with
  | nil =>
    intro parts2 t rel1 rel2 hsame
    cases t with
    | file m p => simp only [sortedInsert_file]
    | folder m ch =>
      obtain ⟨X, hX⟩ := keepsFolderName_sortedInsert lc m parts2 rel2 ch
      have hX' : sortedInsert lc (TreeNode.folder m ch) parts2 rel2 =
          TreeNode.folder m X := hX
      rw [sortedInsert_nilp, hX', sortedInsert_nilp]
  | cons a1 tail1 ih =>
    intro parts2 t rel1 rel2 hsame
    cases t with
    | file m p => simp only [sortedInsert_file]
    | folder m ch =>
      rcases parts2 with _ | ⟨a2, tail2⟩
      · obtain ⟨X, hX⟩ :=
          keepsFolderName_sortedInsert lc m (a1 :: tail1) rel1 ch
        have hX' : sortedInsert lc (TreeNode.folder m ch) (a1 :: tail1) rel1 =
            TreeNode.folder m X := hX
        rw [sortedInsert_nilp, hX', sortedInsert_nilp]
      · rcases tail1 with _ | ⟨b1, rest1⟩
        · rcases tail2 with _ | ⟨b2, rest2⟩
          · simp only [sortedInsert_leaf]
            refine congrArg (TreeNode.folder m) ?_
            refine insAfter_insAfter_comm (nodeLt_trans ht)
              (nodeLt_negtrans hc ht he) (nodeLt_asymm hc)
              (TreeNode.file a2 rel2) (TreeNode.file a1 rel1) ?_ ch
            intro h1 h2
            rcases nodeLt_tie hc he _ _ h1 h2 with
              ⟨mm, p, q, hh1, hh2⟩ | ⟨mm, c1, c2, hh1, hh2⟩
            · have e1 : a2 = mm := by injection hh1
              have e3 : a1 = mm := by injection hh2
              have ha : a1 = a2 := e3.trans e1.symm
              have hr : rel1 = rel2 := hsame (by rw [ha])
              rw [ha, hr]
            · exact TreeNode.noConfusion hh1
          · exact sortedInsert_leaf_deep hc ht he m a1 rel1 a2 b2 rest2 rel2 ch
        · rcases tail2 with _ | ⟨b2, rest2⟩
          · exact (sortedInsert_leaf_deep hc ht he m a2 rel2 a1 b1 rest1
              rel1 ch).symm
          · have k1 := keepsFolderName_sortedInsert lc a1 (b1 :: rest1) rel1
            have k2' := keepsFolderName_sortedInsert lc a2 (b2 :: rest2) rel2
            by_cases hname : a1 = a2
            · subst hname
              have hsame' : (b1 :: rest1) = (b2 :: rest2) → rel1 = rel2 :=
                fun h => hsame (by rw [h])
              have hcomm : ∀ c,
                  sortedInsert lc (sortedInsert lc c (b1 :: rest1) rel1)
                    (b2 :: rest2) rel2 =
                  sortedInsert lc (sortedInsert lc c (b2 :: rest2) rel2)
                    (b1 :: rest1) rel1 :=
                fun c => ih (b2 :: rest2) c rel1 rel2 hsame'
              by_cases hfc : hasFolderChild a1 ch = true
              · have e1 : sortedInsert lc (TreeNode.folder m ch)
                    (a1 :: b1 :: rest1) rel1 =
                    TreeNode.folder m (updateFirstFolder a1
                      (fun c => sortedInsert lc c (b1 :: rest1) rel1) ch) := by
                  rw [sortedInsert_deep, if_pos hfc]
                have e2 : sortedInsert lc (TreeNode.folder m ch)
                    (a1 :: b2 :: rest2) rel2 =
                    TreeNode.folder m (updateFirstFolder a1
                      (fun c => sortedInsert lc c (b2 :: rest2) rel2) ch) := by
                  rw [sortedInsert_deep, if_pos hfc]
                rw [e1, e2, sortedInsert_deep, sortedInsert_deep]
                have d1 : hasFolderChild a1 (updateFirstFolder a1
                    (fun c => sortedInsert lc c (b1 :: rest1) rel1) ch) =
                    true := by
                  rw [hasFolderChild_upd k1]
                  exact hfc
                have d2 : hasFolderChild a1 (updateFirstFolder a1
                    (fun c => sortedInsert lc c (b2 :: rest2) rel2) ch) =
                    true := by
                  rw [hasFolderChild_upd k2']
                  exact hfc
                rw [if_pos d1, if_pos d2]
                refine congrArg (TreeNode.folder m) ?_
                rw [upd_upd k1, upd_upd k2']
                exact upd_congr (fun c => hcomm c) ch
              · have hfc' : hasFolderChild a1 ch = false := by simpa using hfc
                have e1 : sortedInsert lc (TreeNode.folder m ch)
                    (a1 :: b1 :: rest1) rel1 =
                    TreeNode.folder m (updateFirstFolder a1
                      (fun c => sortedInsert lc c (b1 :: rest1) rel1)
                      (insAfter (nodeLt lc) (TreeNode.folder a1 []) ch)) := by
                  rw [sortedInsert_deep, if_neg hfc]
                have e2 : sortedInsert lc (TreeNode.folder m ch)
                    (a1 :: b2 :: rest2) rel2 =
                    TreeNode.folder m (updateFirstFolder a1
                      (fun c => sortedInsert lc c (b2 :: rest2) rel2)
                      (insAfter (nodeLt lc) (TreeNode.folder a1 []) ch)) := by
                  rw [sortedInsert_deep, if_neg hfc]
                rw [e1, e2, sortedInsert_deep, sortedInsert_deep]
                have d1 : hasFolderChild a1 (updateFirstFolder a1
                    (fun c => sortedInsert lc c (b1 :: rest1) rel1)
                    (insAfter (nodeLt lc) (TreeNode.folder a1 []) ch)) =
                    true := by
                  rw [hasFolderChild_upd k1]
                  exact hasFolderChild_insAfter_folder_self lc a1 ch
                have d2 : hasFolderChild a1 (updateFirstFolder a1
                    (fun c => sortedInsert lc c (b2 :: rest2) rel2)
                    (insAfter (nodeLt lc) (TreeNode.folder a1 []) ch)) =
                    true := by
                  rw [hasFolderChild_upd k2']
                  exact hasFolderChild_insAfter_folder_self lc a1 ch
                rw [if_pos d1, if_pos d2]
                refine congrArg (TreeNode.folder m) ?_
                rw [upd_upd k1, upd_upd k2']
                exact upd_congr (fun c => hcomm c) _
            · have hcb1 : folderNamed a1 (TreeNode.folder a2 []) = false := by
                simp only [folderNamed, decide_eq_false_iff_not]
                exact Ne.symm hname
              have hcb2 : folderNamed a2 (TreeNode.folder a1 []) = false := by
                simp only [folderNamed, decide_eq_false_iff_not]
                exact hname
              by_cases hfc1 : hasFolderChild a1 ch = true <;>
                by_cases hfc2 : hasFolderChild a2 ch = true
              · have e1 : sortedInsert lc (TreeNode.folder m ch)
                    (a1 :: b1 :: rest1) rel1 =
                    TreeNode.folder m (updateFirstFolder a1
                      (fun c => sortedInsert lc c (b1 :: rest1) rel1) ch) := by
                  rw [sortedInsert_deep, if_pos hfc1]
                have e2 : sortedInsert lc (TreeNode.folder m ch)
                    (a2 :: b2 :: rest2) rel2 =
                    TreeNode.folder m (updateFirstFolder a2
                      (fun c => sortedInsert lc c (b2 :: rest2) rel2) ch) := by
                  rw [sortedInsert_deep, if_pos hfc2]
                rw [e1, e2, sortedInsert_deep, sortedInsert_deep]
                have d2 : hasFolderChild a2 (updateFirstFolder a1
                    (fun c => sortedInsert lc c (b1 :: rest1) rel1) ch) =
                    true := by
                  rw [hasFolderChild_upd k1]
                  exact hfc2
                have d1 : hasFolderChild a1 (updateFirstFolder a2
                    (fun c => sortedInsert lc c (b2 :: rest2) rel2) ch) =
                    true := by
                  rw [hasFolderChild_upd k2']
                  exact hfc1
                rw [if_pos d2, if_pos d1]
                exact congrArg (TreeNode.folder m)
                  (upd_comm_names (Ne.symm hname) k2' k1 ch)
              · have hfc2' : hasFolderChild a2 ch = false := by simpa using hfc2
                have e1 : sortedInsert lc (TreeNode.folder m ch)
                    (a1 :: b1 :: rest1) rel1 =
                    TreeNode.folder m (updateFirstFolder a1
                      (fun c => sortedInsert lc c (b1 :: rest1) rel1) ch) := by
                  rw [sortedInsert_deep, if_pos hfc1]
                have e2 : sortedInsert lc (TreeNode.folder m ch)
                    (a2 :: b2 :: rest2) rel2 =
                    TreeNode.folder m (updateFirstFolder a2
                      (fun c => sortedInsert lc c (b2 :: rest2) rel2)
                      (insAfter (nodeLt lc) (TreeNode.folder a2 []) ch)) := by
                  rw [sortedInsert_deep, if_neg hfc2]
                rw [e1, e2, sortedInsert_deep, sortedInsert_deep]
                have d2 : ¬(hasFolderChild a2 (updateFirstFolder a1
                    (fun c => sortedInsert lc c (b1 :: rest1) rel1) ch) =
                    true) := by
                  rw [hasFolderChild_upd k1]
                  simp [hfc2']
                have d1 : hasFolderChild a1 (updateFirstFolder a2
                    (fun c => sortedInsert lc c (b2 :: rest2) rel2)
                    (insAfter (nodeLt lc) (TreeNode.folder a2 []) ch)) =
                    true := by
                  rw [hasFolderChild_upd k2',
                    hasFolderChild_insAfter_folder_ne lc (Ne.symm hname)]
                  exact hfc1
                rw [if_neg d2, if_pos d1]
                refine congrArg (TreeNode.folder m) ?_
                rw [← upd_insAfter_not k1 hcb1]
                exact upd_comm_names (Ne.symm hname) k2' k1 _
              · have hfc1' : hasFolderChild a1 ch = false := by simpa using hfc1
                have e1 : sortedInsert lc (TreeNode.folder m ch)
                    (a1 :: b1 :: rest1) rel1 =
                    TreeNode.folder m (updateFirstFolder a1
                      (fun c => sortedInsert lc c (b1 :: rest1) rel1)
                      (insAfter (nodeLt lc) (TreeNode.folder a1 []) ch)) := by
                  rw [sortedInsert_deep, if_neg hfc1]
                have e2 : sortedInsert lc (TreeNode.folder m ch)
                    (a2 :: b2 :: rest2) rel2 =
                    TreeNode.folder m (updateFirstFolder a2
                      (fun c => sortedInsert lc c (b2 :: rest2) rel2) ch) := by
                  rw [sortedInsert_deep, if_pos hfc2]
                rw [e1, e2, sortedInsert_deep, sortedInsert_deep]
                have d2 : hasFolderChild a2 (updateFirstFolder a1
                    (fun c => sortedInsert lc c (b1 :: rest1) rel1)
                    (insAfter (nodeLt lc) (TreeNode.folder a1 []) ch)) =
                    true := by
                  rw [hasFolderChild_upd k1,
                    hasFolderChild_insAfter_folder_ne lc hname]
                  exact hfc2
                have d1 : ¬(hasFolderChild a1 (updateFirstFolder a2
                    (fun c => sortedInsert lc c (b2 :: rest2) rel2) ch) =
                    true) := by
                  rw [hasFolderChild_upd k2']
                  simp [hfc1']
                rw [if_pos d2, if_neg d1]
                refine congrArg (TreeNode.folder m) ?_
                rw [← upd_insAfter_not k2' hcb2]
                exact upd_comm_names (Ne.symm hname) k2' k1 _
              · have hfc1' : hasFolderChild a1 ch = false := by simpa using hfc1
                have hfc2' : hasFolderChild a2 ch = false := by simpa using hfc2
                have e1 : sortedInsert lc (TreeNode.folder m ch)
                    (a1 :: b1 :: rest1) rel1 =
                    TreeNode.folder m (updateFirstFolder a1
                      (fun c => sortedInsert lc c (b1 :: rest1) rel1)
                      (insAfter (nodeLt lc) (TreeNode.folder a1 []) ch)) := by
                  rw [sortedInsert_deep, if_neg hfc1]
                have e2 : sortedInsert lc (TreeNode.folder m ch)
                    (a2 :: b2 :: rest2) rel2 =
                    TreeNode.folder m (updateFirstFolder a2
                      (fun c => sortedInsert lc c (b2 :: rest2) rel2)
                      (insAfter (nodeLt lc) (TreeNode.folder a2 []) ch)) := by
                  rw [sortedInsert_deep, if_neg hfc2]
                rw [e1, e2, sortedInsert_deep, sortedInsert_deep]
                have d2 : ¬(hasFolderChild a2 (updateFirstFolder a1
                    (fun c => sortedInsert lc c (b1 :: rest1) rel1)
                    (insAfter (nodeLt lc) (TreeNode.folder a1 []) ch)) =
                    true) := by
                  rw [hasFolderChild_upd k1,
                    hasFolderChild_insAfter_folder_ne lc hname]
                  simp [hfc2']
                have d1 : ¬(hasFolderChild a1 (updateFirstFolder a2
                    (fun c => sortedInsert lc c (b2 :: rest2) rel2)
                    (insAfter (nodeLt lc) (TreeNode.folder a2 []) ch)) =
                    true) := by
                  rw [hasFolderChild_upd k2',
                    hasFolderChild_insAfter_folder_ne lc (Ne.symm hname)]
                  simp [hfc1']
                rw [if_neg d2, if_neg d1]
                refine congrArg (TreeNode.folder m) ?_
                rw [← upd_insAfter_not k1 hcb1,
                  insAfter_insAfter_comm (nodeLt_trans ht)
                    (nodeLt_negtrans hc ht he) (nodeLt_asymm hc)
                    (TreeNode.folder a2 []) (TreeNode.folder a1 [])
                    (fun h1 h2 => (tie_folder_folder hc he (Ne.symm hname)
                      h1 h2).elim) ch,
                  ← upd_insAfter_not k2' hcb2]
                exact upd_comm_names (Ne.symm hname) k2' k1 _

/-- The relative path the tree builder computes for one absolute path:
`path.relative(rootDir, absPath).replace(/\\/g, "/")`. -/
def relOfAbs (cwd rootDir abs : String) : String :=
  backslashToSlash (posixRelative cwd rootDir abs)

/-- The path segments the tree builder computes for one absolute path:
`relPath.split("/").filter(Boolean)`. -/
def partsOfAbs (cwd rootDir abs : String) : List String :=
  ((splitSlash (relOfAbs cwd rootDir abs).data).filter
    (fun s => decide (s ≠ []))).map String.mk

/-- Adjacent-pair sortedness of a child list under the tree comparator: no
child is strictly preceded by its successor. -/
def sortedChildren (lc : String → String → Int) : List TreeNode → Bool
  | [] => true
  | [_] => true
  | a :: b :: t => !(nodeLt lc b a) && sortedChildren lc (b :: t)

mutual
/-- Every folder's children (at all depths) are sorted under the tree
comparator. -/
def sortedNode (lc : String → String → Int) : TreeNode → Bool
  | TreeNode.file _ _ => true
  | TreeNode.folder _ ch => sortedChildren lc ch && sortedForestB lc ch
def sortedForestB (lc : String → String → Int) : List TreeNode → Bool
  | [] => true
  | c :: cs => sortedNode lc c && sortedForestB lc cs
end

mutual
def nodeSize : TreeNode → Nat
  | TreeNode.file _ _ => 1
  | TreeNode.folder _ ch => 1 + forestSize ch
def forestSize : List TreeNode → Nat
  | [] => 0
  | c :: cs => nodeSize c + forestSize cs
end

lemma splitSlash_chars : ∀ (cs : List Char), ∀ s ∈ splitSlash cs,
    ∀ c ∈ s, c ∈ cs := by
  intro cs
  induction cs with
  | nil =>
    intro s hs
    simp only [splitSlash, List.mem_singleton] at hs
    subst hs
    intro c hc
    simp at hc
  | cons x xs ih =>
    intro s hs
    simp only [splitSlash] at hs
    by_cases hx : x = '/'
    · simp only [if_pos hx, List.mem_cons] at hs
      rcases hs with h | h
      · subst h
        intro c hc
        simp at hc
      · intro c hc
        exact List.mem_cons_of_mem x (ih s h c hc)
    · rw [if_neg hx] at hs
      rcases hcs : splitSlash xs with _ | ⟨t, ts⟩
      · rw [hcs] at hs
        simp only [List.mem_singleton] at hs
        subst hs
        intro c hc
        rcases List.mem_cons.mp hc with h | h
        · simp [h]
        · simp at h
      · rw [hcs] at hs
        rcases List.mem_cons.mp hs with h | h
        · subst h
          intro c hc
          rcases List.mem_cons.mp hc with h | h
          · simp [h]
          · exact List.mem_cons_of_mem x (ih t (by rw [hcs]; simp) c h)
        · intro c hc
          exact List.mem_cons_of_mem x
            (ih s (by rw [hcs]; exact List.mem_cons_of_mem t h) c hc)

lemma mem_normStep (ab : Bool) (acc : List (List Char)) (seg : List Char) :
    ∀ s ∈ normStep ab acc seg, s ∈ acc ∨ s = seg ∨ s = dotdot := by
  intro s hs
  unfold normStep at hs
  split at hs
  · exact Or.inl hs
  · split at hs
    · split at hs
      · exact Or.inl (List.dropLast_sublist acc |>.mem hs)
      · split at hs
        · rcases List.mem_append.mp hs with h | h
          · exact Or.inl h
          · exact Or.inr (Or.inr (List.mem_singleton.mp h))
        · exact Or.inl hs
    · rcases List.mem_append.mp hs with h | h
      · exact Or.inl h
      · exact Or.inr (Or.inl (List.mem_singleton.mp h))

lemma mem_foldl_normStep (ab : Bool) :
    ∀ (segs : List (List Char)) (acc : List (List Char)),
      ∀ s ∈ segs.foldl (normStep ab) acc,
        s ∈ acc ∨ s ∈ segs ∨ s = dotdot := by
  intro segs
  induction segs with
  | nil => intro acc s hs; exact Or.inl hs
  | cons x xs ih =>
    intro acc s hs
    rcases ih (normStep ab acc x) s hs with h | h | h
    · rcases mem_normStep ab acc x s h with h1 | h1 | h1
      · exact Or.inl h1
      · exact Or.inr (Or.inl (h1 ▸ List.mem_cons_self _ _))
      · exact Or.inr (Or.inr h1)
    · exact Or.inr (Or.inl (List.mem_cons_of_mem _ h))
    · exact Or.inr (Or.inr h)

lemma mem_normSegs (ab : Bool) (segs : List (List Char)) :
    ∀ s ∈ normSegs ab segs, s ∈ segs ∨ s = dotdot := by
  intro s hs
  rcases mem_foldl_normStep ab segs [] s hs with h | h
  · simp at h
  · exact h

lemma stripCommon_snd_mem : ∀ (as bs : List (List Char)),
    ∀ s ∈ (stripCommon as bs).2, s ∈ bs := by
  intro as
  induction as with
  | nil => intro bs s hs; exact hs
  | cons a as ih =>
    intro bs s hs
    rcases bs with _ | ⟨b, bs'⟩
    · exact hs
    · simp only [stripCommon] at hs
      by_cases hab : a = b
      · rw [if_pos hab] at hs
        exact List.mem_cons_of_mem b (ih bs' s hs)
      · rw [if_neg hab] at hs
        exact hs

lemma joinSegs_chars : ∀ (l : List (List Char)), ∀ c ∈ joinSegs l,
    (∃ s ∈ l, c ∈ s) ∨ c = '/' := by
  intro l
  induction l with
  | nil => intro c hc; simp [joinSegs] at hc
  | cons s ss ih =>
    intro c hc
    rcases ss with _ | ⟨t, ts⟩
    · exact Or.inl ⟨s, List.mem_singleton.mpr rfl, hc⟩
    · have : joinSegs (s :: t :: ts) = s ++ '/' :: joinSegs (t :: ts) := rfl
      rw [this] at hc
      rcases List.mem_append.mp hc with h | h
      · exact Or.inl ⟨s, List.mem_cons_self _ _, h⟩
      · rcases List.mem_cons.mp h with h1 | h1
        · exact Or.inr h1
        · rcases ih c h1 with ⟨u, hu, hcu⟩ | h2
          · exact Or.inl ⟨u, List.mem_cons_of_mem s hu, hcu⟩
          · exact Or.inr h2

lemma backslashToSlash_id (s : String) (h : '\\' ∉ s.data) :
    backslashToSlash s = s := by
  unfold backslashToSlash
  have hmap : ∀ l : List Char, '\\' ∉ l →
      l.map (fun c => if c = '\\' then '/' else c) = l := by
    intro l
    induction l with
    | nil => intro _; rfl
    | cons c cs ih =>
      intro hl
      rw [List.map_cons, ih (fun hm => hl (List.mem_cons_of_mem c hm)),
        if_neg (fun hcc => hl (by rw [hcc]; exact List.mem_cons_self _ _))]
  rw [hmap s.data h]

lemma posixResolveSegs_props (cwd p : String) (hcwd : '\\' ∉ cwd.data)
    (hp : '\\' ∉ p.data) :
    ∀ s ∈ posixResolveSegs cwd p, s ≠ [] ∧ '/' ∉ s ∧ '\\' ∉ s := by
  intro s hs
  have hshape := normShape_normSegs false
    (splitSlash (if posixIsAbsolute p then p.data
      else cwd.data ++ '/' :: p.data))
    (splitSlash_no_slash _)
  obtain ⟨k, rest, _, _, hall⟩ := hshape
  obtain ⟨h1, _, h3⟩ := hall s hs
  refine ⟨h1, h3, ?_⟩
  intro hbs
  rcases mem_normSegs false _ s hs with hmem | hdd
  · have hcs := splitSlash_chars _ s hmem '\\' hbs
    by_cases habs : posixIsAbsolute p = true
    · rw [if_pos habs] at hcs
      exact hp hcs
    · rw [if_neg habs] at hcs
      rcases List.mem_append.mp hcs with h | h
      · exact hcwd h
      · rcases List.mem_cons.mp h with h | h
        · exact absurd h (by decide)
        · exact hp h
  · rw [hdd] at hbs
    simp [dotdot] at hbs

lemma relOfAbs_canon (cwd rootDir abs : String) (hcwd : '\\' ∉ cwd.data)
    (habs : '\\' ∉ abs.data) :
    ∃ segs : List (List Char), (∀ s ∈ segs, s ≠ [] ∧ '/' ∉ s) ∧
      relOfAbs cwd rootDir abs = String.mk (joinSegs segs) ∧
      (splitSlash (relOfAbs cwd rootDir abs).data).filter
        (fun s => decide (s ≠ [])) = segs := by
  refine ⟨(stripCommon (posixResolveSegs cwd rootDir)
      (posixResolveSegs cwd abs)).1.map (fun _ => dotdot) ++
    (stripCommon (posixResolveSegs cwd rootDir)
      (posixResolveSegs cwd abs)).2, ?_, ?_, ?_⟩
  case refine_1 =>
    intro s hs
    rcases List.mem_append.mp hs with h | h
    · obtain ⟨_, _, hdd⟩ := List.mem_map.mp h
      rw [← hdd]
      exact ⟨by decide, by decide⟩
    · have := posixResolveSegs_props cwd abs hcwd habs s
        (stripCommon_snd_mem _ _ s h)
      exact ⟨this.1, this.2.1⟩
  case refine_2 =>
    have hjchars : '\\' ∉ joinSegs
        ((stripCommon (posixResolveSegs cwd rootDir)
          (posixResolveSegs cwd abs)).1.map (fun _ => dotdot) ++
        (stripCommon (posixResolveSegs cwd rootDir)
          (posixResolveSegs cwd abs)).2) := by
      intro hmem
      rcases joinSegs_chars _ '\\' hmem with ⟨s, hsm, hcs⟩ | hsl
      · rcases List.mem_append.mp hsm with h | h
        · obtain ⟨_, _, hdd⟩ := List.mem_map.mp h
          rw [← hdd] at hcs
          simp [dotdot] at hcs
        · exact (posixResolveSegs_props cwd abs hcwd habs s
            (stripCommon_snd_mem _ _ s h)).2.2 hcs
      · exact absurd hsl (by decide)
    exact backslashToSlash_id _ hjchars
  case refine_3 =>
    have hrel : relOfAbs cwd rootDir abs = String.mk (joinSegs
        ((stripCommon (posixResolveSegs cwd rootDir)
          (posixResolveSegs cwd abs)).1.map (fun _ => dotdot) ++
        (stripCommon (posixResolveSegs cwd rootDir)
          (posixResolveSegs cwd abs)).2)) := by
      have hjchars : '\\' ∉ joinSegs
          ((stripCommon (posixResolveSegs cwd rootDir)
            (posixResolveSegs cwd abs)).1.map (fun _ => dotdot) ++
          (stripCommon (posixResolveSegs cwd rootDir)
            (posixResolveSegs cwd abs)).2) := by
        intro hmem
        rcases joinSegs_chars _ '\\' hmem with ⟨s, hsm, hcs⟩ | hsl
        · rcases List.mem_append.mp hsm with h | h
          · obtain ⟨_, _, hdd⟩ := List.mem_map.mp h
            rw [← hdd] at hcs
            simp [dotdot] at hcs
          · exact (posixResolveSegs_props cwd abs hcwd habs s
              (stripCommon_snd_mem _ _ s h)).2.2 hcs
        · exact absurd hsl (by decide)
      exact backslashToSlash_id _ hjchars
    rw [hrel]
    rcases hsc : (stripCommon (posixResolveSegs cwd rootDir)
        (posixResolveSegs cwd abs)).1.map (fun _ => dotdot) ++
      (stripCommon (posixResolveSegs cwd rootDir)
        (posixResolveSegs cwd abs)).2 with _ | ⟨s0, ss⟩
    · simp [joinSegs, splitSlash]
    · have hne : (stripCommon (posixResolveSegs cwd rootDir)
          (posixResolveSegs cwd abs)).1.map (fun _ => dotdot) ++
        (stripCommon (posixResolveSegs cwd rootDir)
          (posixResolveSegs cwd abs)).2 ≠ [] := by
        rw [hsc]
        simp
      rw [← hsc]
      have hprops : ∀ s ∈ (stripCommon (posixResolveSegs cwd rootDir)
          (posixResolveSegs cwd abs)).1.map (fun _ => dotdot) ++
        (stripCommon (posixResolveSegs cwd rootDir)
          (posixResolveSegs cwd abs)).2, s ≠ [] ∧ '/' ∉ s := by
        intro s hs
        rcases List.mem_append.mp hs with h | h
        · obtain ⟨_, _, hdd⟩ := List.mem_map.mp h
          rw [← hdd]
          exact ⟨by decide, by decide⟩
        · have := posixResolveSegs_props cwd abs hcwd habs s
            (stripCommon_snd_mem _ _ s h)
          exact ⟨this.1, this.2.1⟩
      rw [splitSlash_joinSegs _ hne (fun s hs => (hprops s hs).2)]
      exact List.filter_eq_self.mpr
        (fun s hs => by simp [(hprops s hs).1])

lemma map_mk_map_data : ∀ l : List (List Char),
    (l.map String.mk).map String.data = l := by
  intro l
  induction l with
  | nil => rfl
  | cons s ss ih =>
    simp only [List.map_cons, ih]

lemma rel_eq_of_parts_eq (cwd rootDir : String) {abs1 abs2 : String}
    (hcwd : '\\' ∉ cwd.data) (h1 : '\\' ∉ abs1.data) (h2 : '\\' ∉ abs2.data)
    (hp : partsOfAbs cwd rootDir abs1 = partsOfAbs cwd rootDir abs2) :
    relOfAbs cwd rootDir abs1 = relOfAbs cwd rootDir abs2 := by
  obtain ⟨segs1, _, hrel1, hsplit1⟩ := relOfAbs_canon cwd rootDir abs1 hcwd h1
  obtain ⟨segs2, _, hrel2, hsplit2⟩ := relOfAbs_canon cwd rootDir abs2 hcwd h2
  have hm : segs1.map String.mk = segs2.map String.mk := by
    unfold partsOfAbs at hp
    rw [hsplit1, hsplit2] at hp
    exact hp
  have hdata : segs1 = segs2 := by
    have h := congrArg (List.map String.data) hm
    rw [map_mk_map_data, map_mk_map_data] at h
    exact h
  rw [hrel1, hrel2, hdata]

lemma build_eq_foldl (lc : String → String → Int) (cwd rootDir : String)
    (paths : List String) :
    buildFileTreeFromPaths lc cwd rootDir paths =
      sortTree lc (paths.foldl (fun node abs =>
        insertPath lc node (partsOfAbs cwd rootDir abs)
          (relOfAbs cwd rootDir abs)) (TreeNode.folder "root" [])) := rfl

lemma sortTree_foldl_insertPath {lc : String → String → Int}
    (hc : LCConsist lc) (ht : LCTrans lc) (he : LCEq lc)
    (cwd rootDir : String) :
    ∀ (l : List String) (t : TreeNode), UF t →
      sortTree lc (l.foldl (fun node abs =>
        insertPath lc node (partsOfAbs cwd rootDir abs)
          (relOfAbs cwd rootDir abs)) t) =
      l.foldl (fun node abs =>
        sortedInsert lc node (partsOfAbs cwd rootDir abs)
          (relOfAbs cwd rootDir abs)) (sortTree lc t) := by
  intro l
  induction l with
  | nil => intro t _; rfl
  | cons p ps ih =>
    intro t huf
    show sortTree lc (ps.foldl _ (insertPath lc t (partsOfAbs cwd rootDir p)
      (relOfAbs cwd rootDir p))) = _
    rw [ih _ (UF_insertPath lc (relOfAbs cwd rootDir p)
        (partsOfAbs cwd rootDir p) t huf),
      sortTree_insertPath hc ht he (partsOfAbs cwd rootDir p) t
        (relOfAbs cwd rootDir p) huf]
    rfl

lemma sortedChildren_of_pairwise {lc : String → String → Int} :
    ∀ l : List TreeNode,
      List.Pairwise (fun a b => nodeLt lc b a = false) l →
      sortedChildren lc l = true := by
  intro l
  induction l with
  | nil => intro _; rfl
  | cons y ys ih =>
    intro hp
    obtain ⟨hy, hys⟩ := List.pairwise_cons.mp hp
    rcases ys with _ | ⟨z, zs⟩
    · rfl
    · show (!(nodeLt lc z y) && sortedChildren lc (z :: zs)) = true
      rw [hy z (List.mem_cons_self _ _), ih hys]
      rfl

lemma sortedForestB_of_all {lc : String → String → Int} :
    ∀ l : List TreeNode, (∀ c ∈ l, sortedNode lc c = true) →
      sortedForestB lc l = true := by
  intro l
  induction l with
  | nil => intro _; rfl
  | cons y ys ih =>
    intro h
    show (sortedNode lc y && sortedForestB lc ys) = true
    rw [h y (List.mem_cons_self _ _),
      ih (fun c hc => h c (List.mem_cons_of_mem y hc))]
    rfl

lemma nodeSize_le_forestSize : ∀ (ch : List TreeNode), ∀ c ∈ ch,
    nodeSize c ≤ forestSize ch := by
  intro ch
  induction ch with
  | nil => intro c hc; simp at hc
  | cons y ys ih =>
    intro c hc
    show nodeSize c ≤ nodeSize y + forestSize ys
    rcases List.mem_cons.mp hc with h | h
    · rw [h]
      exact Nat.le_add_right _ _
    · exact Nat.le_trans (ih c h) (Nat.le_add_left _ _)

lemma sortedNode_sortTree {lc : String → String → Int}
    (hc : LCConsist lc) (ht : LCTrans lc) (he : LCEq lc) :
    ∀ (n : Nat) (t : TreeNode), nodeSize t ≤ n →
      sortedNode lc (sortTree lc t) = true := by
  intro n
  induction n with
  | zero =>
    intro t h
    cases t with
    | file m p => simp [nodeSize] at h
    | folder m ch => simp [nodeSize] at h
  | succ n ihn =>
    intro t h
    cases t with
    | file m p => rfl
    | folder m ch =>
      rw [sortTree_folder]
      show (sortedChildren lc (stableSortBy (nodeLt lc)
          (ch.map (sortTree lc))) &&
        sortedForestB lc (stableSortBy (nodeLt lc)
          (ch.map (sortTree lc)))) = true
      rw [sortedChildren_of_pairwise _
          (pairwise_scb (nodeLt_negtrans hc ht he) (nodeLt_asymm hc) _),
        sortedForestB_of_all _ ?_]
      · rfl
      · intro c hcm
        have hcm' : c ∈ ch.map (sortTree lc) :=
          (stableSortBy_perm _ _).mem_iff.mp hcm
        obtain ⟨c0, hc0, hc0e⟩ := List.mem_map.mp hcm'
        have hsz : nodeSize c0 ≤ n := by
          have h1 := nodeSize_le_forestSize ch c0 hc0
          have h2 : nodeSize (TreeNode.folder m ch) = 1 + forestSize ch := rfl
          rw [h2] at h
          omega
        rw [← hc0e]
        exact ihn c0 hsz

lemma charListCmp_anti : ∀ as bs : List Char,
    charListCmp bs as = -charListCmp as bs := by
  intro as
  induction as with
  | nil =>
    intro bs
    rcases bs with _ | ⟨b, bs'⟩ <;> simp [charListCmp]
  | cons a as' ih =>
    intro bs
    rcases bs with _ | ⟨b, bs'⟩
    · simp [charListCmp]
    · simp only [charListCmp]
      by_cases hab : a < b
      · have hba := lt_asymm hab
        rw [if_neg hba, if_pos hab, if_pos hab]
        decide
      · by_cases hba : b < a
        · rw [if_pos hba, if_neg hab, if_pos hba]
        · rw [if_neg hba, if_neg hab, if_neg hab, if_neg hba]
          exact ih bs'

lemma charListCmp_trans : ∀ as bs cs : List Char,
    charListCmp as bs < 0 → charListCmp bs cs < 0 →
    charListCmp as cs < 0 := by
  intro as
  induction as with
  | nil =>
    intro bs cs h1 h2
    rcases bs with _ | ⟨b, bs'⟩
    · simp [charListCmp] at h1
    · rcases cs with _ | ⟨c, cs'⟩
      · simp [charListCmp] at h2
      · simp [charListCmp]
  | cons a as' ih =>
    intro bs cs h1 h2
    rcases bs with _ | ⟨b, bs'⟩
    · simp [charListCmp] at h1
    · rcases cs with _ | ⟨c, cs'⟩
      · simp [charListCmp] at h2
      · simp only [charListCmp] at h1 h2 ⊢
        by_cases hab : a < b
        · by_cases hbc : b < c
          · rw [if_pos (lt_trans hab hbc)]
            decide
          · by_cases hcb : c < b
            · rw [if_neg hbc, if_pos hcb] at h2
              exact absurd h2 (by decide)
            · have hbceq : b = c := le_antisymm (not_lt.mp hcb) (not_lt.mp hbc)
              subst hbceq
              rw [if_pos hab]
              decide
        · by_cases hba : b < a
          · rw [if_neg hab, if_pos hba] at h1
            exact absurd h1 (by decide)
          · have habeq : a = b := le_antisymm (not_lt.mp hba) (not_lt.mp hab)
            subst habeq
            rw [if_neg (lt_irrefl a), if_neg (lt_irrefl a)] at h1
            by_cases hac : a < c
            · rw [if_pos hac]
              decide
            · by_cases hca : c < a
              · rw [if_neg hac, if_pos hca] at h2
                exact absurd h2 (by decide)
              · rw [if_neg hac, if_neg hca] at h2
                rw [if_neg hac, if_neg hca]
                exact ih bs' cs' h1 h2

lemma codeCmp_consist : LCConsist codeCmp := by
  intro a b
  show charListCmp a.data b.data < 0 ↔ 0 < charListCmp b.data a.data
  rw [charListCmp_anti a.data b.data]
  omega

lemma codeCmp_trans : LCTrans codeCmp :=
  fun a b c h1 h2 => charListCmp_trans a.data b.data c.data h1 h2

lemma charListCmp_eq_zero : ∀ as bs : List Char,
    charListCmp as bs = 0 → as = bs := by
  intro as
  induction as with
  | nil =>
    intro bs h
    rcases bs with _ | ⟨b, bs'⟩
    · rfl
    · simp [charListCmp] at h
  | cons a as' ih =>
    intro bs h
    rcases bs with _ | ⟨b, bs'⟩
    · simp [charListCmp] at h
    · simp only [charListCmp] at h
      by_cases hab : a < b
      · rw [if_pos hab] at h
        exact absurd h (by decide)
      · by_cases hba : b < a
        · rw [if_neg hab, if_pos hba] at h
          exact absurd h (by decide)
        · have habeq : a = b := le_antisymm (not_lt.mp hba) (not_lt.mp hab)
          rw [if_neg hab, if_neg hba] at h
          rw [habeq, ih bs' h]

lemma codeCmp_eq : LCEq codeCmp := by
  intro a b h
  have hd := charListCmp_eq_zero a.data b.data h
  obtain ⟨da⟩ := a
  obtain ⟨db⟩ := b
  exact congrArg String.mk hd

/-- C7: `buildFileTreeFromPaths` is order-independent — for any two
permutations of the input absolute-path list (with a comparator `lc` standing
for `localeCompare` that is consistent, transitive and separating, and inputs
free of backslashes, which on a POSIX platform are ordinary name characters
that `replace(/\\/g, "/")` would rewrite into separators), the resulting
trees are structurally identical, and every folder's children in the result
are sorted folders-before-files and by comparator order within a type. -/
theorem buildFileTreeFromPaths_order_independent
    (lc : String → String → Int) (hc : LCConsist lc) (ht : LCTrans lc)
    (he : LCEq lc) (cwd rootDir : String) (paths1 paths2 : List String)
    (hperm : paths1.Perm paths2)
    (hcwd : '\\' ∉ cwd.data) (hpaths : ∀ p ∈ paths1, '\\' ∉ p.data) :
    buildFileTreeFromPaths lc cwd rootDir paths1 =
      buildFileTreeFromPaths lc cwd rootDir paths2 ∧
    sortedNode lc (buildFileTreeFromPaths lc cwd rootDir paths1) = true := by
  have hroot : UF (TreeNode.folder "root" []) :=
    UF.folder _ _ (by intro c hc'; simp at hc') (by intro name; simp)
  constructor
  · rw [build_eq_foldl, build_eq_foldl,
      sortTree_foldl_insertPath hc ht he cwd rootDir paths1 _ hroot,
      sortTree_foldl_insertPath hc ht he cwd rootDir paths2 _ hroot]
    exact hperm.foldl_eq' (fun x hx y hy z =>
      sortedInsert_comm hc ht he (partsOfAbs cwd rootDir x)
        (partsOfAbs cwd rootDir y) z (relOfAbs cwd rootDir x)
        (relOfAbs cwd rootDir y)
        (fun hp => rel_eq_of_parts_eq cwd rootDir hcwd (hpaths x hx)
          (hpaths y hy) hp)) _
  · rw [build_eq_foldl]
    exact sortedNode_sortTree hc ht he (nodeSize _) _ (Nat.le_refl _)

theorem buildFileTreeFromPaths_order_independent_witness :
    buildFileTreeFromPaths codeCmp "/w" "/r"
        ["/r/b/x.js", "/r/a.js", "/r/b/a.js"] =
      buildFileTreeFromPaths codeCmp "/w" "/r"
        ["/r/a.js", "/r/b/a.js", "/r/b/x.js"] ∧
    sortedNode codeCmp (buildFileTreeFromPaths codeCmp "/w" "/r"
        ["/r/b/x.js", "/r/a.js", "/r/b/a.js"]) = true :=
  buildFileTreeFromPaths_order_independent codeCmp codeCmp_consist
    codeCmp_trans codeCmp_eq "/w" "/r" _ _ (by decide) (by decide) (by decide)
